import Mathlib

/-!
Verification development for the fumin/ctw repository.

The repository couples a Context Tree Weighting (CTW) probabilistic model
with two finite-precision arithmetic coders (a Witten–Neal–Cleary variant
and a Rissanen–Langdon variant).  This file gives a shallow embedding of
the relevant Go source files and proves properties about it:

* namespace `ctw` — embedding of `ctw.go` / the revisions of this file
  (the context tree, the Krichevsky–Trofimov updates, `update`/`revert`,
  `CTW`, `CTWReverter`).  Go `float64` values are modelled as real numbers,
  Go `uint32` counters as naturals reduced mod 2^32 at the increment,
  Go bit-valued `int`s (the code aborts on values other than 0/1) as `Bool`
  (`false` = 0, `true` = 1), and Go `nil` child pointers as `Option`.
  Because trees are values here, the pointer-based `revert` is embedded as
  a function that rewrites the scalar fields along the context path that
  the corresponding `update` walked; the reverter stores that path with
  each traversal, which is the functional counterpart of Go's node
  pointers.
* namespace `ctwq` — an exact rational mirror of the log-space tree used
  to reason about the real-valued embedding (each stored log-probability
  is the log of a positive rational, and the embedding is proved to
  simulate the rational mirror exactly).
* namespace `witten` — embedding of `ac/witten/ac.go`.  The coder consults
  its model only through the integer `uint64(prob0*topValueDbl)` and the
  observed bits, so the model is embedded as a deterministic state machine
  supplying that integer directly.  `uint64` arithmetic is ℕ with explicit
  `% 2^64` where the Go code can wrap.  The unbounded Go `for` loops are
  embedded with explicit fuel and are proved to finish within the provided
  fuel on the states the theorems speak about.
* namespace `rl` — embedding of the per-symbol probability preparation and
  relabeling logic of the Rissanen–Langdon coder revision.
-/

namespace ctw

/-- Scalar fields of a context-tree node (`treeNode` in `ctw.go`):
log probability of the suffix, the zero/one counters, and the log of the
Krichevsky–Trofimov estimate. -/
structure TreeNode where
  LogProb : ℝ
  a : ℕ
  b : ℕ
  lktp : ℝ

/-- A context tree: a node with scalar fields and two optional children.
`right` is followed for a context bit 0, `left` for a context bit 1,
exactly as in `ctw.go`. -/
inductive CTree where
  | node (dt : TreeNode) (left right : Option CTree) : CTree

/-- The all-zero scalar record of a freshly allocated Go `treeNode{}`. -/
def zeroData : TreeNode := ⟨0, 0, 0, 0⟩

/-- A freshly created node (`&treeNode{}`): zero scalars, no children. -/
def zeroTree : CTree := .node zeroData none none

def CTree.dt : CTree → TreeNode
  | .node d _ _ => d

def CTree.left : CTree → Option CTree
  | .node _ l _ => l

def CTree.right : CTree → Option CTree
  | .node _ _ r => r

/-- `logaddexp` from `ctw.go`: a stable `log(exp x + exp y)`.  Over ℝ the
`NaN` branch of the Go code is unreachable (the total order decides
`x - y > 0` or `x - y ≤ 0`). -/
noncomputable def logaddexp (x y : ℝ) : ℝ :=
  if x - y > 0 then x + Real.log (1 + Real.exp (-(x - y)))
  else y + Real.log (1 + Real.exp (x - y))

/-- `krichevskyTrofimov` from `ctw.go`: incremental KT update of a node's
counters and log-estimate for an observed bit.  The counters are `uint32`
in Go, hence the `% 2 ^ 32` at the increment; the floating point reads of
the counters happen before the increment, as in the source. -/
noncomputable def krichevskyTrofimov (dt : TreeNode) (bit : Bool) : TreeNode :=
  if bit = false then
    { dt with
      lktp := dt.lktp + Real.log ((dt.a : ℝ) + 0.5) - Real.log ((dt.a : ℝ) + (dt.b : ℝ) + 1),
      a := (dt.a + 1) % 2 ^ 32 }
  else
    { dt with
      lktp := dt.lktp + Real.log ((dt.b : ℝ) + 0.5) - Real.log ((dt.a : ℝ) + (dt.b : ℝ) + 1),
      b := (dt.b + 1) % 2 ^ 32 }

/-- The bottom-up recomputation of a node's `LogProb` in `update`
(`ctw.go` current revision): when at least one child is present the node
mixes its KT estimate with the children's product, a missing child
contributing log-probability 0; otherwise the node is leaf-like. -/
noncomputable def recomputeData (dt : TreeNode) (l r : Option CTree) : TreeNode :=
  match l, r with
  | none, none => { dt with LogProb := dt.lktp }
  | _, _ =>
    let lp : ℝ := match l with | none => 0 | some c => c.dt.LogProb
    let rp : ℝ := match r with | none => 0 | some c => c.dt.LogProb
    { dt with LogProb := logaddexp (Real.log (1/2) + dt.lktp) (Real.log (1 - 1/2) + lp + rp) }

/-- The recomputation step of the `SeqProb` revision of the file
(`Node`-based revision): the node mixes only when both children are
present, and is treated as leaf-like otherwise. -/
noncomputable def recomputeDataAnd (dt : TreeNode) (l r : Option CTree) : TreeNode :=
  match l, r with
  | some lc, some rc =>
    { dt with LogProb := Real.log (1/2) + logaddexp dt.lktp (lc.dt.LogProb + rc.dt.LogProb) }
  | _, _ => { dt with LogProb := dt.lktp }

/-- A snapshot taken during the walk of `update`: the node's scalar state
at visit time and whether the walk freshly created the node.  The Go
snapshot also stores the node pointer; here the node is identified by its
position on the walked context path. -/
structure Snap where
  state : TreeNode
  isNew : Bool

/-- The walk of `update` (`ctw.go`): `ctx` is the context read from the
most recent bit to the oldest (the source indexes `bits[len(bits)-1-d]`
at depth `d`).  Each visited node is snapshotted and KT-updated on the way
down (children created on first visit), and `LogProb` is recomputed on
the way back up.  `isNewSelf` is the creation flag the caller records for
the visited node. -/
noncomputable def updateWalk : List Bool → CTree → Bool → Bool → CTree × List Snap
  | [], .node dt l r, bit, isNewSelf =>
    (.node (recomputeData (krichevskyTrofimov dt bit) l r) l r, [⟨dt, isNewSelf⟩])
  | c :: rest, .node dt l r, bit, isNewSelf =>
    if c = false then
      let ch := match r with | none => zeroTree | some t => t
      let chNew := match r with | none => true | some _ => false
      let res := updateWalk rest ch bit chNew
      (.node (recomputeData (krichevskyTrofimov dt bit) l (some res.1)) l (some res.1),
        ⟨dt, isNewSelf⟩ :: res.2)
    else
      let ch := match l with | none => zeroTree | some t => t
      let chNew := match l with | none => true | some _ => false
      let res := updateWalk rest ch bit chNew
      (.node (recomputeData (krichevskyTrofimov dt bit) (some res.1) r) (some res.1) r,
        ⟨dt, isNewSelf⟩ :: res.2)

/-- `update` from the current `ctw.go`: walk the context (most recent bit
first), update, and return the new tree together with the traversal log. -/
noncomputable def update (root : CTree) (bits : List Bool) (bit : Bool) : CTree × List Snap :=
  updateWalk bits.reverse root bit false

/-- `revert` from the current `ctw.go`: restore the scalar fields of every
node on the traversal from its snapshot.  The memory-releasing detachment
of freshly created children is commented out in the source, so children
are kept.  The traversal nodes are addressed by the context path `ctx`
that the corresponding `update` walked (the functional counterpart of the
stored Go pointers); a missing node on that path is materialised as a
fresh zero node, which never happens in the reachable states since
`update` created those nodes. -/
noncomputable def applySnaps : CTree → List Bool → List Snap → CTree
  | t, _, [] => t
  | .node _ l r, [], s :: _ => .node s.state l r
  | .node _ l r, c :: rest, s :: srest =>
    if c = false then
      .node s.state l (some (applySnaps (match r with | none => zeroTree | some t => t) rest srest))
    else
      .node s.state (some (applySnaps (match l with | none => zeroTree | some t => t) rest srest)) r

/-- The walk of the `SeqProb` revision with `update = true` (same walk as
`updateWalk`, but with the both-children recomputation rule). -/
noncomputable def seqProbWalkAnd : List Bool → CTree → Bool → CTree
  | [], .node dt l r, bit =>
    .node (recomputeDataAnd (krichevskyTrofimov dt bit) l r) l r
  | c :: rest, .node dt l r, bit =>
    if c = false then
      let ch := match r with | none => zeroTree | some t => t
      let ch1 := seqProbWalkAnd rest ch bit
      .node (recomputeDataAnd (krichevskyTrofimov dt bit) l (some ch1)) l (some ch1)
    else
      let ch := match l with | none => zeroTree | some t => t
      let ch1 := seqProbWalkAnd rest ch bit
      .node (recomputeDataAnd (krichevskyTrofimov dt bit) (some ch1) r) (some ch1) r

/-- `SeqProb(root, bits, bit, true)` of the `Node`-based revision: the
mutated tree.  The value the Go function returns is the new root's
`LogProb`. -/
noncomputable def SeqProbT (root : CTree) (bits : List Bool) (bit : Bool) : CTree :=
  seqProbWalkAnd bits.reverse root bit

/-- The `CTW` model: context bits (oldest first, as stored in Go) and the
tree root. -/
structure CTW where
  bits : List Bool
  root : CTree

/-- `NewCTW`: prior context and an empty tree. -/
def NewCTW (bits : List Bool) : CTW := ⟨bits, zeroTree⟩

/-- The context-buffer shift performed at the end of `Observe`: drop the
oldest bit, append the new one.  (For an empty context the Go code would
panic on the index `len(bits)-1`; all states considered have a nonempty
context.) -/
def shiftBits (bits : List Bool) (bit : Bool) : List Bool := bits.tail ++ [bit]

/-- The lowercase `observe` of the current revision: update the tree,
shift the context, and return the traversal log. -/
noncomputable def CTW.observe (m : CTW) (bit : Bool) : CTW × List Snap :=
  let res := update m.root m.bits bit
  (⟨shiftBits m.bits bit, res.1⟩, res.2)

/-- `CTW.Observe`. -/
noncomputable def CTW.Observe (m : CTW) (bit : Bool) : CTW := (m.observe bit).1

/-- `CTW.Prob0` of the current revision: speculatively update with a zero
bit, read the root log-probability before and after, revert, and return
`exp(after − before)`.  The returned pair is the value together with the
model state the call leaves behind (the Go method mutates in place and
returns only the value). -/
noncomputable def CTW.Prob0 (m : CTW) : ℝ × CTW :=
  let before := m.root.dt.LogProb
  let res := update m.root m.bits false
  let after := res.1.dt.LogProb
  (Real.exp (after - before), ⟨m.bits, applySnaps res.1 m.bits.reverse res.2⟩)

/-- `CTWReverter`: a back-reference to the model, the stack of evicted
context bits, and the stack of traversal logs (each stored with the
context path its `update` walked — the functional counterpart of the Go
node pointers). -/
structure CTWReverter where
  model : CTW
  bits : List Bool
  traversals : List (List Bool × List Snap)

def NewCTWReverter (m : CTW) : CTWReverter := ⟨m, [], []⟩

/-- `CTWReverter.Observe`: push the context bit about to be evicted and
the traversal log of the underlying `observe`. -/
noncomputable def CTWReverter.Observe (cr : CTWReverter) (bit : Bool) : CTWReverter :=
  let res := cr.model.observe bit
  { model := res.1,
    bits := cr.bits ++ [cr.model.bits.headI],
    traversals := cr.traversals ++ [(cr.model.bits.reverse, res.2)] }

/-- `CTWReverter.Unobserve`: revert the most recent traversal, shift the
context buffer backward, and restore the evicted bit at position 0.  The
Go method indexes `traversals[len-1]` and `bits[len-1]` unconditionally
and hence panics when the stacks are empty; the panic is embedded as
`none`. -/
noncomputable def CTWReverter.Unobserve (cr : CTWReverter) : Option CTWReverter :=
  match cr.traversals.getLast?, cr.bits.getLast? with
  | some tv, some evicted =>
    some { model := ⟨evicted :: cr.model.bits.dropLast, applySnaps cr.model.root tv.1 tv.2⟩,
           bits := cr.bits.dropLast,
           traversals := cr.traversals.dropLast }
  | _, _ => none

end ctw

namespace ctwq

/-- Exact rational mirror of a tree node: `p = exp LogProb`,
`kt = exp lktp`. -/
structure QNode where
  p : ℚ
  kt : ℚ
  a : ℕ
  b : ℕ
deriving Repr, DecidableEq

inductive QTree where
  | node (dt : QNode) (left right : Option QTree) : QTree

def oneData : QNode := ⟨1, 1, 0, 0⟩

def oneTree : QTree := .node oneData none none

def QTree.dt : QTree → QNode
  | .node d _ _ => d

/-- Rational mirror of `krichevskyTrofimov`. -/
def ktQ (dt : QNode) (bit : Bool) : QNode :=
  if bit = false then
    { dt with
      kt := dt.kt * (((dt.a : ℚ) + 1/2) / ((dt.a : ℚ) + (dt.b : ℚ) + 1)),
      a := (dt.a + 1) % 2 ^ 32 }
  else
    { dt with
      kt := dt.kt * (((dt.b : ℚ) + 1/2) / ((dt.a : ℚ) + (dt.b : ℚ) + 1)),
      b := (dt.b + 1) % 2 ^ 32 }

/-- Rational mirror of `recomputeData` (at least one child ⇒ mix, a
missing child contributing probability 1). -/
def recomputeQ (dt : QNode) (l r : Option QTree) : QNode :=
  match l, r with
  | none, none => { dt with p := dt.kt }
  | _, _ =>
    let lp : ℚ := match l with | none => 1 | some c => c.dt.p
    let rp : ℚ := match r with | none => 1 | some c => c.dt.p
    { dt with p := (1/2) * dt.kt + (1/2) * (lp * rp) }

/-- Rational mirror of `recomputeDataAnd` (both children ⇒ mix). -/
def recomputeQAnd (dt : QNode) (l r : Option QTree) : QNode :=
  match l, r with
  | some lc, some rc => { dt with p := (1/2) * (dt.kt + lc.dt.p * rc.dt.p) }
  | _, _ => { dt with p := dt.kt }

structure QSnap where
  state : QNode
  isNew : Bool
deriving Repr, DecidableEq

/-- Rational mirror of `updateWalk`. -/
def updateWalkQ : List Bool → QTree → Bool → Bool → QTree × List QSnap
  | [], .node dt l r, bit, isNewSelf =>
    (.node (recomputeQ (ktQ dt bit) l r) l r, [⟨dt, isNewSelf⟩])
  | c :: rest, .node dt l r, bit, isNewSelf =>
    if c = false then
      let ch := match r with | none => oneTree | some t => t
      let chNew := match r with | none => true | some _ => false
      let res := updateWalkQ rest ch bit chNew
      (.node (recomputeQ (ktQ dt bit) l (some res.1)) l (some res.1),
        ⟨dt, isNewSelf⟩ :: res.2)
    else
      let ch := match l with | none => oneTree | some t => t
      let chNew := match l with | none => true | some _ => false
      let res := updateWalkQ rest ch bit chNew
      (.node (recomputeQ (ktQ dt bit) (some res.1) r) (some res.1) r,
        ⟨dt, isNewSelf⟩ :: res.2)

def updateQ (root : QTree) (bits : List Bool) (bit : Bool) : QTree × List QSnap :=
  updateWalkQ bits.reverse root bit false

/-- Rational mirror of `applySnaps`. -/
def applySnapsQ : QTree → List Bool → List QSnap → QTree
  | t, _, [] => t
  | .node _ l r, [], s :: _ => .node s.state l r
  | .node _ l r, c :: rest, s :: srest =>
    if c = false then
      .node s.state l (some (applySnapsQ (match r with | none => oneTree | some t => t) rest srest))
    else
      .node s.state (some (applySnapsQ (match l with | none => oneTree | some t => t) rest srest)) r

/-- Rational mirror of `seqProbWalkAnd`. -/
def seqProbWalkQAnd : List Bool → QTree → Bool → QTree
  | [], .node dt l r, bit => .node (recomputeQAnd (ktQ dt bit) l r) l r
  | c :: rest, .node dt l r, bit =>
    if c = false then
      let ch := match r with | none => oneTree | some t => t
      let ch1 := seqProbWalkQAnd rest ch bit
      .node (recomputeQAnd (ktQ dt bit) l (some ch1)) l (some ch1)
    else
      let ch := match l with | none => oneTree | some t => t
      let ch1 := seqProbWalkQAnd rest ch bit
      .node (recomputeQAnd (ktQ dt bit) (some ch1) r) (some ch1) r

def SeqProbQT (root : QTree) (bits : List Bool) (bit : Bool) : QTree :=
  seqProbWalkQAnd bits.reverse root bit

/-- All probabilities and estimates of the mirror are positive. -/
inductive QPos : QTree → Prop
  | mk (dt : QNode) (l r : Option QTree) :
      0 < dt.p → 0 < dt.kt →
      (∀ c, l = some c → QPos c) → (∀ c, r = some c → QPos c) →
      QPos (.node dt l r)

theorem QPos.p_pos : ∀ {t : QTree}, QPos t → 0 < t.dt.p := by
  rintro ⟨dt, l, r⟩ h
  cases h with
  | mk _ _ _ hp _ _ _ => exact hp

theorem QPos.kt_pos : ∀ {t : QTree}, QPos t → 0 < t.dt.kt := by
  rintro ⟨dt, l, r⟩ h
  cases h with
  | mk _ _ _ _ hkt _ _ => exact hkt

theorem QPos.left : ∀ {dt l r c}, QPos (QTree.node dt l r) → l = some c → QPos c := by
  intro dt l r c h hc
  cases h with
  | mk _ _ _ _ _ hl _ => exact hl _ hc

theorem QPos.right : ∀ {dt l r c}, QPos (QTree.node dt l r) → r = some c → QPos c := by
  intro dt l r c h hc
  cases h with
  | mk _ _ _ _ _ _ hr => exact hr _ hc

theorem QPos_oneTree : QPos oneTree := by
  refine .mk _ _ _ (by norm_num [oneData]) (by norm_num [oneData]) ?_ ?_ <;>
    intro c h <;> cases h

end ctwq

namespace ctwq

/-- `QPos` is preserved by the KT update. -/
theorem ktQ_p (dt : QNode) (bit : Bool) : (ktQ dt bit).p = dt.p := by
  unfold ktQ
  by_cases h : bit = false <;> simp [h]

theorem ktQ_kt_pos {dt : QNode} (bit : Bool) (hkt : 0 < dt.kt) : 0 < (ktQ dt bit).kt := by
  unfold ktQ
  by_cases h : bit = false <;> simp only [h, if_true, if_false, Bool.false_eq_true] <;>
    exact mul_pos hkt (div_pos (by positivity) (by positivity))

theorem recomputeQ_kt (dt : QNode) (l r : Option QTree) : (recomputeQ dt l r).kt = dt.kt := by
  unfold recomputeQ
  cases l <;> cases r <;> rfl

theorem recomputeQ_p_pos {dt : QNode} {l r : Option QTree} (hkt : 0 < dt.kt)
    (hl : ∀ c, l = some c → 0 < c.dt.p) (hr : ∀ c, r = some c → 0 < c.dt.p) :
    0 < (recomputeQ dt l r).p := by
  unfold recomputeQ
  cases l with
  | none =>
    cases r with
    | none => exact hkt
    | some rc =>
      have := hr rc rfl
      simp only []
      positivity
  | some lc =>
    have hlc := hl lc rfl
    cases r with
    | none =>
      simp only []
      positivity
    | some rc =>
      have := hr rc rfl
      simp only []
      positivity

theorem QPos_updateWalk (ctx : List Bool) :
    ∀ (qt : QTree) (bit flag : Bool), QPos qt → QPos (updateWalkQ ctx qt bit flag).1 := by
  induction ctx with
  | nil =>
    rintro ⟨dt, l, r⟩ bit flag h
    refine .mk _ _ _ ?_ ?_ (fun c hc => h.left hc) (fun c hc => h.right hc)
    · exact recomputeQ_p_pos (ktQ_kt_pos bit h.kt_pos)
        (fun c hc => (h.left hc).p_pos) (fun c hc => (h.right hc).p_pos)
    · rw [recomputeQ_kt]
      exact ktQ_kt_pos bit h.kt_pos
  | cons c rest ih =>
    rintro ⟨dt, l, r⟩ bit flag h
    unfold updateWalkQ
    by_cases hc : c = false <;> simp only [hc, if_true, if_false, Bool.false_eq_true]
    · cases r with
      | none =>
        have hres := ih oneTree bit true QPos_oneTree
        refine .mk _ _ _ ?_ ?_ (fun c hc => h.left hc) (fun c hc => by cases hc; exact hres)
        · exact recomputeQ_p_pos (ktQ_kt_pos bit h.kt_pos)
            (fun c hc => (h.left hc).p_pos) (fun c hc => by cases hc; exact hres.p_pos)
        · rw [recomputeQ_kt]
          exact ktQ_kt_pos bit h.kt_pos
      | some t =>
        have hres := ih t bit false (h.right rfl)
        refine .mk _ _ _ ?_ ?_ (fun c hc => h.left hc) (fun c hc => by cases hc; exact hres)
        · exact recomputeQ_p_pos (ktQ_kt_pos bit h.kt_pos)
            (fun c hc => (h.left hc).p_pos) (fun c hc => by cases hc; exact hres.p_pos)
        · rw [recomputeQ_kt]
          exact ktQ_kt_pos bit h.kt_pos
    · cases l with
      | none =>
        have hres := ih oneTree bit true QPos_oneTree
        refine .mk _ _ _ ?_ ?_ (fun c hc => by cases hc; exact hres) (fun c hc => h.right hc)
        · exact recomputeQ_p_pos (ktQ_kt_pos bit h.kt_pos)
            (fun c hc => by cases hc; exact hres.p_pos) (fun c hc => (h.right hc).p_pos)
        · rw [recomputeQ_kt]
          exact ktQ_kt_pos bit h.kt_pos
      | some t =>
        have hres := ih t bit false (h.left rfl)
        refine .mk _ _ _ ?_ ?_ (fun c hc => by cases hc; exact hres) (fun c hc => h.right hc)
        · exact recomputeQ_p_pos (ktQ_kt_pos bit h.kt_pos)
            (fun c hc => by cases hc; exact hres.p_pos) (fun c hc => (h.right hc).p_pos)
        · rw [recomputeQ_kt]
          exact ktQ_kt_pos bit h.kt_pos

end ctwq


namespace ctw

/-- `logaddexp` computes `log (exp x + exp y)` exactly over ℝ. -/
theorem logaddexp_eq (x y : ℝ) : logaddexp x y = Real.log (Real.exp x + Real.exp y) := by
  unfold logaddexp
  by_cases h : x - y > 0
  · rw [if_pos h]
    have h2 : x + -(x - y) = y := by ring
    have h1 : Real.exp x * (1 + Real.exp (-(x - y))) = Real.exp x + Real.exp y := by
      rw [mul_add, mul_one, ← Real.exp_add, h2]
    rw [← h1, Real.log_mul (Real.exp_ne_zero x) (by positivity), Real.log_exp]
  · rw [if_neg h]
    have h2 : y + (x - y) = x := by ring
    have h1 : Real.exp y * (1 + Real.exp (x - y)) = Real.exp x + Real.exp y := by
      rw [mul_add, mul_one, ← Real.exp_add, h2, add_comm]
    rw [← h1, Real.log_mul (Real.exp_ne_zero y) (by positivity), Real.log_exp]

/-- The real-valued node corresponding to a rational mirror node: the
stored reals are the logs of the mirrored rationals. -/
noncomputable def toLogData (d : ctwq.QNode) : TreeNode :=
  ⟨Real.log (d.p : ℝ), d.a, d.b, Real.log (d.kt : ℝ)⟩

noncomputable def toLog : ctwq.QTree → CTree
  | .node d l r =>
    .node (toLogData d)
      (match l with | none => none | some c => some (toLog c))
      (match r with | none => none | some c => some (toLog c))

noncomputable def toLogSnap (s : ctwq.QSnap) : Snap := ⟨toLogData s.state, s.isNew⟩

theorem toLog_dt (t : ctwq.QTree) : (toLog t).dt = toLogData t.dt := by
  cases t
  rw [toLog.eq_def]
  rfl

theorem toLog_oneTree : toLog ctwq.oneTree = zeroTree := by
  unfold toLog ctwq.oneTree zeroTree toLogData ctwq.oneData zeroData
  norm_num

/-- `krichevskyTrofimov` simulates the rational KT update. -/
theorem kt_sim (d : ctwq.QNode) (bit : Bool) (hkt : 0 < d.kt) :
    krichevskyTrofimov (toLogData d) bit = toLogData (ctwq.ktQ d bit) := by
  unfold krichevskyTrofimov ctwq.ktQ toLogData
  have ha : (0 : ℝ) < (d.a : ℝ) + 1/2 := by positivity
  have hb : (0 : ℝ) < (d.b : ℝ) + 1/2 := by positivity
  have hab : (0 : ℝ) < (d.a : ℝ) + (d.b : ℝ) + 1 := by positivity
  have hktr : (0 : ℝ) < (d.kt : ℝ) := by exact_mod_cast hkt
  by_cases h : bit = false <;> simp only [h, if_true, if_false, Bool.false_eq_true] <;>
    refine TreeNode.mk.injEq _ _ _ _ _ _ _ _ ▸ ⟨rfl, ?_, ?_, ?_⟩ <;>
    try rfl
  · push_cast
    rw [Real.log_mul (ne_of_gt hktr) (ne_of_gt (div_pos ha hab)), Real.log_div (ne_of_gt ha) (ne_of_gt hab)]
    norm_num
    ring
  · push_cast
    rw [Real.log_mul (ne_of_gt hktr) (ne_of_gt (div_pos hb hab)), Real.log_div (ne_of_gt hb) (ne_of_gt hab)]
    norm_num
    ring

noncomputable def toLogOpt : Option ctwq.QTree → Option CTree
  | none => none
  | some c => some (toLog c)

theorem toLog_node (d : ctwq.QNode) (l r : Option ctwq.QTree) :
    toLog (.node d l r) = .node (toLogData d) (toLogOpt l) (toLogOpt r) := by
  rw [toLog.eq_def]
  cases l <;> cases r <;> rfl

theorem log_half_add (u v : ℝ) (hu : 0 < u) (hv : 0 < v) :
    logaddexp (Real.log (1/2) + Real.log u) (Real.log (1 - 1/2) + Real.log v) =
      Real.log ((1/2) * u + (1/2) * v) := by
  rw [logaddexp_eq]
  have h2 : (1 - 1/2 : ℝ) = 1/2 := by norm_num
  have h1 : Real.exp (Real.log (1/2) + Real.log u) = (1/2) * u := by
    rw [Real.exp_add, Real.exp_log (by norm_num), Real.exp_log hu]
  have h3 : Real.exp (Real.log (1 - 1/2) + Real.log v) = (1/2) * v := by
    rw [h2, Real.exp_add, Real.exp_log (by norm_num), Real.exp_log hv]
  rw [h1, h3]

/-- Constructor-level reductions of the recomputation functions (the
wildcard match in the source prevents automatic equation lemmas). -/
theorem recomputeData_nn (dt : TreeNode) :
    recomputeData dt none none = { dt with LogProb := dt.lktp } := rfl

theorem recomputeData_ns (dt : TreeNode) (rc : CTree) :
    recomputeData dt none (some rc) =
      { dt with LogProb := logaddexp (Real.log (1/2) + dt.lktp) (Real.log (1 - 1/2) + 0 + rc.dt.LogProb) } := rfl

theorem recomputeData_sn (dt : TreeNode) (lc : CTree) :
    recomputeData dt (some lc) none =
      { dt with LogProb := logaddexp (Real.log (1/2) + dt.lktp) (Real.log (1 - 1/2) + lc.dt.LogProb + 0) } := rfl

theorem recomputeData_ss (dt : TreeNode) (lc rc : CTree) :
    recomputeData dt (some lc) (some rc) =
      { dt with LogProb := logaddexp (Real.log (1/2) + dt.lktp) (Real.log (1 - 1/2) + lc.dt.LogProb + rc.dt.LogProb) } := rfl

end ctw

namespace ctwq

theorem recomputeQ_nn (dt : QNode) : recomputeQ dt none none = { dt with p := dt.kt } := rfl

theorem recomputeQ_ns (dt : QNode) (rc : QTree) :
    recomputeQ dt none (some rc) = { dt with p := (1/2) * dt.kt + (1/2) * (1 * rc.dt.p) } := rfl

theorem recomputeQ_sn (dt : QNode) (lc : QTree) :
    recomputeQ dt (some lc) none = { dt with p := (1/2) * dt.kt + (1/2) * (lc.dt.p * 1) } := rfl

theorem recomputeQ_ss (dt : QNode) (lc rc : QTree) :
    recomputeQ dt (some lc) (some rc) = { dt with p := (1/2) * dt.kt + (1/2) * (lc.dt.p * rc.dt.p) } := rfl

end ctwq

namespace ctw

/-- The bottom-up recomputation simulates its rational mirror. -/
theorem recompute_sim (d : ctwq.QNode) (l r : Option ctwq.QTree) (hkt : 0 < d.kt)
    (hl : ∀ c, l = some c → 0 < c.dt.p) (hr : ∀ c, r = some c → 0 < c.dt.p) :
    recomputeData (toLogData d) (toLogOpt l) (toLogOpt r) = toLogData (ctwq.recomputeQ d l r) := by
  have hktr : (0 : ℝ) < (d.kt : ℝ) := by exact_mod_cast hkt
  cases l with
  | none =>
    cases r with
    | none => rfl
    | some rc =>
      have hrc : (0 : ℝ) < (rc.dt.p : ℝ) := by exact_mod_cast hr rc rfl
      have key : logaddexp (Real.log (1/2) + Real.log (d.kt : ℝ))
          (Real.log (1 - 1/2) + 0 + Real.log (rc.dt.p : ℝ)) =
          Real.log (((1/2) * d.kt + (1/2) * (1 * rc.dt.p) : ℚ) : ℝ) := by
        rw [add_zero, log_half_add _ _ hktr hrc]
        push_cast
        ring_nf
      simp only [toLogOpt, ctwq.recomputeQ_ns, recomputeData_ns, toLog_dt, toLogData, key]
  | some lc =>
    have hlc : (0 : ℝ) < (lc.dt.p : ℝ) := by exact_mod_cast hl lc rfl
    cases r with
    | none =>
      have key : logaddexp (Real.log (1/2) + Real.log (d.kt : ℝ))
          (Real.log (1 - 1/2) + Real.log (lc.dt.p : ℝ) + 0) =
          Real.log (((1/2) * d.kt + (1/2) * (lc.dt.p * 1) : ℚ) : ℝ) := by
        rw [add_zero, log_half_add _ _ hktr hlc]
        push_cast
        ring_nf
      simp only [toLogOpt, ctwq.recomputeQ_sn, recomputeData_sn, toLog_dt, toLogData, key]
    | some rc =>
      have hrc : (0 : ℝ) < (rc.dt.p : ℝ) := by exact_mod_cast hr rc rfl
      have key : logaddexp (Real.log (1/2) + Real.log (d.kt : ℝ))
          (Real.log (1 - 1/2) + Real.log (lc.dt.p : ℝ) + Real.log (rc.dt.p : ℝ)) =
          Real.log (((1/2) * d.kt + (1/2) * (lc.dt.p * rc.dt.p) : ℚ) : ℝ) := by
        rw [add_assoc, ← Real.log_mul (ne_of_gt hlc) (ne_of_gt hrc),
          log_half_add _ _ hktr (mul_pos hlc hrc)]
        push_cast
        ring_nf
      simp only [toLogOpt, ctwq.recomputeQ_ss, recomputeData_ss, toLog_dt, toLogData, key]

theorem toLogOpt_none : toLogOpt none = none := rfl

theorem toLogOpt_some (c : ctwq.QTree) : toLogOpt (some c) = some (toLog c) := rfl

/-- `updateWalk` simulates the rational mirror walk exactly. -/
theorem updateWalk_sim (ctx : List Bool) :
    ∀ (qt : ctwq.QTree) (bit flag : Bool), ctwq.QPos qt →
      updateWalk ctx (toLog qt) bit flag =
        (toLog (ctwq.updateWalkQ ctx qt bit flag).1,
          (ctwq.updateWalkQ ctx qt bit flag).2.map toLogSnap) := by
  induction ctx with
  | nil =>
    rintro ⟨d, l, r⟩ bit flag h
    rw [toLog_node]
    simp only [updateWalk, ctwq.updateWalkQ]
    rw [kt_sim d bit h.kt_pos,
      recompute_sim (ctwq.ktQ d bit) l r (by exact ctwq.ktQ_kt_pos bit h.kt_pos)
        (fun c hc => (h.left hc).p_pos) (fun c hc => (h.right hc).p_pos),
      toLog_node]
    simp [toLogSnap]
  | cons c rest ih =>
    rintro ⟨d, l, r⟩ bit flag h
    rw [toLog_node]
    simp only [updateWalk, ctwq.updateWalkQ]
    cases c <;>
      simp only [eq_self_iff_true, if_true, Bool.true_eq_false, if_false, Bool.false_eq_true]
    · cases r with
      | none =>
        have hres := ih ctwq.oneTree bit true ctwq.QPos_oneTree
        have hq := ctwq.QPos_updateWalk rest ctwq.oneTree bit true ctwq.QPos_oneTree
        simp only [toLogOpt_none]
        rw [← toLog_oneTree, hres, kt_sim d bit h.kt_pos]
        have hrec := recompute_sim (ctwq.ktQ d bit) l
            (some (ctwq.updateWalkQ rest ctwq.oneTree bit true).1)
            (by exact ctwq.ktQ_kt_pos bit h.kt_pos)
            (fun c hc => (h.left hc).p_pos)
            (fun c hc => by cases hc; exact hq.p_pos)
        rw [toLogOpt_some] at hrec
        rw [hrec, toLog_node]
        simp [toLogSnap, toLogOpt_some]
      | some t =>
        have hres := ih t bit false (h.right rfl)
        have hq := ctwq.QPos_updateWalk rest t bit false (h.right rfl)
        simp only [toLogOpt_some]
        rw [hres, kt_sim d bit h.kt_pos]
        have hrec := recompute_sim (ctwq.ktQ d bit) l
            (some (ctwq.updateWalkQ rest t bit false).1)
            (by exact ctwq.ktQ_kt_pos bit h.kt_pos)
            (fun c hc => (h.left hc).p_pos)
            (fun c hc => by cases hc; exact hq.p_pos)
        rw [toLogOpt_some] at hrec
        rw [hrec, toLog_node]
        simp [toLogSnap, toLogOpt_some]
    · cases l with
      | none =>
        have hres := ih ctwq.oneTree bit true ctwq.QPos_oneTree
        have hq := ctwq.QPos_updateWalk rest ctwq.oneTree bit true ctwq.QPos_oneTree
        simp only [toLogOpt_none]
        rw [← toLog_oneTree, hres, kt_sim d bit h.kt_pos]
        have hrec := recompute_sim (ctwq.ktQ d bit)
            (some (ctwq.updateWalkQ rest ctwq.oneTree bit true).1) r
            (by exact ctwq.ktQ_kt_pos bit h.kt_pos)
            (fun c hc => by cases hc; exact hq.p_pos)
            (fun c hc => (h.right hc).p_pos)
        rw [toLogOpt_some] at hrec
        rw [hrec, toLog_node]
        simp [toLogSnap, toLogOpt_some]
      | some t =>
        have hres := ih t bit false (h.left rfl)
        have hq := ctwq.QPos_updateWalk rest t bit false (h.left rfl)
        simp only [toLogOpt_some]
        rw [hres, kt_sim d bit h.kt_pos]
        have hrec := recompute_sim (ctwq.ktQ d bit)
            (some (ctwq.updateWalkQ rest t bit false).1) r
            (by exact ctwq.ktQ_kt_pos bit h.kt_pos)
            (fun c hc => by cases hc; exact hq.p_pos)
            (fun c hc => (h.right hc).p_pos)
        rw [toLogOpt_some] at hrec
        rw [hrec, toLog_node]
        simp [toLogSnap, toLogOpt_some]

/-- `applySnaps` simulates its rational mirror (no positivity needed: it
only copies scalar fields). -/
theorem toLogSnap_state (s : ctwq.QSnap) : (toLogSnap s).state = toLogData s.state := rfl

theorem applySnaps_sim (ctx : List Bool) :
    ∀ (qt : ctwq.QTree) (snaps : List ctwq.QSnap),
      applySnaps (toLog qt) ctx (snaps.map toLogSnap) = toLog (ctwq.applySnapsQ qt ctx snaps) := by
  induction ctx with
  | nil =>
    intro qt snaps
    obtain ⟨d, l, r⟩ := qt
    cases snaps with
    | nil =>
      rw [toLog_node]
      simp only [List.map_nil, applySnaps, ctwq.applySnapsQ]
      rw [toLog_node]
    | cons s srest =>
      rw [toLog_node]
      simp only [List.map, applySnaps, ctwq.applySnapsQ]
      rw [toLog_node, toLogSnap_state]
  | cons c rest ih =>
    intro qt snaps
    obtain ⟨d, l, r⟩ := qt
    cases snaps with
    | nil =>
      rw [toLog_node]
      simp only [List.map_nil, applySnaps, ctwq.applySnapsQ]
      rw [toLog_node]
    | cons s srest =>
      rw [toLog_node]
      simp only [List.map, applySnaps, ctwq.applySnapsQ]
      cases c <;>
        simp only [eq_self_iff_true, if_true, Bool.true_eq_false, if_false, Bool.false_eq_true]
      · cases r with
        | none =>
          simp only [toLogOpt_none]
          rw [← toLog_oneTree, ih, toLog_node, toLogOpt_some, toLogSnap_state]
        | some t =>
          simp only [toLogOpt_some]
          rw [ih, toLog_node, toLogOpt_some, toLogSnap_state]
      · cases l with
        | none =>
          simp only [toLogOpt_none]
          rw [← toLog_oneTree, ih, toLog_node, toLogOpt_some, toLogSnap_state]
        | some t =>
          simp only [toLogOpt_some]
          rw [ih, toLog_node, toLogOpt_some, toLogSnap_state]

theorem recomputeDataAnd_ss (dt : TreeNode) (lc rc : CTree) :
    recomputeDataAnd dt (some lc) (some rc) =
      { dt with LogProb := Real.log (1/2) + logaddexp dt.lktp (lc.dt.LogProb + rc.dt.LogProb) } := rfl

theorem recomputeDataAnd_nn (dt : TreeNode) :
    recomputeDataAnd dt none none = { dt with LogProb := dt.lktp } := rfl

theorem recomputeDataAnd_ns (dt : TreeNode) (rc : CTree) :
    recomputeDataAnd dt none (some rc) = { dt with LogProb := dt.lktp } := rfl

theorem recomputeDataAnd_sn (dt : TreeNode) (lc : CTree) :
    recomputeDataAnd dt (some lc) none = { dt with LogProb := dt.lktp } := rfl

end ctw

namespace ctwq

theorem recomputeQAnd_ss (dt : QNode) (lc rc : QTree) :
    recomputeQAnd dt (some lc) (some rc) = { dt with p := (1/2) * (dt.kt + lc.dt.p * rc.dt.p) } := rfl

theorem recomputeQAnd_nn (dt : QNode) : recomputeQAnd dt none none = { dt with p := dt.kt } := rfl

theorem recomputeQAnd_ns (dt : QNode) (rc : QTree) :
    recomputeQAnd dt none (some rc) = { dt with p := dt.kt } := rfl

theorem recomputeQAnd_sn (dt : QNode) (lc : QTree) :
    recomputeQAnd dt (some lc) none = { dt with p := dt.kt } := rfl

theorem recomputeQAnd_kt (dt : QNode) (l r : Option QTree) : (recomputeQAnd dt l r).kt = dt.kt := by
  cases l <;> cases r <;> rfl

theorem recomputeQAnd_p_pos {dt : QNode} {l r : Option QTree} (hkt : 0 < dt.kt)
    (hl : ∀ c, l = some c → 0 < c.dt.p) (hr : ∀ c, r = some c → 0 < c.dt.p) :
    0 < (recomputeQAnd dt l r).p := by
  cases l with
  | none => cases r with
    | none => exact hkt
    | some rc => exact hkt
  | some lc =>
    cases r with
    | none => exact hkt
    | some rc =>
      have h1 := hl lc rfl
      have h2 := hr rc rfl
      rw [recomputeQAnd_ss]
      have : (0 : ℚ) < dt.kt + lc.dt.p * rc.dt.p := by positivity
      simp only []
      positivity

theorem QPos_seqProbWalkQAnd (ctx : List Bool) :
    ∀ (qt : QTree) (bit : Bool), QPos qt → QPos (seqProbWalkQAnd ctx qt bit) := by
  induction ctx with
  | nil =>
    rintro ⟨dt, l, r⟩ bit h
    refine .mk _ _ _ ?_ ?_ (fun c hc => h.left hc) (fun c hc => h.right hc)
    · exact recomputeQAnd_p_pos (ktQ_kt_pos bit h.kt_pos)
        (fun c hc => (h.left hc).p_pos) (fun c hc => (h.right hc).p_pos)
    · rw [recomputeQAnd_kt]
      exact ktQ_kt_pos bit h.kt_pos
  | cons c rest ih =>
    rintro ⟨dt, l, r⟩ bit h
    unfold seqProbWalkQAnd
    cases c <;>
      simp only [eq_self_iff_true, if_true, Bool.true_eq_false, if_false, Bool.false_eq_true]
    · cases r with
      | none =>
        have hres := ih oneTree bit QPos_oneTree
        refine .mk _ _ _ ?_ ?_ (fun c hc => h.left hc) (fun c hc => by cases hc; exact hres)
        · exact recomputeQAnd_p_pos (ktQ_kt_pos bit h.kt_pos)
            (fun c hc => (h.left hc).p_pos) (fun c hc => by cases hc; exact hres.p_pos)
        · rw [recomputeQAnd_kt]
          exact ktQ_kt_pos bit h.kt_pos
      | some t =>
        have hres := ih t bit (h.right rfl)
        refine .mk _ _ _ ?_ ?_ (fun c hc => h.left hc) (fun c hc => by cases hc; exact hres)
        · exact recomputeQAnd_p_pos (ktQ_kt_pos bit h.kt_pos)
            (fun c hc => (h.left hc).p_pos) (fun c hc => by cases hc; exact hres.p_pos)
        · rw [recomputeQAnd_kt]
          exact ktQ_kt_pos bit h.kt_pos
    · cases l with
      | none =>
        have hres := ih oneTree bit QPos_oneTree
        refine .mk _ _ _ ?_ ?_ (fun c hc => by cases hc; exact hres) (fun c hc => h.right hc)
        · exact recomputeQAnd_p_pos (ktQ_kt_pos bit h.kt_pos)
            (fun c hc => by cases hc; exact hres.p_pos) (fun c hc => (h.right hc).p_pos)
        · rw [recomputeQAnd_kt]
          exact ktQ_kt_pos bit h.kt_pos
      | some t =>
        have hres := ih t bit (h.left rfl)
        refine .mk _ _ _ ?_ ?_ (fun c hc => by cases hc; exact hres) (fun c hc => h.right hc)
        · exact recomputeQAnd_p_pos (ktQ_kt_pos bit h.kt_pos)
            (fun c hc => by cases hc; exact hres.p_pos) (fun c hc => (h.right hc).p_pos)
        · rw [recomputeQAnd_kt]
          exact ktQ_kt_pos bit h.kt_pos

end ctwq

namespace ctw

/-- The both-children recomputation simulates its rational mirror. -/
theorem recomputeAnd_sim (d : ctwq.QNode) (l r : Option ctwq.QTree) (hkt : 0 < d.kt)
    (hl : ∀ c, l = some c → 0 < c.dt.p) (hr : ∀ c, r = some c → 0 < c.dt.p) :
    recomputeDataAnd (toLogData d) (toLogOpt l) (toLogOpt r) =
      toLogData (ctwq.recomputeQAnd d l r) := by
  have hktr : (0 : ℝ) < (d.kt : ℝ) := by exact_mod_cast hkt
  cases l with
  | none => cases r with
    | none => rfl
    | some rc => rfl
  | some lc =>
    cases r with
    | none => rfl
    | some rc =>
      have hlc : (0 : ℝ) < (lc.dt.p : ℝ) := by exact_mod_cast hl lc rfl
      have hrc : (0 : ℝ) < (rc.dt.p : ℝ) := by exact_mod_cast hr rc rfl
      have key : Real.log (1/2) + logaddexp (Real.log (d.kt : ℝ))
          (Real.log (lc.dt.p : ℝ) + Real.log (rc.dt.p : ℝ)) =
          Real.log (((1/2) * (d.kt + lc.dt.p * rc.dt.p) : ℚ) : ℝ) := by
        rw [← Real.log_mul (ne_of_gt hlc) (ne_of_gt hrc), logaddexp_eq,
          Real.exp_log hktr, Real.exp_log (mul_pos hlc hrc),
          ← Real.log_mul (by norm_num : (1/2 : ℝ) ≠ 0)
            (by positivity : (d.kt : ℝ) + (lc.dt.p : ℝ) * (rc.dt.p : ℝ) ≠ 0)]
        push_cast
        ring_nf
      simp only [toLogOpt_some, ctwq.recomputeQAnd_ss, recomputeDataAnd_ss, toLog_dt, toLogData, key]

/-- `seqProbWalkAnd` simulates its rational mirror. -/
theorem seqProbWalkAnd_sim (ctx : List Bool) :
    ∀ (qt : ctwq.QTree) (bit : Bool), ctwq.QPos qt →
      seqProbWalkAnd ctx (toLog qt) bit = toLog (ctwq.seqProbWalkQAnd ctx qt bit) := by
  induction ctx with
  | nil =>
    rintro ⟨d, l, r⟩ bit h
    rw [toLog_node]
    simp only [seqProbWalkAnd, ctwq.seqProbWalkQAnd]
    rw [kt_sim d bit h.kt_pos,
      recomputeAnd_sim (ctwq.ktQ d bit) l r (by exact ctwq.ktQ_kt_pos bit h.kt_pos)
        (fun c hc => (h.left hc).p_pos) (fun c hc => (h.right hc).p_pos),
      toLog_node]
  | cons c rest ih =>
    rintro ⟨d, l, r⟩ bit h
    rw [toLog_node]
    simp only [seqProbWalkAnd, ctwq.seqProbWalkQAnd]
    cases c <;>
      simp only [eq_self_iff_true, if_true, Bool.true_eq_false, if_false, Bool.false_eq_true]
    · cases r with
      | none =>
        have hres := ih ctwq.oneTree bit ctwq.QPos_oneTree
        have hq := ctwq.QPos_seqProbWalkQAnd rest ctwq.oneTree bit ctwq.QPos_oneTree
        simp only [toLogOpt_none]
        rw [← toLog_oneTree, hres, kt_sim d bit h.kt_pos]
        have hrec := recomputeAnd_sim (ctwq.ktQ d bit) l
            (some (ctwq.seqProbWalkQAnd rest ctwq.oneTree bit))
            (by exact ctwq.ktQ_kt_pos bit h.kt_pos)
            (fun c hc => (h.left hc).p_pos)
            (fun c hc => by cases hc; exact hq.p_pos)
        rw [toLogOpt_some] at hrec
        rw [hrec, toLog_node, toLogOpt_some]
      | some t =>
        have hres := ih t bit (h.right rfl)
        have hq := ctwq.QPos_seqProbWalkQAnd rest t bit (h.right rfl)
        simp only [toLogOpt_some]
        rw [hres, kt_sim d bit h.kt_pos]
        have hrec := recomputeAnd_sim (ctwq.ktQ d bit) l
            (some (ctwq.seqProbWalkQAnd rest t bit))
            (by exact ctwq.ktQ_kt_pos bit h.kt_pos)
            (fun c hc => (h.left hc).p_pos)
            (fun c hc => by cases hc; exact hq.p_pos)
        rw [toLogOpt_some] at hrec
        rw [hrec, toLog_node, toLogOpt_some]
    · cases l with
      | none =>
        have hres := ih ctwq.oneTree bit ctwq.QPos_oneTree
        have hq := ctwq.QPos_seqProbWalkQAnd rest ctwq.oneTree bit ctwq.QPos_oneTree
        simp only [toLogOpt_none]
        rw [← toLog_oneTree, hres, kt_sim d bit h.kt_pos]
        have hrec := recomputeAnd_sim (ctwq.ktQ d bit)
            (some (ctwq.seqProbWalkQAnd rest ctwq.oneTree bit)) r
            (by exact ctwq.ktQ_kt_pos bit h.kt_pos)
            (fun c hc => by cases hc; exact hq.p_pos)
            (fun c hc => (h.right hc).p_pos)
        rw [toLogOpt_some] at hrec
        rw [hrec, toLog_node, toLogOpt_some]
      | some t =>
        have hres := ih t bit (h.left rfl)
        have hq := ctwq.QPos_seqProbWalkQAnd rest t bit (h.left rfl)
        simp only [toLogOpt_some]
        rw [hres, kt_sim d bit h.kt_pos]
        have hrec := recomputeAnd_sim (ctwq.ktQ d bit)
            (some (ctwq.seqProbWalkQAnd rest t bit)) r
            (by exact ctwq.ktQ_kt_pos bit h.kt_pos)
            (fun c hc => by cases hc; exact hq.p_pos)
            (fun c hc => (h.right hc).p_pos)
        rw [toLogOpt_some] at hrec
        rw [hrec, toLog_node, toLogOpt_some]

/-- The test harness of `TestSunehag`: repeatedly call `SeqProb` with the
window of the last `D` bits (realised by the context shift, which keeps
the same window) starting from an empty tree. -/
noncomputable def runUpdatesAnd (root : CTree) (bits : List Bool) (src : List Bool) :
    CTree × List Bool :=
  src.foldl (fun acc b => (SeqProbT acc.1 acc.2 b, shiftBits acc.2 b)) (root, bits)

def runUpdatesQAnd (root : ctwq.QTree) (bits : List Bool) (src : List Bool) :
    ctwq.QTree × List Bool :=
  src.foldl (fun acc b => (ctwq.SeqProbQT acc.1 acc.2 b, shiftBits acc.2 b)) (root, bits)

theorem QPos_SeqProbQT (qt : ctwq.QTree) (bits : List Bool) (bit : Bool) (h : ctwq.QPos qt) :
    ctwq.QPos (ctwq.SeqProbQT qt bits bit) :=
  ctwq.QPos_seqProbWalkQAnd bits.reverse qt bit h

theorem SeqProbT_sim (qt : ctwq.QTree) (bits : List Bool) (bit : Bool) (h : ctwq.QPos qt) :
    SeqProbT (toLog qt) bits bit = toLog (ctwq.SeqProbQT qt bits bit) :=
  seqProbWalkAnd_sim bits.reverse qt bit h

theorem runUpdatesAnd_sim (src : List Bool) :
    ∀ (qt : ctwq.QTree) (bits : List Bool), ctwq.QPos qt →
      runUpdatesAnd (toLog qt) bits src =
        (toLog (runUpdatesQAnd qt bits src).1, (runUpdatesQAnd qt bits src).2) := by
  induction src with
  | nil => intro qt bits h; rfl
  | cons b rest ih =>
    intro qt bits h
    have h1 : runUpdatesAnd (toLog qt) bits (b :: rest) =
        runUpdatesAnd (SeqProbT (toLog qt) bits b) (shiftBits bits b) rest := rfl
    have h2 : runUpdatesQAnd qt bits (b :: rest) =
        runUpdatesQAnd (ctwq.SeqProbQT qt bits b) (shiftBits bits b) rest := rfl
    rw [h1, h2, SeqProbT_sim qt bits b h, ih _ _ (QPos_SeqProbQT qt bits b h)]

/-- C5: for a depth-3 tree with prior context `[1,1,0]`, applying the
update for the seven source bits `[0,1,0,0,1,1,0]` in order leaves the
root log-probability within `1e-8` of `log (7/2048)`, and applying one
further update for a zero bit leaves it within `1e-8` of
`log (153/65536)` (the values are in fact reached exactly in the
real-valued embedding). -/
theorem C5_sunehag_reference :
    |(runUpdatesAnd zeroTree [true, true, false]
        [false, true, false, false, true, true, false]).1.dt.LogProb -
      Real.log (7/2048)| ≤ 1e-8 ∧
    |(runUpdatesAnd zeroTree [true, true, false]
        [false, true, false, false, true, true, false, false]).1.dt.LogProb -
      Real.log (153/65536)| ≤ 1e-8 := by
  have key : ∀ src : List Bool,
      (runUpdatesAnd zeroTree [true, true, false] src).1.dt.LogProb =
        Real.log (((runUpdatesQAnd ctwq.oneTree [true, true, false] src).1.dt.p : ℚ) : ℝ) := by
    intro src
    rw [← toLog_oneTree, runUpdatesAnd_sim src ctwq.oneTree _ ctwq.QPos_oneTree]
    simp only [toLog_dt]
    rfl
  constructor
  · rw [key]
    have e1 : (runUpdatesQAnd ctwq.oneTree [true, true, false]
        [false, true, false, false, true, true, false]).1.dt.p = 7/2048 := by
      norm_num [runUpdatesQAnd, List.foldl, ctwq.SeqProbQT, shiftBits, ctwq.seqProbWalkQAnd,
        ctwq.ktQ, ctwq.recomputeQAnd, ctwq.oneTree, ctwq.oneData, ctwq.QTree.dt]
    rw [e1, show (((7/2048 : ℚ)) : ℝ) = (7/2048 : ℝ) by norm_num]
    norm_num
  · rw [key]
    have e2 : (runUpdatesQAnd ctwq.oneTree [true, true, false]
        [false, true, false, false, true, true, false, false]).1.dt.p = 153/65536 := by
      norm_num [runUpdatesQAnd, List.foldl, ctwq.SeqProbQT, shiftBits, ctwq.seqProbWalkQAnd,
        ctwq.ktQ, ctwq.recomputeQAnd, ctwq.oneTree, ctwq.oneData, ctwq.QTree.dt]
    rw [e2, show (((153/65536 : ℚ)) : ℝ) = (153/65536 : ℝ) by norm_num]
    norm_num

/-- Depth bound: every chain of children is at most `n` long (the tree of
a CTW model with context length `n` only ever grows nodes to depth `n`). -/
inductive DepthLE : ℕ → CTree → Prop
  | mk (n : ℕ) (dt : TreeNode) (l r : Option CTree) :
      (n = 0 → l = none ∧ r = none) →
      (∀ c, l = some c → 0 < n) →
      (∀ c, l = some c → DepthLE (n - 1) c) →
      (∀ c, r = some c → 0 < n) →
      (∀ c, r = some c → DepthLE (n - 1) c) →
      DepthLE n (.node dt l r)

theorem DepthLE.dzero_children : ∀ {t : CTree}, DepthLE 0 t → t.left = none ∧ t.right = none := by
  rintro ⟨dt, l, r⟩ h
  cases h with
  | mk _ _ _ _ h0 _ _ _ _ => exact h0 rfl

theorem DepthLE.dleft_child : ∀ {n dt l r c}, DepthLE n (CTree.node dt l r) → l = some c →
    0 < n ∧ DepthLE (n - 1) c := by
  intro n dt l r c h hc
  cases h with
  | mk _ _ _ _ _ h1 h2 _ _ => exact ⟨h1 _ hc, h2 _ hc⟩

theorem DepthLE.dright_child : ∀ {n dt l r c}, DepthLE n (CTree.node dt l r) → r = some c →
    0 < n ∧ DepthLE (n - 1) c := by
  intro n dt l r c h hc
  cases h with
  | mk _ _ _ _ _ _ _ h1 h2 => exact ⟨h1 _ hc, h2 _ hc⟩

theorem DepthLE_node (n : ℕ) (dt : TreeNode) (l r : Option CTree)
    (h0 : n = 0 → l = none ∧ r = none)
    (hl : ∀ c, l = some c → 0 < n ∧ DepthLE (n - 1) c)
    (hr : ∀ c, r = some c → 0 < n ∧ DepthLE (n - 1) c) : DepthLE n (.node dt l r) :=
  .mk n dt l r h0 (fun c hc => (hl c hc).1) (fun c hc => (hl c hc).2)
    (fun c hc => (hr c hc).1) (fun c hc => (hr c hc).2)

theorem DepthLE_zeroTree (n : ℕ) : DepthLE n zeroTree := by
  refine DepthLE_node n zeroData none none (fun _ => ⟨rfl, rfl⟩) ?_ ?_ <;> intro c h <;> cases h

/-- `updateWalk` never grows the tree deeper than the walked context. -/
theorem updateWalk_DepthLE (ctx : List Bool) :
    ∀ (n : ℕ) (t : CTree) (bit flag : Bool), DepthLE n t → ctx.length = n →
      DepthLE n (updateWalk ctx t bit flag).1 := by
  induction ctx with
  | nil =>
    rintro n ⟨dt, l, r⟩ bit flag h hlen
    simp only [List.length_nil] at hlen
    subst hlen
    obtain ⟨hl, hr⟩ := h.dzero_children
    cases hl
    cases hr
    simp only [updateWalk]
    refine DepthLE_node 0 _ none none (fun _ => ⟨rfl, rfl⟩) ?_ ?_ <;> intro c h <;> cases h
  | cons c rest ih =>
    rintro n ⟨dt, l, r⟩ bit flag h hlen
    simp only [List.length_cons] at hlen
    have hn : 0 < n := by omega
    simp only [updateWalk]
    cases c <;>
      simp only [eq_self_iff_true, if_true, Bool.true_eq_false, if_false, Bool.false_eq_true]
    · cases r with
      | none =>
        have hres := ih (n - 1) zeroTree bit true (DepthLE_zeroTree _) (by omega)
        refine DepthLE_node n _ l _ (fun h0 => absurd h0 (by omega)) ?_ ?_
        · intro c hc
          exact h.dleft_child hc
        · intro c hc
          cases hc
          exact ⟨hn, hres⟩
      | some t =>
        have hres := ih (n - 1) t bit false (h.dright_child rfl).2 (by omega)
        refine DepthLE_node n _ l _ (fun h0 => absurd h0 (by omega)) ?_ ?_
        · intro c hc
          exact h.dleft_child hc
        · intro c hc
          cases hc
          exact ⟨hn, hres⟩
    · cases l with
      | none =>
        have hres := ih (n - 1) zeroTree bit true (DepthLE_zeroTree _) (by omega)
        refine DepthLE_node n _ _ r (fun h0 => absurd h0 (by omega)) ?_ ?_
        · intro c hc
          cases hc
          exact ⟨hn, hres⟩
        · intro c hc
          exact h.dright_child hc
      | some t =>
        have hres := ih (n - 1) t bit false (h.dleft_child rfl).2 (by omega)
        refine DepthLE_node n _ _ r (fun h0 => absurd h0 (by omega)) ?_ ?_
        · intro c hc
          cases hc
          exact ⟨hn, hres⟩
        · intro c hc
          exact h.dright_child hc

/-- `applySnaps` only materialises nodes along the walked context, so the
depth bound is preserved. -/
theorem applySnaps_DepthLE (ctx : List Bool) :
    ∀ (n : ℕ) (t : CTree) (snaps : List Snap), DepthLE n t → ctx.length = n →
      DepthLE n (applySnaps t ctx snaps) := by
  induction ctx with
  | nil =>
    rintro n ⟨dt, l, r⟩ snaps h hlen
    simp only [List.length_nil] at hlen
    subst hlen
    cases snaps with
    | nil => exact h
    | cons s srest =>
      obtain ⟨hl, hr⟩ := h.dzero_children
      cases hl
      cases hr
      simp only [applySnaps]
      refine DepthLE_node 0 _ none none (fun _ => ⟨rfl, rfl⟩) ?_ ?_ <;> intro c h <;> cases h
  | cons c rest ih =>
    rintro n ⟨dt, l, r⟩ snaps h hlen
    simp only [List.length_cons] at hlen
    have hn : 0 < n := by omega
    cases snaps with
    | nil => exact h
    | cons s srest =>
      simp only [applySnaps]
      cases c <;>
        simp only [eq_self_iff_true, if_true, Bool.true_eq_false, if_false, Bool.false_eq_true]
      · cases r with
        | none =>
          refine DepthLE_node n _ l _ (fun h0 => absurd h0 (by omega)) ?_ ?_
          · intro c hc
            exact h.dleft_child hc
          · intro c hc
            cases hc
            exact ⟨hn, ih (n - 1) zeroTree srest (DepthLE_zeroTree _) (by omega)⟩
        | some t =>
          refine DepthLE_node n _ l _ (fun h0 => absurd h0 (by omega)) ?_ ?_
          · intro c hc
            exact h.dleft_child hc
          · intro c hc
            cases hc
            exact ⟨hn, ih (n - 1) t srest (h.dright_child rfl).2 (by omega)⟩
      · cases l with
        | none =>
          refine DepthLE_node n _ _ r (fun h0 => absurd h0 (by omega)) ?_ ?_
          · intro c hc
            cases hc
            exact ⟨hn, ih (n - 1) zeroTree srest (DepthLE_zeroTree _) (by omega)⟩
          · intro c hc
            exact h.dright_child hc
        | some t =>
          refine DepthLE_node n _ _ r (fun h0 => absurd h0 (by omega)) ?_ ?_
          · intro c hc
            cases hc
            exact ⟨hn, ih (n - 1) t srest (h.dleft_child rfl).2 (by omega)⟩
          · intro c hc
            exact h.dright_child hc

open Classical in
/-- The combination step of `prune`: a node whose children both pruned
away disappears when its scalars are the fresh zero scalars. -/
noncomputable def pruneCombine (dt : TreeNode) : Option CTree → Option CTree → Option CTree
  | none, none => if dt = zeroData then none else some (.node dt none none)
  | l', r' => some (.node dt l' r')

/-- Prune away subtrees that are observationally absent: a fresh zero node
(and chains of them) behaves exactly like a `nil` child, since `update`
initialises a created child to the zero state and a missing child
contributes log-probability 0.  Two trees with the same pruning are
observationally equivalent. -/
noncomputable def prune : CTree → Option CTree
  | .node dt l r =>
    pruneCombine dt
      (match l with | none => none | some c => prune c)
      (match r with | none => none | some c => prune c)

noncomputable def pruneO : Option CTree → Option CTree
  | none => none
  | some c => prune c

theorem pruneO_none : pruneO none = none := rfl

theorem pruneO_some (c : CTree) : pruneO (some c) = prune c := rfl

theorem prune_node (dt : TreeNode) (l r : Option CTree) :
    prune (.node dt l r) = pruneCombine dt (pruneO l) (pruneO r) := by
  cases l <;> cases r <;> rw [prune.eq_def] <;> rfl

open Classical in
theorem pruneCombine_nn (dt : TreeNode) :
    pruneCombine dt none none = if dt = zeroData then none else some (.node dt none none) := rfl

theorem pruneCombine_sl (dt : TreeNode) (a : CTree) (r : Option CTree) :
    pruneCombine dt (some a) r = some (.node dt (some a) r) := by
  cases r <;> rfl

theorem pruneCombine_sr (dt : TreeNode) (l : Option CTree) (b : CTree) :
    pruneCombine dt l (some b) = some (.node dt l (some b)) := by
  cases l <;> rfl

theorem prune_zeroTree : prune zeroTree = none := by
  rw [zeroTree, prune_node, pruneO_none, pruneCombine_nn, if_pos rfl]

/-- The root scalars of a tree are determined by its pruning. -/
theorem prune_dt_eq : ∀ {t₁ t₂ : CTree}, prune t₁ = prune t₂ → t₁.dt = t₂.dt := by
  classical
  rintro ⟨d₁, l₁, r₁⟩ ⟨d₂, l₂, r₂⟩ h
  rw [prune_node, prune_node] at h
  simp only [CTree.dt]
  cases h1l : pruneO l₁ <;> cases h1r : pruneO r₁ <;> rw [h1l, h1r] at h <;>
    cases h2l : pruneO l₂ <;> cases h2r : pruneO r₂ <;> rw [h2l, h2r] at h
  all_goals
    simp only [pruneCombine_nn, pruneCombine_sl, pruneCombine_sr] at h
  all_goals try split_ifs at h with hA hB
  all_goals
    first
    | · try subst hA
        try subst hB
        first
        | rfl
        | (injection h with h'
           injection h' with hd hl' hr'
           exact hd)
    | (cases h <;> rfl)

/-- The prunings of the children are determined by the pruning of the node. -/
theorem prune_childrenO_eq : ∀ {d₁ d₂ : TreeNode} {l₁ r₁ l₂ r₂ : Option CTree},
    prune (CTree.node d₁ l₁ r₁) = prune (CTree.node d₂ l₂ r₂) →
    pruneO l₁ = pruneO l₂ ∧ pruneO r₁ = pruneO r₂ := by
  intro d₁ d₂ l₁ r₁ l₂ r₂ h
  rw [prune_node, prune_node] at h
  cases h1l : pruneO l₁ <;> cases h1r : pruneO r₁ <;> rw [h1l, h1r] at h <;>
    cases h2l : pruneO l₂ <;> cases h2r : pruneO r₂ <;> rw [h2l, h2r] at h <;>
    simp only [pruneCombine_nn, pruneCombine_sl, pruneCombine_sr] at h
  all_goals try split_ifs at h
  all_goals
    first
    | exact ⟨rfl, rfl⟩
    | (injection h with h'
       injection h' with hd hl' hr'
       exact ⟨hl', hr'⟩)
    | (cases h <;> exact ⟨rfl, rfl⟩)

theorem prune_congr_node (d : TreeNode) {l₁ r₁ l₂ r₂ : Option CTree}
    (hl : pruneO l₁ = pruneO l₂) (hr : pruneO r₁ = pruneO r₂) :
    prune (CTree.node d l₁ r₁) = prune (CTree.node d l₂ r₂) := by
  rw [prune_node, prune_node, hl, hr]

/-- A tree that prunes away entirely has the fresh zero scalars at its root. -/
theorem prune_eq_none_dt : ∀ {t : CTree}, prune t = none → t.dt = zeroData := by
  rintro ⟨d, l, r⟩ h
  rw [prune_node] at h
  revert h
  cases pruneO l <;> cases pruneO r <;>
    simp only [pruneCombine_nn, pruneCombine_sl, pruneCombine_sr] <;>
    intro h
  · by_cases hz : d = zeroData
    · exact hz
    · rw [if_neg hz] at h
      cases h
  all_goals cases h

/-- The contribution of an optional child to the recomputation: its stored
log-probability, or 0 when absent. -/
noncomputable def childLP (o : Option CTree) : ℝ :=
  match o with
  | none => 0
  | some c => c.dt.LogProb

theorem childLP_none : childLP none = 0 := rfl

theorem childLP_some (c : CTree) : childLP (some c) = c.dt.LogProb := rfl

theorem childLP_congr {l₁ l₂ : Option CTree} : pruneO l₁ = pruneO l₂ → childLP l₁ = childLP l₂ := by
  cases l₁ <;> cases l₂ <;> intro h
  · rfl
  · rw [pruneO_none, pruneO_some] at h
    rw [childLP_none, childLP_some, prune_eq_none_dt h.symm]
    rfl
  · rw [pruneO_some, pruneO_none] at h
    rw [childLP_none, childLP_some, prune_eq_none_dt h]
    rfl
  · rw [pruneO_some, pruneO_some] at h
    rw [childLP_some, childLP_some, prune_dt_eq h]

theorem recomputeData_mix (dt : TreeNode) (l : Option CTree) (rc : CTree) :
    recomputeData dt l (some rc) =
      { dt with LogProb := (logaddexp (Real.log (1/2) + dt.lktp)
          (Real.log (1 - 1/2) + childLP l + rc.dt.LogProb)) } := by
  cases l with
  | none => rw [recomputeData_ns, childLP_none]
  | some lc => rw [recomputeData_ss, childLP_some]

theorem recomputeData_mixL (dt : TreeNode) (lc : CTree) (r : Option CTree) :
    recomputeData dt (some lc) r =
      { dt with LogProb := (logaddexp (Real.log (1/2) + dt.lktp)
          (Real.log (1 - 1/2) + lc.dt.LogProb + childLP r)) } := by
  cases r with
  | none => rw [recomputeData_sn, childLP_none]
  | some rc => rw [recomputeData_ss, childLP_some]

/-- Congruence of `updateWalk` under pruning: observationally equivalent
trees produce updates with equal root scalars and equivalent trees. -/
theorem updateWalk_congr (ctx : List Bool) :
    ∀ (n : ℕ) (t₁ t₂ : CTree) (bit f₁ f₂ : Bool),
      DepthLE n t₁ → DepthLE n t₂ → ctx.length = n → prune t₁ = prune t₂ →
      (updateWalk ctx t₁ bit f₁).1.dt = (updateWalk ctx t₂ bit f₂).1.dt ∧
        prune (updateWalk ctx t₁ bit f₁).1 = prune (updateWalk ctx t₂ bit f₂).1 := by
  induction ctx with
  | nil =>
    rintro n ⟨d₁, l₁, r₁⟩ ⟨d₂, l₂, r₂⟩ bit f₁ f₂ h₁ h₂ hlen hp
    simp only [List.length_nil] at hlen
    subst hlen
    obtain ⟨e1, e2⟩ := h₁.dzero_children
    obtain ⟨e3, e4⟩ := h₂.dzero_children
    simp only [CTree.left, CTree.right] at e1 e2 e3 e4
    subst e1; subst e2; subst e3; subst e4
    have hd := prune_dt_eq hp
    simp only [CTree.dt] at hd
    subst hd
    exact ⟨rfl, rfl⟩
  | cons c rest ih =>
    rintro n ⟨d₁, l₁, r₁⟩ ⟨d₂, l₂, r₂⟩ bit f₁ f₂ h₁ h₂ hlen hp
    simp only [List.length_cons] at hlen
    have hd := prune_dt_eq hp
    simp only [CTree.dt] at hd
    subst hd
    obtain ⟨hcl, hcr⟩ := prune_childrenO_eq hp
    simp only [updateWalk]
    cases c <;>
      simp only [eq_self_iff_true, if_true, Bool.true_eq_false, if_false, Bool.false_eq_true]
    · have key : ∀ (a₁ a₂ : CTree) (g₁ g₂ : Bool), DepthLE (n-1) a₁ → DepthLE (n-1) a₂ →
          prune a₁ = prune a₂ →
          (CTree.node (recomputeData (krichevskyTrofimov d₁ bit) l₁
              (some (updateWalk rest a₁ bit g₁).1)) l₁ (some (updateWalk rest a₁ bit g₁).1)).dt =
            (CTree.node (recomputeData (krichevskyTrofimov d₁ bit) l₂
              (some (updateWalk rest a₂ bit g₂).1)) l₂ (some (updateWalk rest a₂ bit g₂).1)).dt ∧
          prune (CTree.node (recomputeData (krichevskyTrofimov d₁ bit) l₁
              (some (updateWalk rest a₁ bit g₁).1)) l₁ (some (updateWalk rest a₁ bit g₁).1)) =
            prune (CTree.node (recomputeData (krichevskyTrofimov d₁ bit) l₂
              (some (updateWalk rest a₂ bit g₂).1)) l₂ (some (updateWalk rest a₂ bit g₂).1)) := by
        intro a₁ a₂ g₁ g₂ hda hdb hpp
        obtain ⟨ihd, ihp⟩ := ih (n - 1) a₁ a₂ bit g₁ g₂ hda hdb (by omega) hpp
        have hD : recomputeData (krichevskyTrofimov d₁ bit) l₁ (some (updateWalk rest a₁ bit g₁).1) =
            recomputeData (krichevskyTrofimov d₁ bit) l₂ (some (updateWalk rest a₂ bit g₂).1) := by
          rw [recomputeData_mix, recomputeData_mix, childLP_congr hcl, ihd]
        refine ⟨?_, ?_⟩
        · simp only [CTree.dt]
          exact hD
        · rw [hD, prune_node, prune_node, hcl, pruneO_some, pruneO_some, ihp]
      cases r₁ with
      | none =>
        cases r₂ with
        | none => exact key zeroTree zeroTree true true (DepthLE_zeroTree _) (DepthLE_zeroTree _) rfl
        | some b =>
          rw [pruneO_none, pruneO_some] at hcr
          exact key zeroTree b true false (DepthLE_zeroTree _) (h₂.dright_child rfl).2
            (by rw [prune_zeroTree]; exact hcr)
      | some a =>
        cases r₂ with
        | none =>
          rw [pruneO_some, pruneO_none] at hcr
          exact key a zeroTree false true (h₁.dright_child rfl).2 (DepthLE_zeroTree _)
            (by rw [prune_zeroTree]; exact hcr)
        | some b =>
          rw [pruneO_some, pruneO_some] at hcr
          exact key a b false false (h₁.dright_child rfl).2 (h₂.dright_child rfl).2 hcr
    · have key : ∀ (a₁ a₂ : CTree) (g₁ g₂ : Bool), DepthLE (n-1) a₁ → DepthLE (n-1) a₂ →
          prune a₁ = prune a₂ →
          (CTree.node (recomputeData (krichevskyTrofimov d₁ bit)
              (some (updateWalk rest a₁ bit g₁).1) r₁) (some (updateWalk rest a₁ bit g₁).1) r₁).dt =
            (CTree.node (recomputeData (krichevskyTrofimov d₁ bit)
              (some (updateWalk rest a₂ bit g₂).1) r₂) (some (updateWalk rest a₂ bit g₂).1) r₂).dt ∧
          prune (CTree.node (recomputeData (krichevskyTrofimov d₁ bit)
              (some (updateWalk rest a₁ bit g₁).1) r₁) (some (updateWalk rest a₁ bit g₁).1) r₁) =
            prune (CTree.node (recomputeData (krichevskyTrofimov d₁ bit)
              (some (updateWalk rest a₂ bit g₂).1) r₂) (some (updateWalk rest a₂ bit g₂).1) r₂) := by
        intro a₁ a₂ g₁ g₂ hda hdb hpp
        obtain ⟨ihd, ihp⟩ := ih (n - 1) a₁ a₂ bit g₁ g₂ hda hdb (by omega) hpp
        have hD : recomputeData (krichevskyTrofimov d₁ bit) (some (updateWalk rest a₁ bit g₁).1) r₁ =
            recomputeData (krichevskyTrofimov d₁ bit) (some (updateWalk rest a₂ bit g₂).1) r₂ := by
          rw [recomputeData_mixL, recomputeData_mixL, childLP_congr hcr, ihd]
        refine ⟨?_, ?_⟩
        · simp only [CTree.dt]
          exact hD
        · rw [hD, prune_node, prune_node, hcr, pruneO_some, pruneO_some, ihp]
      cases l₁ with
      | none =>
        cases l₂ with
        | none => exact key zeroTree zeroTree true true (DepthLE_zeroTree _) (DepthLE_zeroTree _) rfl
        | some b =>
          rw [pruneO_none, pruneO_some] at hcl
          exact key zeroTree b true false (DepthLE_zeroTree _) (h₂.dleft_child rfl).2
            (by rw [prune_zeroTree]; exact hcl)
      | some a =>
        cases l₂ with
        | none =>
          rw [pruneO_some, pruneO_none] at hcl
          exact key a zeroTree false true (h₁.dleft_child rfl).2 (DepthLE_zeroTree _)
            (by rw [prune_zeroTree]; exact hcl)
        | some b =>
          rw [pruneO_some, pruneO_some] at hcl
          exact key a b false false (h₁.dleft_child rfl).2 (h₂.dleft_child rfl).2 hcl

/-- Reverting an update restores the original tree up to pruning: the
snapshots put back the original scalars along the path, and the freshly
created children become pruned-away zero chains. -/
theorem revert_update_prune (ctx : List Bool) :
    ∀ (t : CTree) (bit flag : Bool),
      prune (applySnaps (updateWalk ctx t bit flag).1 ctx (updateWalk ctx t bit flag).2) =
        prune t := by
  induction ctx with
  | nil =>
    rintro ⟨d, l, r⟩ bit flag
    simp only [updateWalk, applySnaps]
  | cons c rest ih =>
    rintro ⟨d, l, r⟩ bit flag
    simp only [updateWalk]
    cases c <;>
      simp only [eq_self_iff_true, if_true, Bool.true_eq_false, if_false, Bool.false_eq_true]
    · cases r with
      | none =>
        simp only [applySnaps, eq_self_iff_true, if_true]
        rw [prune_node, prune_node, pruneO_some, pruneO_none, ih zeroTree bit true,
          prune_zeroTree]
      | some t =>
        simp only [applySnaps, eq_self_iff_true, if_true]
        rw [prune_node, prune_node, pruneO_some, pruneO_some, ih t bit false]
    · cases l with
      | none =>
        simp only [applySnaps, Bool.true_eq_false, if_false]
        rw [prune_node, prune_node, pruneO_some, pruneO_none, ih zeroTree bit true,
          prune_zeroTree]
      | some t =>
        simp only [applySnaps, Bool.true_eq_false, if_false]
        rw [prune_node, prune_node, pruneO_some, pruneO_some, ih t bit false]

/-- Congruence of `applySnaps` under pruning. -/
theorem applySnaps_prune_congr (ctx : List Bool) :
    ∀ (t₁ t₂ : CTree) (snaps : List Snap), prune t₁ = prune t₂ →
      prune (applySnaps t₁ ctx snaps) = prune (applySnaps t₂ ctx snaps) := by
  induction ctx with
  | nil =>
    rintro ⟨d₁, l₁, r₁⟩ ⟨d₂, l₂, r₂⟩ snaps hp
    cases snaps with
    | nil => exact hp
    | cons s srest =>
      obtain ⟨hcl, hcr⟩ := prune_childrenO_eq hp
      simp only [applySnaps]
      rw [prune_node, prune_node, hcl, hcr]
  | cons c rest ih =>
    rintro ⟨d₁, l₁, r₁⟩ ⟨d₂, l₂, r₂⟩ snaps hp
    cases snaps with
    | nil => exact hp
    | cons s srest =>
      obtain ⟨hcl, hcr⟩ := prune_childrenO_eq hp
      simp only [applySnaps]
      cases c <;>
        simp only [eq_self_iff_true, if_true, Bool.true_eq_false, if_false, Bool.false_eq_true]
      · have key : ∀ (a₁ a₂ : CTree), prune a₁ = prune a₂ →
            prune (CTree.node s.state l₁ (some (applySnaps a₁ rest srest))) =
              prune (CTree.node s.state l₂ (some (applySnaps a₂ rest srest))) := by
          intro a₁ a₂ hpp
          rw [prune_node, prune_node, hcl, pruneO_some, pruneO_some, ih a₁ a₂ srest hpp]
        cases r₁ with
        | none =>
          cases r₂ with
          | none => exact key zeroTree zeroTree rfl
          | some b =>
            rw [pruneO_none, pruneO_some] at hcr
            exact key zeroTree b (by rw [prune_zeroTree]; exact hcr)
        | some a =>
          cases r₂ with
          | none =>
            rw [pruneO_some, pruneO_none] at hcr
            exact key a zeroTree (by rw [prune_zeroTree]; exact hcr)
          | some b =>
            rw [pruneO_some, pruneO_some] at hcr
            exact key a b hcr
      · have key : ∀ (a₁ a₂ : CTree), prune a₁ = prune a₂ →
            prune (CTree.node s.state (some (applySnaps a₁ rest srest)) r₁) =
              prune (CTree.node s.state (some (applySnaps a₂ rest srest)) r₂) := by
          intro a₁ a₂ hpp
          rw [prune_node, prune_node, hcr, pruneO_some, pruneO_some, ih a₁ a₂ srest hpp]
        cases l₁ with
        | none =>
          cases l₂ with
          | none => exact key zeroTree zeroTree rfl
          | some b =>
            rw [pruneO_none, pruneO_some] at hcl
            exact key zeroTree b (by rw [prune_zeroTree]; exact hcl)
        | some a =>
          cases l₂ with
          | none =>
            rw [pruneO_some, pruneO_none] at hcl
            exact key a zeroTree (by rw [prune_zeroTree]; exact hcl)
          | some b =>
            rw [pruneO_some, pruneO_some] at hcl
            exact key a b hcl

/-- The value returned by `Prob0` only depends on the tree up to pruning. -/
theorem Prob0_val_congr {bits : List Bool} {n : ℕ} {t₁ t₂ : CTree}
    (h₁ : DepthLE n t₁) (h₂ : DepthLE n t₂) (hlen : bits.length = n)
    (hp : prune t₁ = prune t₂) :
    (CTW.Prob0 ⟨bits, t₁⟩).1 = (CTW.Prob0 ⟨bits, t₂⟩).1 := by
  obtain ⟨ihd, _⟩ := updateWalk_congr bits.reverse n t₁ t₂ false false false h₁ h₂
    (by rw [List.length_reverse]; exact hlen) hp
  show Real.exp ((update t₁ bits false).1.dt.LogProb - t₁.dt.LogProb) =
    Real.exp ((update t₂ bits false).1.dt.LogProb - t₂.dt.LogProb)
  rw [show (update t₁ bits false).1.dt = (update t₂ bits false).1.dt from ihd,
    prune_dt_eq hp]

theorem Observe_model_bits (cr : CTWReverter) (b : Bool) :
    (cr.Observe b).model.bits = shiftBits cr.model.bits b := rfl

theorem Observe_model_root (cr : CTWReverter) (b : Bool) :
    (cr.Observe b).model.root = (update cr.model.root cr.model.bits b).1 := rfl

theorem Observe_bits (cr : CTWReverter) (b : Bool) :
    (cr.Observe b).bits = cr.bits ++ [cr.model.bits.headI] := rfl

theorem Observe_traversals (cr : CTWReverter) (b : Bool) :
    (cr.Observe b).traversals =
      cr.traversals ++ [(cr.model.bits.reverse, (update cr.model.root cr.model.bits b).2)] := rfl

theorem headI_cons_dropLast_shift (bits : List Bool) (b : Bool) (h : bits ≠ []) :
    bits.headI :: (shiftBits bits b).dropLast = bits := by
  cases bits with
  | nil => exact absurd rfl h
  | cons x xs => simp [shiftBits, List.dropLast_concat]

theorem shiftBits_length (bits : List Bool) (b : Bool) (h : bits ≠ []) :
    (shiftBits bits b).length = bits.length := by
  cases bits with
  | nil => exact absurd rfl h
  | cons x xs => simp [shiftBits]

/-- An `Unobserve` on nonempty stacks, spelled out. -/
theorem Unobserve_eq (cr : CTWReverter) (T : List (List Bool × List Snap)) (ctx : List Bool)
    (snaps : List Snap) (B : List Bool) (e : Bool)
    (hT : cr.traversals = T ++ [(ctx, snaps)]) (hB : cr.bits = B ++ [e]) :
    cr.Unobserve = some
      ⟨⟨e :: cr.model.bits.dropLast, applySnaps cr.model.root ctx snaps⟩, B, T⟩ := by
  unfold CTWReverter.Unobserve
  rw [hT, hB, List.getLast?_concat, List.getLast?_concat]
  simp only [List.dropLast_concat]

/-- Reverter operation words: `Observe` a bit or `Unobserve`. -/
inductive Rop where
  | obs (b : Bool) : Rop
  | unobs : Rop

/-- Run a word of reverter operations; `none` when an `Unobserve` hits
empty stacks (the Go panic). -/
noncomputable def applyOps : CTWReverter → List Rop → Option CTWReverter
  | cr, [] => some cr
  | cr, (Rop.obs b) :: rest => applyOps (cr.Observe b) rest
  | cr, Rop.unobs :: rest =>
    match cr.Unobserve with
    | none => none
    | some cr2 => applyOps cr2 rest

/-- Balanced words: every `Unobserve` undoes the most recent unmatched
`Observe`. -/
inductive Balanced : List Rop → Prop
  | nil : Balanced []
  | grow (b : Bool) (w₁ w₂ : List Rop) : Balanced w₁ → Balanced w₂ →
      Balanced (Rop.obs b :: w₁ ++ Rop.unobs :: w₂)

theorem applyOps_append (u : List Rop) :
    ∀ (cr : CTWReverter) (v : List Rop),
      applyOps cr (u ++ v) = (applyOps cr u).bind (fun c => applyOps c v) := by
  induction u with
  | nil => intro cr v; rfl
  | cons op rest ih =>
    intro cr v
    cases op with
    | obs b =>
      show applyOps (cr.Observe b) (rest ++ v) = _
      rw [ih]
      rfl
    | unobs =>
      show (match cr.Unobserve with
        | none => none
        | some cr2 => applyOps cr2 (rest ++ v)) =
        (match cr.Unobserve with
        | none => none
        | some cr2 => applyOps cr2 rest).bind (fun c => applyOps c v)
      cases cr.Unobserve with
      | none => rfl
      | some cr2 => exact ih cr2 v

/-- Running a balanced word restores the context buffer, both stacks, and
the tree up to pruning, and never panics. -/
theorem balanced_apply {w : List Rop} (hb : Balanced w) :
    ∀ (cr : CTWReverter) (n : ℕ), 0 < n → cr.model.bits.length = n → DepthLE n cr.model.root →
      ∃ cr', applyOps cr w = some cr' ∧ cr'.model.bits = cr.model.bits ∧
        cr'.bits = cr.bits ∧ cr'.traversals = cr.traversals ∧
        prune cr'.model.root = prune cr.model.root ∧ DepthLE n cr'.model.root := by
  induction hb with
  | nil =>
    intro cr n hn hlen hd
    exact ⟨cr, rfl, rfl, rfl, rfl, rfl, hd⟩
  | grow b w₁ w₂ hb₁ hb₂ ih₁ ih₂ =>
    intro cr n hn hlen hd
    have hne : cr.model.bits ≠ [] := by
      intro h
      rw [h] at hlen
      simp only [List.length_nil] at hlen
      omega
    have hlen₁ : (cr.Observe b).model.bits.length = n := by
      rw [Observe_model_bits, shiftBits_length _ _ hne]
      exact hlen
    have hd₁ : DepthLE n (cr.Observe b).model.root := by
      rw [Observe_model_root]
      exact updateWalk_DepthLE _ n _ b false hd (by rw [List.length_reverse]; exact hlen)
    obtain ⟨cr₂, h2run, h2mb, h2b, h2t, h2p, h2d⟩ := ih₁ (cr.Observe b) n hn hlen₁ hd₁
    have hT : cr₂.traversals = cr.traversals ++
        [(cr.model.bits.reverse, (update cr.model.root cr.model.bits b).2)] := by
      rw [h2t, Observe_traversals]
    have hB : cr₂.bits = cr.bits ++ [cr.model.bits.headI] := by
      rw [h2b, Observe_bits]
    have hun := Unobserve_eq cr₂ cr.traversals cr.model.bits.reverse
      (update cr.model.root cr.model.bits b).2 cr.bits cr.model.bits.headI hT hB
    have h3mb : (cr.model.bits.headI :: cr₂.model.bits.dropLast) = cr.model.bits := by
      rw [h2mb, Observe_model_bits]
      exact headI_cons_dropLast_shift _ _ hne
    have h3p : prune (applySnaps cr₂.model.root cr.model.bits.reverse
        (update cr.model.root cr.model.bits b).2) = prune cr.model.root := by
      rw [applySnaps_prune_congr _ cr₂.model.root (update cr.model.root cr.model.bits b).1 _
        (by rw [h2p, Observe_model_root])]
      exact revert_update_prune cr.model.bits.reverse cr.model.root b false
    have h3d : DepthLE n (applySnaps cr₂.model.root cr.model.bits.reverse
        (update cr.model.root cr.model.bits b).2) :=
      applySnaps_DepthLE _ n _ _ h2d (by rw [List.length_reverse]; exact hlen)
    have h3len : (cr.model.bits.headI :: cr₂.model.bits.dropLast).length = n := by
      rw [h3mb]
      exact hlen
    obtain ⟨cr₄, h4run, h4mb, h4b, h4t, h4p, h4d⟩ := ih₂
      ⟨⟨cr.model.bits.headI :: cr₂.model.bits.dropLast,
        applySnaps cr₂.model.root cr.model.bits.reverse
          (update cr.model.root cr.model.bits b).2⟩, cr.bits, cr.traversals⟩
      n hn h3len h3d
    refine ⟨cr₄, ?_, ?_, ?_, ?_, ?_, h4d⟩
    · show applyOps (cr.Observe b) (w₁ ++ Rop.unobs :: w₂) = some cr₄
      rw [applyOps_append, h2run]
      show (match cr₂.Unobserve with
        | none => none
        | some c => applyOps c w₂) = some cr₄
      rw [hun]
      exact h4run
    · rw [h4mb]
      exact h3mb ▸ rfl
    · rw [h4b]
    · rw [h4t]
    · rw [h4p]
      exact h3p

/-- C2: for every CTW model state (with its context buffer of positive
length `n` and tree depth bounded by `n`) and every balanced sequence of
`CTWReverter` `Observe`/`Unobserve` calls, the run never panics and the
final observable state — root log-probability, context buffer contents,
and the value returned by `Prob0` — equals the initial one exactly. -/
theorem C2_reverter_roundtrip (cr : CTWReverter) (w : List Rop) (n : ℕ)
    (hb : Balanced w) (hn : 0 < n) (hlen : cr.model.bits.length = n)
    (hd : DepthLE n cr.model.root) :
    ∃ cr', applyOps cr w = some cr' ∧
      cr'.model.root.dt.LogProb = cr.model.root.dt.LogProb ∧
      cr'.model.bits = cr.model.bits ∧
      (cr'.model.Prob0).1 = (cr.model.Prob0).1 := by
  obtain ⟨cr', hrun, hmb, _, _, hp, hd'⟩ := balanced_apply hb cr n hn hlen hd
  refine ⟨cr', hrun, ?_, hmb, ?_⟩
  · rw [prune_dt_eq hp]
  · show (CTW.Prob0 ⟨cr'.model.bits, cr'.model.root⟩).1 =
      (CTW.Prob0 ⟨cr.model.bits, cr.model.root⟩).1
    rw [hmb]
    exact Prob0_val_congr hd' hd hlen hp

/-- Witness for C2 at a concrete state: context `[0]`, fresh tree, word
`Observe 1; Unobserve`. -/
theorem C2_reverter_roundtrip_witness :
    Balanced [Rop.obs true, Rop.unobs] ∧ 0 < 1 ∧
    (NewCTWReverter (NewCTW [false])).model.bits.length = 1 ∧
    DepthLE 1 (NewCTWReverter (NewCTW [false])).model.root ∧
    ∃ cr', applyOps (NewCTWReverter (NewCTW [false])) [Rop.obs true, Rop.unobs] = some cr' ∧
      cr'.model.root.dt.LogProb = (NewCTWReverter (NewCTW [false])).model.root.dt.LogProb ∧
      cr'.model.bits = (NewCTWReverter (NewCTW [false])).model.bits ∧
      (cr'.model.Prob0).1 = ((NewCTWReverter (NewCTW [false])).model.Prob0).1 := by
  have hb : Balanced [Rop.obs true, Rop.unobs] := Balanced.grow true [] [] .nil .nil
  exact ⟨hb, Nat.one_pos, rfl, DepthLE_zeroTree 1,
    C2_reverter_roundtrip (NewCTWReverter (NewCTW [false])) [Rop.obs true, Rop.unobs] 1 hb
      Nat.one_pos rfl (DepthLE_zeroTree 1)⟩

/-- C10: `CTWReverter.Unobserve` is total only when an unmatched `Observe`
preceded it: on a reverter whose traversal and evicted-bit stacks are
empty both stacks are indexed at position −1, which panics in Go and is
embedded as `none`; after an `Observe` the stacks are nonempty and
`Unobserve` succeeds.  In particular a freshly constructed reverter
panics. -/
theorem C10_unobserve_empty_panics :
    (∀ m : CTW, (NewCTWReverter m).Unobserve = none) ∧
    (∀ cr : CTWReverter, cr.traversals = [] → cr.bits = [] → cr.Unobserve = none) ∧
    (∀ (cr : CTWReverter) (b : Bool), ((cr.Observe b).Unobserve).isSome = true) := by
  refine ⟨fun m => rfl, ?_, ?_⟩
  · intro cr hT hB
    unfold CTWReverter.Unobserve
    rw [hT, hB]
    rfl
  · intro cr b
    rw [Unobserve_eq (cr.Observe b) cr.traversals cr.model.bits.reverse
      (update cr.model.root cr.model.bits b).2 cr.bits cr.model.bits.headI
      (Observe_traversals cr b) (Observe_bits cr b)]
    rfl

/-- Witness for C10 at the freshly constructed reverter. -/
theorem C10_unobserve_empty_panics_witness :
    (NewCTWReverter (NewCTW [false])).traversals = [] ∧
    (NewCTWReverter (NewCTW [false])).bits = [] ∧
    (NewCTWReverter (NewCTW [false])).Unobserve = none ∧
    (((NewCTWReverter (NewCTW [false])).Observe true).Unobserve).isSome = true :=
  ⟨rfl, rfl, C10_unobserve_empty_panics.2.1 _ rfl rfl,
    C10_unobserve_empty_panics.2.2 (NewCTWReverter (NewCTW [false])) true⟩

/-- The per-node log-probability law of the specification: a node with
both children absent stores its KT estimate; a node with at least one
child stores `log (1/2) + logaddexp lktp (L + R)`, a missing child
contributing 0. -/
noncomputable def nodeFormula (dt : TreeNode) (l r : Option CTree) : Prop :=
  match l, r with
  | none, none => dt.LogProb = dt.lktp
  | _, _ => dt.LogProb = Real.log (1/2) + logaddexp dt.lktp (childLP l + childLP r)

theorem nodeFormula_nn (dt : TreeNode) :
    nodeFormula dt none none = (dt.LogProb = dt.lktp) := rfl

theorem nodeFormula_sr (dt : TreeNode) (l : Option CTree) (rc : CTree) :
    nodeFormula dt l (some rc) =
      (dt.LogProb = Real.log (1/2) + logaddexp dt.lktp (childLP l + childLP (some rc))) := by
  cases l <;> rfl

theorem nodeFormula_sl (dt : TreeNode) (lc : CTree) (r : Option CTree) :
    nodeFormula dt (some lc) r =
      (dt.LogProb = Real.log (1/2) + logaddexp dt.lktp (childLP (some lc) + childLP r)) := by
  cases r <;> rfl

/-- The claim's invariant, at every node of a tree. -/
inductive AllFormula : CTree → Prop
  | mk (dt : TreeNode) (l r : Option CTree) :
      nodeFormula dt l r →
      (∀ c, l = some c → AllFormula c) → (∀ c, r = some c → AllFormula c) →
      AllFormula (.node dt l r)

/-- The reachability invariant of the CTW trees: the per-node formula
everywhere, a depth bound, and the fact that an internal node without
children carries the zero scalars (only fresh zero nodes are childless
above the maximal depth, because every update that visits an internal
node immediately creates a child for it). -/
inductive Inv : ℕ → CTree → Prop
  | mk (n : ℕ) (dt : TreeNode) (l r : Option CTree) :
      nodeFormula dt l r →
      (n = 0 → l = none ∧ r = none) →
      (0 < n → l = none → r = none → dt.lktp = 0 ∧ dt.LogProb = 0) →
      (∀ c, l = some c → 0 < n) → (∀ c, l = some c → Inv (n - 1) c) →
      (∀ c, r = some c → 0 < n) → (∀ c, r = some c → Inv (n - 1) c) →
      Inv n (.node dt l r)

theorem Inv.formula : ∀ {n dt l r}, Inv n (CTree.node dt l r) → nodeFormula dt l r := by
  intro n dt l r h
  cases h with
  | mk _ _ _ _ hf _ _ _ _ _ _ => exact hf

theorem Inv.zero_children : ∀ {dt l r}, Inv 0 (CTree.node dt l r) → l = none ∧ r = none := by
  intro dt l r h
  cases h with
  | mk _ _ _ _ _ h0 _ _ _ _ _ => exact h0 rfl

theorem Inv.internal_leaf : ∀ {n dt l r}, Inv n (CTree.node dt l r) → 0 < n → l = none →
    r = none → dt.lktp = 0 ∧ dt.LogProb = 0 := by
  intro n dt l r h
  cases h with
  | mk _ _ _ _ _ _ hi _ _ _ _ => exact hi

theorem Inv.left_child : ∀ {n dt l r c}, Inv n (CTree.node dt l r) → l = some c →
    0 < n ∧ Inv (n - 1) c := by
  intro n dt l r c h hc
  cases h with
  | mk _ _ _ _ _ _ _ h1 h2 _ _ => exact ⟨h1 _ hc, h2 _ hc⟩

theorem Inv.right_child : ∀ {n dt l r c}, Inv n (CTree.node dt l r) → r = some c →
    0 < n ∧ Inv (n - 1) c := by
  intro n dt l r c h hc
  cases h with
  | mk _ _ _ _ _ _ _ _ _ h1 h2 => exact ⟨h1 _ hc, h2 _ hc⟩

theorem Inv_node (n : ℕ) (dt : TreeNode) (l r : Option CTree)
    (hf : nodeFormula dt l r)
    (h0 : n = 0 → l = none ∧ r = none)
    (hi : 0 < n → l = none → r = none → dt.lktp = 0 ∧ dt.LogProb = 0)
    (hl : ∀ c, l = some c → 0 < n ∧ Inv (n - 1) c)
    (hr : ∀ c, r = some c → 0 < n ∧ Inv (n - 1) c) : Inv n (.node dt l r) :=
  .mk n dt l r hf h0 hi (fun c hc => (hl c hc).1) (fun c hc => (hl c hc).2)
    (fun c hc => (hr c hc).1) (fun c hc => (hr c hc).2)

theorem Inv_to_AllFormula : ∀ {n : ℕ} {t : CTree}, Inv n t → AllFormula t := by
  intro n t h
  induction h with
  | mk n dt l r hf h0 hi hl1 hl2 hr1 hr2 ihl ihr =>
    exact AllFormula.mk dt l r hf ihl ihr

theorem Inv_zeroTree (n : ℕ) : Inv n zeroTree := by
  refine Inv_node n zeroData none none rfl (fun _ => ⟨rfl, rfl⟩) (fun _ _ _ => ⟨rfl, rfl⟩) ?_ ?_ <;>
    intro c h <;> cases h

theorem logaddexp_shift (c x y : ℝ) : logaddexp (c + x) (c + y) = c + logaddexp x y := by
  rw [logaddexp_eq, logaddexp_eq, Real.exp_add, Real.exp_add, ← mul_add,
    Real.log_mul (Real.exp_ne_zero c) (by positivity), Real.log_exp]

theorem recompute_formula (dt : TreeNode) (l : Option CTree) (rc : CTree) :
    (recomputeData dt l (some rc)).LogProb =
      Real.log (1/2) + logaddexp dt.lktp (childLP l + rc.dt.LogProb) := by
  rw [recomputeData_mix]
  show logaddexp (Real.log (1/2) + dt.lktp) (Real.log (1 - 1/2) + childLP l + rc.dt.LogProb) = _
  rw [show (1 - 1/2 : ℝ) = 1/2 by norm_num, add_assoc, logaddexp_shift]

theorem recompute_formulaL (dt : TreeNode) (lc : CTree) (r : Option CTree) :
    (recomputeData dt (some lc) r).LogProb =
      Real.log (1/2) + logaddexp dt.lktp (lc.dt.LogProb + childLP r) := by
  rw [recomputeData_mixL]
  show logaddexp (Real.log (1/2) + dt.lktp) (Real.log (1 - 1/2) + lc.dt.LogProb + childLP r) = _
  rw [show (1 - 1/2 : ℝ) = 1/2 by norm_num, add_assoc, logaddexp_shift]

theorem recomputeData_lktp (dt : TreeNode) (l r : Option CTree) :
    (recomputeData dt l r).lktp = dt.lktp := by
  cases l <;> cases r <;> rfl

/-- `update` preserves the reachability invariant (and hence establishes
the per-node formula everywhere). -/
theorem updateWalk_Inv (ctx : List Bool) :
    ∀ (n : ℕ) (t : CTree) (bit flag : Bool), Inv n t → ctx.length = n →
      Inv n (updateWalk ctx t bit flag).1 := by
  induction ctx with
  | nil =>
    rintro n ⟨dt, l, r⟩ bit flag h hlen
    simp only [List.length_nil] at hlen
    subst hlen
    obtain ⟨e1, e2⟩ := h.zero_children
    subst e1
    subst e2
    simp only [updateWalk]
    refine Inv_node 0 _ none none ?_ (fun _ => ⟨rfl, rfl⟩) (fun h0 _ _ => absurd h0 (by omega))
      ?_ ?_
    · rw [nodeFormula_nn, recomputeData_nn]
    · intro c hc
      cases hc
    · intro c hc
      cases hc
  | cons c rest ih =>
    rintro n ⟨dt, l, r⟩ bit flag h hlen
    simp only [List.length_cons] at hlen
    have hn : 0 < n := by omega
    simp only [updateWalk]
    cases c <;>
      simp only [eq_self_iff_true, if_true, Bool.true_eq_false, if_false, Bool.false_eq_true]
    · have key : ∀ (a : CTree) (g : Bool), Inv (n - 1) a →
          Inv n (CTree.node (recomputeData (krichevskyTrofimov dt bit) l
            (some (updateWalk rest a bit g).1)) l (some (updateWalk rest a bit g).1)) := by
        intro a g ha
        have hA := ih (n - 1) a bit g ha (by omega)
        refine Inv_node n _ l _ ?_ (fun h0 => absurd h0 (by omega))
          (fun _ _ hre => Option.noConfusion hre) (fun c hc => h.left_child hc) ?_
        · rw [nodeFormula_sr, recompute_formula, recomputeData_lktp, childLP_some]
        · intro c hc
          cases hc
          exact ⟨hn, hA⟩
      cases r with
      | none => exact key zeroTree true (Inv_zeroTree _)
      | some t => exact key t false (h.right_child rfl).2
    · have key : ∀ (a : CTree) (g : Bool), Inv (n - 1) a →
          Inv n (CTree.node (recomputeData (krichevskyTrofimov dt bit)
            (some (updateWalk rest a bit g).1) r) (some (updateWalk rest a bit g).1) r) := by
        intro a g ha
        have hA := ih (n - 1) a bit g ha (by omega)
        refine Inv_node n _ _ r ?_ (fun h0 => absurd h0 (by omega))
          (fun _ hle _ => Option.noConfusion hle) ?_ (fun c hc => h.right_child hc)
        · rw [nodeFormula_sl, recompute_formulaL, recomputeData_lktp, childLP_some]
        · intro c hc
          cases hc
          exact ⟨hn, hA⟩
      cases l with
      | none => exact key zeroTree true (Inv_zeroTree _)
      | some t => exact key t false (h.left_child rfl).2

/-- Reverting an update restores the scalars of every node on the path;
in particular the root scalars. -/
theorem revert_update_dt (ctx : List Bool) :
    ∀ (t : CTree) (bit flag : Bool),
      (applySnaps (updateWalk ctx t bit flag).1 ctx (updateWalk ctx t bit flag).2).dt = t.dt := by
  cases ctx with
  | nil =>
    rintro ⟨d, l, r⟩ bit flag
    simp only [updateWalk, applySnaps, CTree.dt]
  | cons c rest =>
    rintro ⟨d, l, r⟩ bit flag
    simp only [updateWalk]
    cases c <;>
      simp only [eq_self_iff_true, if_true, Bool.true_eq_false, if_false, Bool.false_eq_true] <;>
      [cases r; cases l] <;>
      simp only [applySnaps, eq_self_iff_true, if_true, Bool.true_eq_false, if_false,
        CTree.dt]

theorem log_half_logaddexp_zero : Real.log (1/2) + logaddexp 0 0 = 0 := by
  rw [logaddexp_eq, Real.exp_zero, show (1 : ℝ) + 1 = 2 by norm_num,
    show (1/2 : ℝ) = 2⁻¹ by norm_num, Real.log_inv]
  ring

/-- Reverting an update preserves the reachability invariant: restored
path nodes carry their original consistent scalars, and the kept freshly
created children are zero chains, which are consistent with the formula
(a zero node with a zero child satisfies it because
`log (1/2) + logaddexp 0 0 = 0`, and internal childless nodes carry the
zero scalars by the invariant). -/
theorem revert_update_Inv (ctx : List Bool) :
    ∀ (n : ℕ) (t : CTree) (bit flag : Bool), Inv n t → ctx.length = n →
      Inv n (applySnaps (updateWalk ctx t bit flag).1 ctx (updateWalk ctx t bit flag).2) := by
  induction ctx with
  | nil =>
    rintro n ⟨d, l, r⟩ bit flag h hlen
    simp only [updateWalk, applySnaps]
    exact h
  | cons c rest ih =>
    rintro n ⟨d, l, r⟩ bit flag h hlen
    simp only [List.length_cons] at hlen
    have hn : 0 < n := by omega
    simp only [updateWalk]
    cases c <;>
      simp only [eq_self_iff_true, if_true, Bool.true_eq_false, if_false, Bool.false_eq_true]
    · cases r with
      | none =>
        simp only [applySnaps, eq_self_iff_true, if_true]
        have hdt := revert_update_dt rest zeroTree bit true
        refine Inv_node n d l _ ?_ (fun h0 => absurd h0 (by omega))
          (fun _ _ hre => Option.noConfusion hre) (fun c hc => h.left_child hc) ?_
        · rw [nodeFormula_sr, childLP_some, hdt]
          show d.LogProb = Real.log (1/2) + logaddexp d.lktp (childLP l + zeroData.LogProb)
          have hform := h.formula
          cases l with
          | none =>
            obtain ⟨hk, hp⟩ := h.internal_leaf hn rfl rfl
            rw [childLP_none, hp, hk]
            show (0 : ℝ) = Real.log (1/2) + logaddexp 0 (0 + zeroData.LogProb)
            rw [show zeroData.LogProb = 0 from rfl, add_zero, log_half_logaddexp_zero]
          | some lc =>
            rw [nodeFormula_sl] at hform
            rw [hform, childLP_none, childLP_some]
            rw [show zeroData.LogProb = 0 from rfl]
        · intro c hc
          cases hc
          exact ⟨hn, ih (n - 1) zeroTree bit true (Inv_zeroTree _) (by omega)⟩
      | some t =>
        simp only [applySnaps, eq_self_iff_true, if_true]
        have hdt := revert_update_dt rest t bit false
        refine Inv_node n d l _ ?_ (fun h0 => absurd h0 (by omega))
          (fun _ _ hre => Option.noConfusion hre) (fun c hc => h.left_child hc) ?_
        · rw [nodeFormula_sr, childLP_some, hdt]
          have hform := h.formula
          rw [nodeFormula_sr, childLP_some] at hform
          exact hform
        · intro c hc
          cases hc
          exact ⟨hn, ih (n - 1) t bit false (h.right_child rfl).2 (by omega)⟩
    · cases l with
      | none =>
        simp only [applySnaps, Bool.true_eq_false, if_false]
        have hdt := revert_update_dt rest zeroTree bit true
        refine Inv_node n d _ r ?_ (fun h0 => absurd h0 (by omega))
          (fun _ hle _ => Option.noConfusion hle) ?_ (fun c hc => h.right_child hc)
        · rw [nodeFormula_sl, childLP_some, hdt]
          show d.LogProb = Real.log (1/2) + logaddexp d.lktp (zeroData.LogProb + childLP r)
          have hform := h.formula
          cases r with
          | none =>
            obtain ⟨hk, hp⟩ := h.internal_leaf hn rfl rfl
            rw [childLP_none, hp, hk]
            show (0 : ℝ) = Real.log (1/2) + logaddexp 0 (zeroData.LogProb + 0)
            rw [show zeroData.LogProb = 0 from rfl, add_zero, log_half_logaddexp_zero]
          | some rc =>
            rw [nodeFormula_sr] at hform
            rw [hform, childLP_none, childLP_some]
            rw [show zeroData.LogProb = 0 from rfl]
        · intro c hc
          cases hc
          exact ⟨hn, ih (n - 1) zeroTree bit true (Inv_zeroTree _) (by omega)⟩
      | some t =>
        simp only [applySnaps, Bool.true_eq_false, if_false]
        have hdt := revert_update_dt rest t bit false
        refine Inv_node n d _ r ?_ (fun h0 => absurd h0 (by omega))
          (fun _ hle _ => Option.noConfusion hle) ?_ (fun c hc => h.right_child hc)
        · rw [nodeFormula_sl, childLP_some, hdt]
          have hform := h.formula
          rw [nodeFormula_sl, childLP_some] at hform
          exact hform
        · intro c hc
          cases hc
          exact ⟨hn, ih (n - 1) t bit false (h.left_child rfl).2 (by omega)⟩

/-- C3: after every update, each node with both children absent has
`LogProb` equal to its `lktp`, and each node with at least one child has
`LogProb = log (1/2) + logaddexp lktp (L + R)` where a missing child's
contribution is 0 — stated for any model state satisfying the
reachability invariant `Inv` (which is preserved by `update` and by the
reverts performed by `Prob0` and `CTWReverter.Unobserve`, per
`updateWalk_Inv` and `revert_update_Inv`). -/
theorem C3_node_logprob_formula (m : CTW) (bit : Bool) (n : ℕ)
    (hinv : Inv n m.root) (hlen : m.bits.length = n) :
    AllFormula (update m.root m.bits bit).1 ∧ Inv n (update m.root m.bits bit).1 := by
  have h := updateWalk_Inv m.bits.reverse n m.root bit false hinv
    (by rw [List.length_reverse]; exact hlen)
  exact ⟨Inv_to_AllFormula h, h⟩

/-- Witness for C3 at a concrete state. -/
theorem C3_node_logprob_formula_witness :
    Inv 1 (NewCTW [false]).root ∧ (NewCTW [false]).bits.length = 1 ∧
    (AllFormula (update (NewCTW [false]).root (NewCTW [false]).bits true).1 ∧
      Inv 1 (update (NewCTW [false]).root (NewCTW [false]).bits true).1) :=
  ⟨Inv_zeroTree 1, rfl, C3_node_logprob_formula (NewCTW [false]) true 1 (Inv_zeroTree 1) rfl⟩

end ctw

namespace ctwq

/-- Probability contribution of an optional child in the mirror: its
probability, or 1 when absent. -/
def childP (o : Option QTree) : ℚ :=
  match o with
  | none => 1
  | some c => c.dt.p

theorem childP_none : childP none = 1 := rfl

theorem childP_some (c : QTree) : childP (some c) = c.dt.p := rfl

/-- Mirror of the per-node probability law. -/
def qNodeFormula (dt : QNode) (l r : Option QTree) : Prop :=
  match l, r with
  | none, none => dt.p = dt.kt
  | _, _ => dt.p = (1/2) * dt.kt + (1/2) * (childP l * childP r)

theorem qNodeFormula_nn (dt : QNode) : qNodeFormula dt none none = (dt.p = dt.kt) := rfl

theorem qNodeFormula_sr (dt : QNode) (l : Option QTree) (rc : QTree) :
    qNodeFormula dt l (some rc) =
      (dt.p = (1/2) * dt.kt + (1/2) * (childP l * childP (some rc))) := by
  cases l <;> rfl

theorem qNodeFormula_sl (dt : QNode) (lc : QTree) (r : Option QTree) :
    qNodeFormula dt (some lc) r =
      (dt.p = (1/2) * dt.kt + (1/2) * (childP (some lc) * childP r)) := by
  cases r <;> rfl

/-- Mirror of the reachability invariant `ctw.Inv`: the per-node formula,
the depth bound, and the fact that internal childless nodes carry the
fresh unit estimate. -/
inductive QInv : ℕ → QTree → Prop
  | mk (n : ℕ) (dt : QNode) (l r : Option QTree) :
      qNodeFormula dt l r →
      (n = 0 → l = none ∧ r = none) →
      (0 < n → l = none → r = none → dt.kt = 1) →
      (∀ c, l = some c → 0 < n) → (∀ c, l = some c → QInv (n - 1) c) →
      (∀ c, r = some c → 0 < n) → (∀ c, r = some c → QInv (n - 1) c) →
      QInv n (.node dt l r)

theorem QInv.qformula : ∀ {n dt l r}, QInv n (QTree.node dt l r) → qNodeFormula dt l r := by
  intro n dt l r h
  cases h with
  | mk _ _ _ _ hf _ _ _ _ _ _ => exact hf

theorem QInv.qzero_children : ∀ {dt l r}, QInv 0 (QTree.node dt l r) → l = none ∧ r = none := by
  intro dt l r h
  cases h with
  | mk _ _ _ _ _ h0 _ _ _ _ _ => exact h0 rfl

theorem QInv.qinternal_leaf : ∀ {n dt l r}, QInv n (QTree.node dt l r) → 0 < n → l = none →
    r = none → dt.kt = 1 := by
  intro n dt l r h
  cases h with
  | mk _ _ _ _ _ _ hi _ _ _ _ => exact hi

theorem QInv.qleft_child : ∀ {n dt l r c}, QInv n (QTree.node dt l r) → l = some c →
    0 < n ∧ QInv (n - 1) c := by
  intro n dt l r c h hc
  cases h with
  | mk _ _ _ _ _ _ _ h1 h2 _ _ => exact ⟨h1 _ hc, h2 _ hc⟩

theorem QInv.qright_child : ∀ {n dt l r c}, QInv n (QTree.node dt l r) → r = some c →
    0 < n ∧ QInv (n - 1) c := by
  intro n dt l r c h hc
  cases h with
  | mk _ _ _ _ _ _ _ _ _ h1 h2 => exact ⟨h1 _ hc, h2 _ hc⟩

theorem QInv_node (n : ℕ) (dt : QNode) (l r : Option QTree)
    (hf : qNodeFormula dt l r)
    (h0 : n = 0 → l = none ∧ r = none)
    (hi : 0 < n → l = none → r = none → dt.kt = 1)
    (hl : ∀ c, l = some c → 0 < n ∧ QInv (n - 1) c)
    (hr : ∀ c, r = some c → 0 < n ∧ QInv (n - 1) c) : QInv n (.node dt l r) :=
  .mk n dt l r hf h0 hi (fun c hc => (hl c hc).1) (fun c hc => (hl c hc).2)
    (fun c hc => (hr c hc).1) (fun c hc => (hr c hc).2)

theorem QInv_oneTree (n : ℕ) : QInv n oneTree := by
  refine QInv_node n oneData none none rfl (fun _ => ⟨rfl, rfl⟩) (fun _ _ _ => rfl) ?_ ?_ <;>
    intro c h <;> cases h

theorem ktQ_sum (d : QNode) : (ktQ d false).kt + (ktQ d true).kt = d.kt := by
  unfold ktQ
  simp only [eq_self_iff_true, if_true, Bool.true_eq_false, if_false]
  have h : ((d.a : ℚ) + (d.b : ℚ) + 1) ≠ 0 := by positivity
  field_simp
  ring

theorem recomputeQ_mix (dt : QNode) (l : Option QTree) (rc : QTree) :
    recomputeQ dt l (some rc) = { dt with p := (1/2) * dt.kt + (1/2) * (childP l * rc.dt.p) } := by
  cases l with
  | none =>
    rw [recomputeQ_ns, childP_none]
  | some lc =>
    rw [recomputeQ_ss, childP_some]

theorem recomputeQ_mixL (dt : QNode) (lc : QTree) (r : Option QTree) :
    recomputeQ dt (some lc) r = { dt with p := (1/2) * dt.kt + (1/2) * (lc.dt.p * childP r) } := by
  cases r with
  | none =>
    rw [recomputeQ_sn, childP_none]
  | some rc =>
    rw [recomputeQ_ss, childP_some]

theorem QTree.dt_node (d : QNode) (l r : Option QTree) : (QTree.node d l r).dt = d := rfl

/-- The CTW martingale property: the two speculative updates for the bits
0 and 1 split the root probability exactly. -/
theorem updateWalkQ_sum (ctx : List Bool) :
    ∀ (n : ℕ) (qt : QTree) (f₁ f₂ : Bool), QInv n qt → ctx.length = n →
      (updateWalkQ ctx qt false f₁).1.dt.p + (updateWalkQ ctx qt true f₂).1.dt.p = qt.dt.p := by
  induction ctx with
  | nil =>
    rintro n ⟨d, l, r⟩ f₁ f₂ h hlen
    simp only [List.length_nil] at hlen
    subst hlen
    obtain ⟨e1, e2⟩ := h.qzero_children
    subst e1
    subst e2
    have hf := h.qformula
    rw [qNodeFormula_nn] at hf
    simp only [updateWalkQ, recomputeQ_nn, QTree.dt_node]
    rw [ktQ_sum, hf]
  | cons c rest ih =>
    rintro n ⟨d, l, r⟩ f₁ f₂ h hlen
    simp only [List.length_cons] at hlen
    have hn : 0 < n := by omega
    have hf := h.qformula
    have hkt := ktQ_sum d
    simp only [updateWalkQ]
    cases c <;>
      simp only [eq_self_iff_true, if_true, Bool.true_eq_false, if_false, Bool.false_eq_true]
    · cases r with
      | none =>
        have hsum := ih (n - 1) oneTree true true (QInv_oneTree _) (by omega)
        rw [show oneTree.dt.p = 1 from rfl] at hsum
        simp only [QTree.dt_node, recomputeQ_mix]
        have hp : d.p = (1/2) * d.kt + (1/2) * (childP l * 1) := by
          cases l with
          | none =>
            rw [qNodeFormula_nn] at hf
            rw [hf, h.qinternal_leaf hn rfl rfl, childP_none]
            norm_num
          | some lc =>
            rw [qNodeFormula_sl] at hf
            rw [hf, childP_none]
        rw [hp]
        show (1/2) * (ktQ d false).kt + (1/2) * (childP l * (updateWalkQ rest oneTree false true).1.dt.p) +
          ((1/2) * (ktQ d true).kt + (1/2) * (childP l * (updateWalkQ rest oneTree true true).1.dt.p)) =
          (1/2) * d.kt + (1/2) * (childP l * 1)
        linear_combination (1/2 : ℚ) * hkt + ((1/2 : ℚ) * childP l) * hsum
      | some t =>
        have hsum := ih (n - 1) t false false (h.qright_child rfl).2 (by omega)
        simp only [QTree.dt_node, recomputeQ_mix]
        have hp : d.p = (1/2) * d.kt + (1/2) * (childP l * t.dt.p) := by
          rw [qNodeFormula_sr, childP_some] at hf
          exact hf
        rw [hp]
        show (1/2) * (ktQ d false).kt + (1/2) * (childP l * (updateWalkQ rest t false false).1.dt.p) +
          ((1/2) * (ktQ d true).kt + (1/2) * (childP l * (updateWalkQ rest t true false).1.dt.p)) =
          (1/2) * d.kt + (1/2) * (childP l * t.dt.p)
        linear_combination (1/2 : ℚ) * hkt + ((1/2 : ℚ) * childP l) * hsum
    · cases l with
      | none =>
        have hsum := ih (n - 1) oneTree true true (QInv_oneTree _) (by omega)
        rw [show oneTree.dt.p = 1 from rfl] at hsum
        simp only [QTree.dt_node, recomputeQ_mixL]
        have hp : d.p = (1/2) * d.kt + (1/2) * (1 * childP r) := by
          cases r with
          | none =>
            rw [qNodeFormula_nn] at hf
            rw [hf, h.qinternal_leaf hn rfl rfl, childP_none]
            norm_num
          | some rc =>
            rw [qNodeFormula_sr] at hf
            rw [hf, childP_none]
        rw [hp]
        show (1/2) * (ktQ d false).kt + (1/2) * ((updateWalkQ rest oneTree false true).1.dt.p * childP r) +
          ((1/2) * (ktQ d true).kt + (1/2) * ((updateWalkQ rest oneTree true true).1.dt.p * childP r)) =
          (1/2) * d.kt + (1/2) * (1 * childP r)
        linear_combination (1/2 : ℚ) * hkt + ((1/2 : ℚ) * childP r) * hsum
      | some t =>
        have hsum := ih (n - 1) t false false (h.qleft_child rfl).2 (by omega)
        simp only [QTree.dt_node, recomputeQ_mixL]
        have hp : d.p = (1/2) * d.kt + (1/2) * (t.dt.p * childP r) := by
          rw [qNodeFormula_sl, childP_some] at hf
          exact hf
        rw [hp]
        show (1/2) * (ktQ d false).kt + (1/2) * ((updateWalkQ rest t false false).1.dt.p * childP r) +
          ((1/2) * (ktQ d true).kt + (1/2) * ((updateWalkQ rest t true false).1.dt.p * childP r)) =
          (1/2) * d.kt + (1/2) * (t.dt.p * childP r)
        linear_combination (1/2 : ℚ) * hkt + ((1/2 : ℚ) * childP r) * hsum

end ctwq

namespace ctw

/-- The depth bound transfers from the rational invariant to the real tree. -/
theorem QInv_DepthLE : ∀ {n : ℕ} {qt : ctwq.QTree}, ctwq.QInv n qt → DepthLE n (toLog qt) := by
  intro n qt h
  induction h with
  | mk n dt l r hf h0 hi hl1 hl hr1 hr ihl ihr =>
    rw [toLog_node]
    refine DepthLE_node n (toLogData dt) (toLogOpt l) (toLogOpt r) ?_ ?_ ?_
    · intro h0'
      obtain ⟨e1, e2⟩ := h0 h0'
      rw [e1, e2]
      exact ⟨rfl, rfl⟩
    · intro c hc
      cases l with
      | none => cases hc
      | some lc =>
        rw [toLogOpt_some] at hc
        injection hc with hc
        rw [← hc]
        exact ⟨hl1 lc rfl, ihl lc rfl⟩
    · intro c hc
      cases r with
      | none => cases hc
      | some rc =>
        rw [toLogOpt_some] at hc
        injection hc with hc
        rw [← hc]
        exact ⟨hr1 rc rfl, ihr rc rfl⟩

/-- C4: `Prob0` is pure.  On every reachable model state (characterised by
the rational mirror `qt` with its positivity and reachability invariants),
the returned probability lies strictly between 0 and 1, the call leaves
the context buffer untouched, restores every scalar of the root, changes
the tree at most by freshly created zero chains that are invisible to
pruning, and a second call with no intervening `Observe` returns the
identical value. -/
theorem C4_prob0_pure (m : CTW) (qt : ctwq.QTree) (n : ℕ)
    (hroot : m.root = toLog qt) (hpos : ctwq.QPos qt) (hinv : ctwq.QInv n qt)
    (hlen : m.bits.length = n) :
    (0 < (m.Prob0).1 ∧ (m.Prob0).1 < 1) ∧
      (m.Prob0).2.bits = m.bits ∧
      (m.Prob0).2.root.dt = m.root.dt ∧
      prune (m.Prob0).2.root = prune m.root ∧
      ((m.Prob0).2.Prob0).1 = (m.Prob0).1 := by
  have hctx : m.bits.reverse.length = n := by rw [List.length_reverse]; exact hlen
  have hsim := updateWalk_sim m.bits.reverse qt false false hpos
  have hpa : (0 : ℚ) < (ctwq.updateWalkQ m.bits.reverse qt false false).1.dt.p :=
    (ctwq.QPos_updateWalk m.bits.reverse qt false false hpos).p_pos
  have hpa' : (0 : ℚ) < (ctwq.updateWalkQ m.bits.reverse qt true false).1.dt.p :=
    (ctwq.QPos_updateWalk m.bits.reverse qt true false hpos).p_pos
  have hpb : (0 : ℚ) < qt.dt.p := hpos.p_pos
  have hm := ctwq.updateWalkQ_sum m.bits.reverse n qt false false hinv hctx
  have hlt : (ctwq.updateWalkQ m.bits.reverse qt false false).1.dt.p < qt.dt.p := by linarith
  have hupd : (update m.root m.bits false).1 =
      toLog (ctwq.updateWalkQ m.bits.reverse qt false false).1 := by
    show (updateWalk m.bits.reverse m.root false false).1 = _
    rw [hroot, hsim]
  have hval : (m.Prob0).1 =
      Real.exp (Real.log (((ctwq.updateWalkQ m.bits.reverse qt false false).1.dt.p : ℝ)) -
        Real.log ((qt.dt.p : ℝ))) := by
    show Real.exp ((update m.root m.bits false).1.dt.LogProb - m.root.dt.LogProb) = _
    rw [hupd, hroot, toLog_dt, toLog_dt]
    rfl
  have hlog : Real.log (((ctwq.updateWalkQ m.bits.reverse qt false false).1.dt.p : ℝ)) <
      Real.log ((qt.dt.p : ℝ)) :=
    Real.log_lt_log (by exact_mod_cast hpa) (by exact_mod_cast hlt)
  refine ⟨⟨?_, ?_⟩, rfl, ?_, ?_, ?_⟩
  · rw [hval]
    exact Real.exp_pos _
  · rw [hval]
    have h1 : Real.exp (Real.log
        (((ctwq.updateWalkQ m.bits.reverse qt false false).1.dt.p : ℝ)) -
        Real.log ((qt.dt.p : ℝ))) < Real.exp 0 := Real.exp_lt_exp.mpr (by linarith)
    rwa [Real.exp_zero] at h1
  · exact revert_update_dt m.bits.reverse m.root false false
  · exact revert_update_prune m.bits.reverse m.root false false
  · have hD : DepthLE n m.root := by rw [hroot]; exact QInv_DepthLE hinv
    have hD1 : DepthLE n (applySnaps (updateWalk m.bits.reverse m.root false false).1
        m.bits.reverse (updateWalk m.bits.reverse m.root false false).2) :=
      applySnaps_DepthLE m.bits.reverse n _ _
        (updateWalk_DepthLE m.bits.reverse n m.root false false hD hctx) hctx
    exact Prob0_val_congr hD1 hD hlen (revert_update_prune m.bits.reverse m.root false false)

/-- Witness for C4 at a concrete state. -/
theorem C4_prob0_pure_witness :
    ((NewCTW [false]).root = toLog ctwq.oneTree ∧ ctwq.QPos ctwq.oneTree ∧
      ctwq.QInv 1 ctwq.oneTree ∧ (NewCTW [false]).bits.length = 1) ∧
    ((0 < ((NewCTW [false]).Prob0).1 ∧ ((NewCTW [false]).Prob0).1 < 1) ∧
      ((NewCTW [false]).Prob0).2.bits = (NewCTW [false]).bits ∧
      ((NewCTW [false]).Prob0).2.root.dt = (NewCTW [false]).root.dt ∧
      prune ((NewCTW [false]).Prob0).2.root = prune (NewCTW [false]).root ∧
      (((NewCTW [false]).Prob0).2.Prob0).1 = ((NewCTW [false]).Prob0).1) :=
  ⟨⟨toLog_oneTree.symm, ctwq.QPos_oneTree, ctwq.QInv_oneTree 1, rfl⟩,
    C4_prob0_pure (NewCTW [false]) ctwq.oneTree 1 toLog_oneTree.symm ctwq.QPos_oneTree
      (ctwq.QInv_oneTree 1) rfl⟩

/-- The double-speculation `Prob0` formula described by the spec (the shape
used by the older revision `src/unnamed/part_002`): speculatively update
with a zero bit and with a one bit and return `1 / (1 + exp(L1 − L0))`.
This definition follows the spec's words over the current update, to be
compared with the single-speculation `CTW.Prob0` of the source. -/
noncomputable def Prob0Double (m : CTW) : ℝ :=
  let joint0 := (update m.root m.bits false).1.dt.LogProb
  let joint1 := (update m.root m.bits true).1.dt.LogProb
  1 / (1 + Real.exp (joint1 - joint0))

/-- C9: on every reachable model state the single-speculation variant
`exp(L_after0 − L_before)` and the double-speculation variant
`1/(1 + exp(L1 − L0))` return the same probability, because the two
speculative root probabilities split the current root probability
(the CTW martingale property). -/
theorem C9_prob0_equiv (m : CTW) (qt : ctwq.QTree) (n : ℕ)
    (hroot : m.root = toLog qt) (hpos : ctwq.QPos qt) (hinv : ctwq.QInv n qt)
    (hlen : m.bits.length = n) :
    (m.Prob0).1 = Prob0Double m := by
  have hctx : m.bits.reverse.length = n := by rw [List.length_reverse]; exact hlen
  have hsim0 := updateWalk_sim m.bits.reverse qt false false hpos
  have hsim1 := updateWalk_sim m.bits.reverse qt true false hpos
  have hpa0 : (0 : ℚ) < (ctwq.updateWalkQ m.bits.reverse qt false false).1.dt.p :=
    (ctwq.QPos_updateWalk m.bits.reverse qt false false hpos).p_pos
  have hpa1 : (0 : ℚ) < (ctwq.updateWalkQ m.bits.reverse qt true false).1.dt.p :=
    (ctwq.QPos_updateWalk m.bits.reverse qt true false hpos).p_pos
  have hpb : (0 : ℚ) < qt.dt.p := hpos.p_pos
  have hm := ctwq.updateWalkQ_sum m.bits.reverse n qt false false hinv hctx
  have h0 : (update m.root m.bits false).1.dt.LogProb =
      Real.log (((ctwq.updateWalkQ m.bits.reverse qt false false).1.dt.p : ℝ)) := by
    show (updateWalk m.bits.reverse m.root false false).1.dt.LogProb = _
    rw [hroot, hsim0, toLog_dt]
    rfl
  have h1 : (update m.root m.bits true).1.dt.LogProb =
      Real.log (((ctwq.updateWalkQ m.bits.reverse qt true false).1.dt.p : ℝ)) := by
    show (updateWalk m.bits.reverse m.root true false).1.dt.LogProb = _
    rw [hroot, hsim1, toLog_dt]
    rfl
  have hB : m.root.dt.LogProb = Real.log ((qt.dt.p : ℝ)) := by
    rw [hroot, toLog_dt]
    rfl
  have e0 : (0 : ℝ) < (((ctwq.updateWalkQ m.bits.reverse qt false false).1.dt.p : ℝ)) := by
    exact_mod_cast hpa0
  have e1 : (0 : ℝ) < (((ctwq.updateWalkQ m.bits.reverse qt true false).1.dt.p : ℝ)) := by
    exact_mod_cast hpa1
  have eb : (0 : ℝ) < ((qt.dt.p : ℝ)) := by exact_mod_cast hpb
  have hmr : (((ctwq.updateWalkQ m.bits.reverse qt false false).1.dt.p : ℝ)) +
      (((ctwq.updateWalkQ m.bits.reverse qt true false).1.dt.p : ℝ)) = ((qt.dt.p : ℝ)) := by
    exact_mod_cast hm
  show Real.exp ((update m.root m.bits false).1.dt.LogProb - m.root.dt.LogProb) =
    1 / (1 + Real.exp ((update m.root m.bits true).1.dt.LogProb -
      (update m.root m.bits false).1.dt.LogProb))
  rw [h0, h1, hB, Real.exp_sub, Real.exp_sub, Real.exp_log e0, Real.exp_log e1, Real.exp_log eb,
    ← hmr]
  field_simp

/-- Witness for C9 at a concrete state. -/
theorem C9_prob0_equiv_witness :
    ((NewCTW [false]).root = toLog ctwq.oneTree ∧ ctwq.QPos ctwq.oneTree ∧
      ctwq.QInv 1 ctwq.oneTree ∧ (NewCTW [false]).bits.length = 1) ∧
    ((NewCTW [false]).Prob0).1 = Prob0Double (NewCTW [false]) :=
  ⟨⟨toLog_oneTree.symm, ctwq.QPos_oneTree, ctwq.QInv_oneTree 1, rfl⟩,
    C9_prob0_equiv (NewCTW [false]) ctwq.oneTree 1 toLog_oneTree.symm ctwq.QPos_oneTree
      (ctwq.QInv_oneTree 1) rfl⟩

end ctw

namespace witten

/-! ## The Witten–Neal–Cleary arithmetic coder (`src/ac/witten/ac.go`)

The coder works on `uint64` state; machine integers are embedded as `ℕ`
with an explicit `% 2^64` wherever the Go code can wrap.  The channels
`src`/`dst` are embedded as lists consumed and produced in order.  The
unbounded rescale loops take a fuel argument and return `none` when it
runs out; fuel 34 is proved sufficient for every state satisfying the
interval invariant.  A `Model` is embedded as the function from the
observation history to the probability its `Prob0` returns; the
`uint64(prob0*topValueDbl)` conversion is the floor on ℝ. -/

def codeValueBits : ℕ := 32

def topValue : ℕ := (1 <<< codeValueBits) - 1

def firstQtr : ℕ := topValue / 4 + 1

def half : ℕ := 2 * firstQtr

def thirdQtr : ℕ := 3 * firstQtr

/-- The `uint64` modulus. -/
def M64 : ℕ := 2 ^ 64

def add64 (a b : ℕ) : ℕ := (a + b) % M64

def mul64 (a b : ℕ) : ℕ := (a * b) % M64

/-- `uint64` subtraction with wrap-around. -/
def sub64 (a b : ℕ) : ℕ := (a % M64 + (M64 - b % M64)) % M64

structure arithmeticEncoder where
  low : ℕ
  high : ℕ
  fbits : ℕ
deriving DecidableEq

def newAE : arithmeticEncoder := ⟨0, topValue, 0⟩

/-- `bitPlusFollow`: emit `bit`, then `fbits` opposite bits, clearing the
follow counter. -/
def bitPlusFollow (ae : arithmeticEncoder) (bit : Bool) : List Bool × arithmeticEncoder :=
  (bit :: List.replicate ae.fbits (!bit), { ae with fbits := 0 })

/-- The narrowing step of `Encode` (and, on `low`/`high`, of `Decode`):
`arange := high-low+1`, `split := low + arange*s/topValue` where `s` is the
scaled probability `uint64(prob0*topValueDbl)`, then the range shrinks to
the upper part `[split, high]` for a one bit and the lower part
`[low, split-1]` for a zero bit. -/
def encNarrow (ae : arithmeticEncoder) (s : ℕ) (bit : Bool) : arithmeticEncoder :=
  let arange := add64 (sub64 ae.high ae.low) 1
  let split := add64 ae.low (mul64 arange s / topValue)
  if bit then { ae with low := split } else { ae with high := sub64 split 1 }

/-- The encoder's rescaling loop.  Each iteration either emits (branch 1
and 2) or defers (branch 3) a bit and doubles the range; `none` means the
fuel ran out before the loop broke. -/
def encRescale : ℕ → arithmeticEncoder → Option (List Bool × arithmeticEncoder)
  | 0, _ => none
  | fuel + 1, ae =>
    if ae.high < half then
      let bf := bitPlusFollow ae false
      match encRescale fuel ⟨mul64 2 bf.2.low, add64 (mul64 2 bf.2.high) 1, bf.2.fbits⟩ with
      | none => none
      | some (out, ae2) => some (bf.1 ++ out, ae2)
    else if half ≤ ae.low then
      let bf := bitPlusFollow ae true
      match encRescale fuel
          ⟨mul64 2 (bf.2.low - half), add64 (mul64 2 (bf.2.high - half)) 1, bf.2.fbits⟩ with
      | none => none
      | some (out, ae2) => some (bf.1 ++ out, ae2)
    else if firstQtr ≤ ae.low ∧ ae.high < thirdQtr then
      encRescale fuel
        ⟨mul64 2 (ae.low - firstQtr), add64 (mul64 2 (ae.high - firstQtr)) 1, ae.fbits + 1⟩
    else
      some ([], ae)

/-- Fuel for the rescale loops; 34 is proved sufficient under the interval
invariant. -/
def encFuel : ℕ := 34

/-- The per-bit loop body of `Encode`: narrow, then rescale.  The model is
the function `sM` from the observation history to the scaled probability. -/
def encodeFrom (sM : List Bool → ℕ) : List Bool → List Bool → arithmeticEncoder →
    Option (List Bool × arithmeticEncoder)
  | _, [], ae => some ([], ae)
  | hist, bit :: rest, ae =>
    match encRescale encFuel (encNarrow ae (sM hist) bit) with
    | none => none
    | some (out, ae2) =>
      match encodeFrom sM (hist ++ [bit]) rest ae2 with
      | none => none
      | some (out2, ae3) => some (out ++ out2, ae3)

/-- The final emission of `Encode`: `fbits += 1`, then `bitPlusFollow`
with 0 when `low < firstQtr` and 1 otherwise. -/
def encFinish (ae : arithmeticEncoder) : List Bool :=
  (bitPlusFollow { ae with fbits := ae.fbits + 1 } (decide (firstQtr ≤ ae.low))).1

/-- `Encode` over the scaled model: the whole output stream, or `none` if
a rescale loop would exceed the fuel. -/
def EncodeS (sM : List Bool → ℕ) (xs : List Bool) : Option (List Bool) :=
  match encodeFrom sM [] xs newAE with
  | none => none
  | some (out, ae) => some (out ++ encFinish ae)

structure arithmeticDecoder where
  low : ℕ
  high : ℕ
  value : ℕ
deriving DecidableEq

inductive DecErr where
  | insufficientBits
deriving DecidableEq

/-- `readDecBit`: read a bit from the channel; when it is closed,
substitute a 1 and count it, failing with `ErrDecodeInsufficientBits` once
more than `codeValueBits - 2` bits were substituted. -/
def readDecBit : List Bool → ℕ → Except DecErr (ℕ × List Bool × ℕ)
  | b :: rest, g => .ok (if b then 1 else 0, rest, g)
  | [], g =>
    if codeValueBits - 2 < g + 1 then .error .insufficientBits
    else .ok (1, [], g + 1)

/-- The initial loop of `Decode` filling `value` with `codeValueBits`
bits. -/
def decFill : ℕ → ℕ → List Bool → ℕ → Except DecErr (ℕ × List Bool × ℕ)
  | 0, v, src, g => .ok (v, src, g)
  | n + 1, v, src, g =>
    match readDecBit src g with
    | .error e => .error e
    | .ok (inb, src2, g2) => decFill n (add64 (mul64 2 v) inb) src2 g2

/-- The common tail of the decoder's rescale iteration: double the state
and shift the next input bit into `value`. -/
def decScaleRead (ad : arithmeticDecoder) (src : List Bool) (g : ℕ) :
    Except DecErr (arithmeticDecoder × List Bool × ℕ) :=
  match readDecBit src g with
  | .error e => .error e
  | .ok (inb, src2, g2) =>
    .ok (⟨mul64 2 ad.low, add64 (mul64 2 ad.high) 1, add64 (mul64 2 ad.value) inb⟩, src2, g2)

/-- The decoder's rescaling loop: same three branches on `low`/`high` as
the encoder, with `value` shifted along. -/
def decRescale : ℕ → arithmeticDecoder → List Bool → ℕ →
    Option (Except DecErr (arithmeticDecoder × List Bool × ℕ))
  | 0, _, _, _ => none
  | fuel + 1, ad, src, g =>
    if ad.high < half then
      match decScaleRead ad src g with
      | .error e => some (.error e)
      | .ok (ad2, src2, g2) => decRescale fuel ad2 src2 g2
    else if half ≤ ad.low then
      match decScaleRead ⟨ad.low - half, ad.high - half, sub64 ad.value half⟩ src g with
      | .error e => some (.error e)
      | .ok (ad2, src2, g2) => decRescale fuel ad2 src2 g2
    else if firstQtr ≤ ad.low ∧ ad.high < thirdQtr then
      match decScaleRead ⟨ad.low - firstQtr, ad.high - firstQtr, sub64 ad.value firstQtr⟩ src g with
      | .error e => some (.error e)
      | .ok (ad2, src2, g2) => decRescale fuel ad2 src2 g2
    else some (.ok (ad, src, g))

/-- The per-bit loop of `Decode`: decide the bit from `value` against
`split`, emit and observe it, narrow, rescale.  The result collects the
emitted bits together with the error, if any. -/
def decodeFrom (sM : List Bool → ℕ) : List Bool → ℕ → arithmeticDecoder → List Bool → ℕ →
    Option (List Bool × Option DecErr)
  | _, 0, _, _, _ => some ([], none)
  | hist, i + 1, ad, src, g =>
    let arange := add64 (sub64 ad.high ad.low) 1
    let split := add64 ad.low (mul64 arange (sM hist) / topValue)
    let bit : Bool := decide (split ≤ ad.value)
    let ad1 : arithmeticDecoder :=
      if bit then { ad with low := split } else { ad with high := sub64 split 1 }
    match decRescale encFuel ad1 src g with
    | none => none
    | some (.error e) => some ([bit], some e)
    | some (.ok (ad2, src2, g2)) =>
      match decodeFrom sM (hist ++ [bit]) i ad2 src2 g2 with
      | none => none
      | some (out, err) => some (bit :: out, err)

/-- `Decode` over the scaled model. -/
def DecodeS (sM : List Bool → ℕ) (src : List Bool) (originalSize : ℕ) :
    Option (List Bool × Option DecErr) :=
  match decFill codeValueBits 0 src 0 with
  | .error e => some ([], some e)
  | .ok (v, src2, g) => decodeFrom sM [] originalSize ⟨0, topValue, v⟩ src2 g

/-- The Go conversion `uint64(prob0 * topValueDbl)` (truncation of a
nonnegative float). -/
noncomputable def scaled (p : ℝ) : ℕ := ⌊p * (topValue : ℝ)⌋₊

/-- `Encode` with a model given by its `Prob0` values. -/
noncomputable def Encode (M : List Bool → ℝ) (xs : List Bool) : Option (List Bool) :=
  EncodeS (fun h => scaled (M h)) xs

/-- `Decode` with a model given by its `Prob0` values. -/
noncomputable def Decode (M : List Bool → ℝ) (src : List Bool) (originalSize : ℕ) :
    Option (List Bool × Option DecErr) :=
  DecodeS (fun h => scaled (M h)) src originalSize

end witten

namespace witten

/-- A model whose `Prob0` is a constant probability strictly inside
`(0, 1)` but small enough that `uint64(prob0*topValueDbl)` truncates to
0. -/
noncomputable def tinyModel : List Bool → ℝ := fun _ => ((2 : ℝ))⁻¹ ^ 60

theorem tinyModel_scaled : (fun h => scaled (tinyModel h)) = fun _ => 0 := by
  funext h
  refine Nat.floor_eq_zero.mpr ?_
  show ((2 : ℝ))⁻¹ ^ 60 * ((topValue : ℕ) : ℝ) < 1
  rw [show ((topValue : ℕ) : ℝ) = ((4294967295 : ℕ) : ℝ) from rfl]
  norm_num

/-- Counterexample to C1 as stated: with a model whose `Prob0` is a
constant probability in `(0, 1)`, `Encode` maps the single-bit input `[0]`
to the stream `[0, 1]`, and `Decode` of that stream with the identical
model emits `[1]` — not the original input — without reporting any
error. -/
theorem C1_roundtrip_counterexample :
    (∀ h, 0 < tinyModel h ∧ tinyModel h < 1) ∧
    Encode tinyModel [false] = some [false, true] ∧
    Decode tinyModel [false, true] 1 = some ([true], none) := by
  refine ⟨fun h => ⟨by norm_num [tinyModel], by norm_num [tinyModel]⟩, ?_, ?_⟩
  · show EncodeS (fun h => scaled (tinyModel h)) [false] = some [false, true]
    rw [tinyModel_scaled]
    decide
  · show DecodeS (fun h => scaled (tinyModel h)) [false, true] 1 = some ([true], none)
    rw [tinyModel_scaled]
    decide

/-- Counterexample to C6 as stated: with the same model (`Prob0` constant
in `(0, 1)` but scaling to 0), already the first narrowing step of the
encoder on a zero bit wraps `high` around to `2^64 - 1`, far above
`topValue`. -/
theorem C6_coder_invariant_counterexample :
    (∀ h, 0 < tinyModel h ∧ tinyModel h < 1) ∧
    (encNarrow newAE (scaled (tinyModel [])) false).high = 2 ^ 64 - 1 ∧
    topValue < (encNarrow newAE (scaled (tinyModel [])) false).high := by
  have hs : scaled (tinyModel []) = 0 := congrFun tinyModel_scaled []
  refine ⟨fun h => ⟨by norm_num [tinyModel], by norm_num [tinyModel]⟩, ?_, ?_⟩ <;>
    rw [hs] <;> decide

/-- C7: starved reads substitute a 1 bit and count it, for up to
`codeValueBits - 2 = 30` missing bits; one more missing bit makes the
decoder fail with `ErrDecodeInsufficientBits`, as a `Decode` run with an
empty input stream does. -/
theorem C7_decoder_starvation :
    (∀ g, g + 1 ≤ codeValueBits - 2 → readDecBit [] g = .ok (1, [], g + 1)) ∧
    (∀ g, codeValueBits - 2 < g + 1 → readDecBit [] g = .error .insufficientBits) ∧
    DecodeS (fun _ => 2 ^ 31) [] 1 = some ([], some .insufficientBits) := by
  refine ⟨?_, ?_, by decide⟩
  · intro g hg
    show (if codeValueBits - 2 < g + 1 then Except.error DecErr.insufficientBits
      else Except.ok (1, [], g + 1)) = Except.ok (1, [], g + 1)
    rw [if_neg (by omega)]
  · intro g hg
    show (if codeValueBits - 2 < g + 1 then Except.error DecErr.insufficientBits
      else Except.ok (1, [], g + 1)) = Except.error DecErr.insufficientBits
    rw [if_pos hg]

/-- Witness for C7 at concrete garbage counts. -/
theorem C7_decoder_starvation_witness :
    (0 + 1 ≤ codeValueBits - 2 ∧ readDecBit [] 0 = .ok (1, [], 0 + 1)) ∧
    (codeValueBits - 2 < 30 + 1 ∧ readDecBit [] 30 = .error .insufficientBits) :=
  ⟨⟨by decide, C7_decoder_starvation.1 0 (by decide)⟩,
    ⟨by decide, C7_decoder_starvation.2.1 30 (by decide)⟩⟩

end witten

namespace witten

theorem topValue_eq : topValue = 4294967295 := by decide

theorem firstQtr_eq : firstQtr = 1073741824 := by decide

theorem half_eq : half = 2147483648 := by decide

theorem thirdQtr_eq : thirdQtr = 3221225472 := by decide

theorem M64_eq : M64 = 18446744073709551616 := by norm_num [M64]

/-- The claim's interval invariant: `low ≤ high` and both ends within
`[0, topValue]`. -/
def EncInv (low high : ℕ) : Prop := low ≤ high ∧ high ≤ topValue

/-- The invariant holding when a rescale loop has exited (and at the
coders' initial state): the interval invariant plus the loop's negated
guards. -/
def StepInv (low high : ℕ) : Prop :=
  low ≤ high ∧ high ≤ topValue ∧ half ≤ high ∧ low < half ∧
    (low < firstQtr ∨ thirdQtr ≤ high)

theorem StepInv_init : StepInv 0 topValue := by
  refine ⟨by omega, le_refl _, ?_, ?_, Or.inl ?_⟩ <;> decide

/-- On a loop-boundary state with scaled probability `4 ≤ s ≤ topValue-1`,
the narrowing arithmetic never wraps: `split = low + δ` with
`1 ≤ δ ≤ high - low`, so both narrowed intervals are nonempty subintervals
of `[low, high]`. -/
theorem encNarrow_spec (ae : arithmeticEncoder) (s : ℕ) (bit : Bool)
    (hinv : StepInv ae.low ae.high) (hs4 : 4 ≤ s) (hsT : s + 1 ≤ topValue) :
    ∃ δ, 1 ≤ δ ∧ ae.low + δ ≤ ae.high ∧
      add64 ae.low (mul64 (add64 (sub64 ae.high ae.low) 1) s / topValue) = ae.low + δ ∧
      sub64 (ae.low + δ) 1 = ae.low + δ - 1 ∧
      encNarrow ae s bit =
        if bit then ⟨ae.low + δ, ae.high, ae.fbits⟩
        else ⟨ae.low, ae.low + δ - 1, ae.fbits⟩ := by
  rcases ae with ⟨l, h, fb⟩
  dsimp only at hinv ⊢
  obtain ⟨h1, h2, h3, h4, h5⟩ := hinv
  rw [topValue_eq] at h2 hsT
  rw [half_eq] at h3 h4
  rw [firstQtr_eq, thirdQtr_eq] at h5
  have harange : h - l + 1 ≤ 4294967296 := by omega
  have harange2 : 1073741826 ≤ h - l + 1 := by omega
  have hmul : (h - l + 1) * s < 18446744073709551616 :=
    lt_of_le_of_lt (Nat.mul_le_mul harange (show s ≤ 4294967294 by omega)) (by norm_num)
  have hδ1 : 1 ≤ (h - l + 1) * s / 4294967295 :=
    (Nat.one_le_div_iff (by norm_num)).mpr
      (le_trans (by norm_num) (Nat.mul_le_mul harange2 hs4))
  have hδ2 : (h - l + 1) * s / 4294967295 < h - l + 1 :=
    (Nat.div_lt_iff_lt_mul (by norm_num)).mpr
      (mul_lt_mul_of_pos_left (by omega) (by omega))

  have e1 : sub64 h l = h - l := by
    unfold sub64
    rw [M64_eq]
    omega
  have e2 : add64 (h - l) 1 = h - l + 1 := by
    unfold add64
    rw [M64_eq]
    omega
  have e3 : mul64 (h - l + 1) s = (h - l + 1) * s := by
    unfold mul64
    rw [M64_eq]
    omega
  have e4 : add64 l ((h - l + 1) * s / 4294967295) = l + (h - l + 1) * s / 4294967295 := by
    unfold add64
    rw [M64_eq]
    omega
  have e5 : sub64 (l + (h - l + 1) * s / 4294967295) 1 =
      l + (h - l + 1) * s / 4294967295 - 1 := by
    unfold sub64
    rw [M64_eq]
    omega
  refine ⟨(h - l + 1) * s / 4294967295, hδ1, by omega, ?g1, ?g2, ?g3⟩
  case g1 =>
    rw [e1, e2, e3, topValue_eq, e4]
  case g2 =>
    exact e5
  case g3 =>
    unfold encNarrow
    simp only [topValue_eq, e1, e2, e3, e4, e5]

/-- Rescale branch 1 (`high < half`) keeps the interval invariant. -/
theorem rescale_iter1 {l h : ℕ} (hinv : EncInv l h) (hc : h < half) :
    EncInv (mul64 2 l) (add64 (mul64 2 h) 1) ∧
      mul64 2 l = 2 * l ∧ add64 (mul64 2 h) 1 = 2 * h + 1 := by
  obtain ⟨h1, h2⟩ := hinv
  rw [topValue_eq] at h2
  rw [half_eq] at hc
  have e1 : mul64 2 l = 2 * l := by unfold mul64; rw [M64_eq]; omega
  have e2 : mul64 2 h = 2 * h := by unfold mul64; rw [M64_eq]; omega
  have e3 : add64 (2 * h) 1 = 2 * h + 1 := by unfold add64; rw [M64_eq]; omega
  rw [e1, e2, e3]
  exact ⟨⟨by omega, by rw [topValue_eq]; omega⟩, rfl, rfl⟩

/-- Rescale branch 2 (`low ≥ half`) keeps the interval invariant. -/
theorem rescale_iter2 {l h : ℕ} (hinv : EncInv l h) (hc : half ≤ l) :
    EncInv (mul64 2 (l - half)) (add64 (mul64 2 (h - half)) 1) ∧
      mul64 2 (l - half) = 2 * (l - half) ∧
      add64 (mul64 2 (h - half)) 1 = 2 * (h - half) + 1 := by
  obtain ⟨h1, h2⟩ := hinv
  rw [topValue_eq] at h2
  rw [half_eq] at hc ⊢
  have e1 : mul64 2 (l - 2147483648) = 2 * (l - 2147483648) := by
    unfold mul64; rw [M64_eq]; omega
  have e2 : mul64 2 (h - 2147483648) = 2 * (h - 2147483648) := by
    unfold mul64; rw [M64_eq]; omega
  have e3 : add64 (2 * (h - 2147483648)) 1 = 2 * (h - 2147483648) + 1 := by
    unfold add64; rw [M64_eq]; omega
  rw [e1, e2, e3]
  exact ⟨⟨by omega, by rw [topValue_eq]; omega⟩, rfl, rfl⟩

/-- Rescale branch 3 (`firstQtr ≤ low`, `high < thirdQtr`) keeps the
interval invariant. -/
theorem rescale_iter3 {l h : ℕ} (hinv : EncInv l h) (hc1 : firstQtr ≤ l)
    (hc2 : h < thirdQtr) :
    EncInv (mul64 2 (l - firstQtr)) (add64 (mul64 2 (h - firstQtr)) 1) ∧
      mul64 2 (l - firstQtr) = 2 * (l - firstQtr) ∧
      add64 (mul64 2 (h - firstQtr)) 1 = 2 * (h - firstQtr) + 1 := by
  obtain ⟨h1, h2⟩ := hinv
  rw [topValue_eq] at h2
  rw [firstQtr_eq] at hc1 ⊢
  rw [thirdQtr_eq] at hc2
  have e1 : mul64 2 (l - 1073741824) = 2 * (l - 1073741824) := by
    unfold mul64; rw [M64_eq]; omega
  have e2 : mul64 2 (h - 1073741824) = 2 * (h - 1073741824) := by
    unfold mul64; rw [M64_eq]; omega
  have e3 : add64 (2 * (h - 1073741824)) 1 = 2 * (h - 1073741824) + 1 := by
    unfold add64; rw [M64_eq]; omega
  rw [e1, e2, e3]
  exact ⟨⟨by omega, by rw [topValue_eq]; omega⟩, rfl, rfl⟩

end witten

namespace witten

theorem bitPlusFollow_fst (ae : arithmeticEncoder) (bit : Bool) :
    (bitPlusFollow ae bit).1 = bit :: List.replicate ae.fbits (!bit) := rfl

theorem bitPlusFollow_snd (ae : arithmeticEncoder) (bit : Bool) :
    (bitPlusFollow ae bit).2 = { ae with fbits := 0 } := rfl

/-- One unfolding of the encoder's rescale loop. -/
theorem encRescale_succ (fuel : ℕ) (ae : arithmeticEncoder) :
    encRescale (fuel + 1) ae =
      if ae.high < half then
        match encRescale fuel ⟨mul64 2 ae.low, add64 (mul64 2 ae.high) 1, 0⟩ with
        | none => none
        | some (out, ae2) => some ((false :: List.replicate ae.fbits true) ++ out, ae2)
      else if half ≤ ae.low then
        match encRescale fuel
            ⟨mul64 2 (ae.low - half), add64 (mul64 2 (ae.high - half)) 1, 0⟩ with
        | none => none
        | some (out, ae2) => some ((true :: List.replicate ae.fbits false) ++ out, ae2)
      else if firstQtr ≤ ae.low ∧ ae.high < thirdQtr then
        encRescale fuel
          ⟨mul64 2 (ae.low - firstQtr), add64 (mul64 2 (ae.high - firstQtr)) 1, ae.fbits + 1⟩
      else some ([], ae) := rfl

/-- The encoder's rescale loop terminates (the range doubles each
iteration until no guard holds), keeps the interval invariant at every
iteration, and exits in a loop-boundary state. -/
theorem encRescale_run : ∀ (fuel : ℕ) (ae : arithmeticEncoder), EncInv ae.low ae.high →
    half < 2 ^ fuel * (ae.high - ae.low + 1) →
    ∃ out ae2, encRescale (fuel + 1) ae = some (out, ae2) ∧ StepInv ae2.low ae2.high := by
  intro fuel
  induction fuel with
  | zero =>
    intro ae hinv hbud
    obtain ⟨h1, h2⟩ := hinv
    rw [pow_zero, one_mul, half_eq] at hbud
    rw [topValue_eq] at h2
    rw [encRescale_succ]
    rw [if_neg (show ¬ae.high < half by rw [half_eq]; omega),
      if_neg (show ¬half ≤ ae.low by rw [half_eq]; omega),
      if_neg (show ¬(firstQtr ≤ ae.low ∧ ae.high < thirdQtr) by
        rw [firstQtr_eq, thirdQtr_eq]; omega)]
    refine ⟨[], ae, rfl, h1, by rw [topValue_eq]; omega, ?_, ?_, ?_⟩
    · rw [half_eq]; omega
    · rw [half_eq]; omega
    · rw [firstQtr_eq, thirdQtr_eq]; omega
  | succ n ih =>
    intro ae hinv hbud
    obtain ⟨h1, h2⟩ := hinv
    rw [encRescale_succ]
    by_cases hc1 : ae.high < half
    · rw [if_pos hc1]
      obtain ⟨hi, e1, e2⟩ := rescale_iter1 ⟨h1, h2⟩ hc1
      have hbud' : half < 2 ^ n * (add64 (mul64 2 ae.high) 1 - mul64 2 ae.low + 1) := by
        rw [e1, e2, show 2 * ae.high + 1 - 2 * ae.low + 1 = 2 * (ae.high - ae.low + 1) by
          omega, show 2 ^ n * (2 * (ae.high - ae.low + 1)) =
            2 ^ (n + 1) * (ae.high - ae.low + 1) by ring]
        exact hbud
      obtain ⟨out2, ae2, hrun, hstep⟩ :=
        ih ⟨mul64 2 ae.low, add64 (mul64 2 ae.high) 1, 0⟩ hi hbud'
      refine ⟨(false :: List.replicate ae.fbits true) ++ out2, ae2, ?_, hstep⟩
      rw [hrun]
    · rw [if_neg hc1]
      by_cases hc2 : half ≤ ae.low
      · rw [if_pos hc2]
        obtain ⟨hi, e1, e2⟩ := rescale_iter2 ⟨h1, h2⟩ hc2
        have hbud' : half < 2 ^ n *
            (add64 (mul64 2 (ae.high - half)) 1 - mul64 2 (ae.low - half) + 1) := by
          rw [e1, e2, show 2 * (ae.high - half) + 1 - 2 * (ae.low - half) + 1 =
              2 * (ae.high - ae.low + 1) by rw [half_eq] at hc2 hc1 ⊢; omega,
            show 2 ^ n * (2 * (ae.high - ae.low + 1)) =
              2 ^ (n + 1) * (ae.high - ae.low + 1) by ring]
          exact hbud
        obtain ⟨out2, ae2, hrun, hstep⟩ :=
          ih ⟨mul64 2 (ae.low - half), add64 (mul64 2 (ae.high - half)) 1, 0⟩ hi hbud'
        refine ⟨(true :: List.replicate ae.fbits false) ++ out2, ae2, ?_, hstep⟩
        rw [hrun]
      · rw [if_neg hc2]
        by_cases hc3 : firstQtr ≤ ae.low ∧ ae.high < thirdQtr
        · rw [if_pos hc3]
          obtain ⟨hi, e1, e2⟩ := rescale_iter3 ⟨h1, h2⟩ hc3.1 hc3.2
          have hbud' : half < 2 ^ n *
              (add64 (mul64 2 (ae.high - firstQtr)) 1 - mul64 2 (ae.low - firstQtr) + 1) := by
            rw [e1, e2, show 2 * (ae.high - firstQtr) + 1 - 2 * (ae.low - firstQtr) + 1 =
                2 * (ae.high - ae.low + 1) by
                obtain ⟨hc31, hc32⟩ := hc3; rw [firstQtr_eq] at hc31 ⊢; omega,
              show 2 ^ n * (2 * (ae.high - ae.low + 1)) =
                2 ^ (n + 1) * (ae.high - ae.low + 1) by ring]
            exact hbud
          exact ih ⟨mul64 2 (ae.low - firstQtr), add64 (mul64 2 (ae.high - firstQtr)) 1,
            ae.fbits + 1⟩ hi hbud'
        · rw [if_neg hc3]
          refine ⟨[], ae, rfl, h1, h2, by omega, by omega, by omega⟩

end witten

namespace witten

/-- One unfolding of the decoder's rescale loop. -/
theorem decRescale_succ (fuel : ℕ) (ad : arithmeticDecoder) (src : List Bool) (g : ℕ) :
    decRescale (fuel + 1) ad src g =
      if ad.high < half then
        match decScaleRead ad src g with
        | .error e => some (.error e)
        | .ok (ad2, src2, g2) => decRescale fuel ad2 src2 g2
      else if half ≤ ad.low then
        match decScaleRead ⟨ad.low - half, ad.high - half, sub64 ad.value half⟩ src g with
        | .error e => some (.error e)
        | .ok (ad2, src2, g2) => decRescale fuel ad2 src2 g2
      else if firstQtr ≤ ad.low ∧ ad.high < thirdQtr then
        match decScaleRead
            ⟨ad.low - firstQtr, ad.high - firstQtr, sub64 ad.value firstQtr⟩ src g with
        | .error e => some (.error e)
        | .ok (ad2, src2, g2) => decRescale fuel ad2 src2 g2
      else some (.ok (ad, src, g)) := rfl

/-- The decoder's rescale loop always returns within the fuel from an
interval-invariant state, and when it exits without a read error it does
so in a loop-boundary state. -/
theorem decRescale_run : ∀ (fuel : ℕ) (ad : arithmeticDecoder) (src : List Bool) (g : ℕ),
    EncInv ad.low ad.high → half < 2 ^ fuel * (ad.high - ad.low + 1) →
    ∃ r, decRescale (fuel + 1) ad src g = some r ∧
      ∀ ad2 src2 g2, r = .ok (ad2, src2, g2) → StepInv ad2.low ad2.high := by
  intro fuel
  induction fuel with
  | zero =>
    intro ad src g hinv hbud
    obtain ⟨h1, h2⟩ := hinv
    rw [pow_zero, one_mul, half_eq] at hbud
    rw [topValue_eq] at h2
    rw [decRescale_succ]
    rw [if_neg (show ¬ad.high < half by rw [half_eq]; omega),
      if_neg (show ¬half ≤ ad.low by rw [half_eq]; omega),
      if_neg (show ¬(firstQtr ≤ ad.low ∧ ad.high < thirdQtr) by
        rw [firstQtr_eq, thirdQtr_eq]; omega)]
    refine ⟨.ok (ad, src, g), rfl, ?_⟩
    intro ad2 src2 g2 he
    injection he with he2
    injection he2 with ha hb
    subst ha
    refine ⟨h1, by rw [topValue_eq]; omega, ?_, ?_, ?_⟩
    · rw [half_eq]; omega
    · rw [half_eq]; omega
    · rw [firstQtr_eq, thirdQtr_eq]; omega
  | succ n ih =>
    intro ad src g hinv hbud
    obtain ⟨h1, h2⟩ := hinv
    rw [decRescale_succ]
    by_cases hc1 : ad.high < half
    · rw [if_pos hc1]
      obtain ⟨hi, e1, e2⟩ := rescale_iter1 ⟨h1, h2⟩ hc1
      rcases hr : readDecBit src g with e | ⟨inb, src2, g2⟩
      · have hds : decScaleRead ad src g = .error e := by unfold decScaleRead; rw [hr]
        rw [hds]
        exact ⟨.error e, rfl, fun ad2 src2 g2 he => by cases he⟩
      · have hds : decScaleRead ad src g = .ok
            (⟨mul64 2 ad.low, add64 (mul64 2 ad.high) 1, add64 (mul64 2 ad.value) inb⟩,
              src2, g2) := by unfold decScaleRead; rw [hr]
        rw [hds]
        refine ih ⟨mul64 2 ad.low, add64 (mul64 2 ad.high) 1, add64 (mul64 2 ad.value) inb⟩
          src2 g2 hi ?_
        show half < 2 ^ n * (add64 (mul64 2 ad.high) 1 - mul64 2 ad.low + 1)
        rw [e1, e2, show 2 * ad.high + 1 - 2 * ad.low + 1 = 2 * (ad.high - ad.low + 1) by
          omega, show 2 ^ n * (2 * (ad.high - ad.low + 1)) =
            2 ^ (n + 1) * (ad.high - ad.low + 1) by ring]
        exact hbud
    · rw [if_neg hc1]
      by_cases hc2 : half ≤ ad.low
      · rw [if_pos hc2]
        obtain ⟨hi, e1, e2⟩ := rescale_iter2 ⟨h1, h2⟩ hc2
        rcases hr : readDecBit src g with e | ⟨inb, src2, g2⟩
        · have hds : decScaleRead ⟨ad.low - half, ad.high - half, sub64 ad.value half⟩ src g =
              .error e := by unfold decScaleRead; rw [hr]
          rw [hds]
          exact ⟨.error e, rfl, fun ad2 src2 g2 he => by cases he⟩
        · have hds : decScaleRead ⟨ad.low - half, ad.high - half, sub64 ad.value half⟩ src g =
              .ok (⟨mul64 2 (ad.low - half), add64 (mul64 2 (ad.high - half)) 1,
                add64 (mul64 2 (sub64 ad.value half)) inb⟩, src2, g2) := by
            unfold decScaleRead; rw [hr]
          rw [hds]
          refine ih ⟨mul64 2 (ad.low - half), add64 (mul64 2 (ad.high - half)) 1,
            add64 (mul64 2 (sub64 ad.value half)) inb⟩ src2 g2 hi ?_
          show half < 2 ^ n * (add64 (mul64 2 (ad.high - half)) 1 - mul64 2 (ad.low - half) + 1)
          rw [e1, e2, show 2 * (ad.high - half) + 1 - 2 * (ad.low - half) + 1 =
              2 * (ad.high - ad.low + 1) by rw [half_eq] at hc2 hc1 ⊢; omega,
            show 2 ^ n * (2 * (ad.high - ad.low + 1)) =
              2 ^ (n + 1) * (ad.high - ad.low + 1) by ring]
          exact hbud
      · rw [if_neg hc2]
        by_cases hc3 : firstQtr ≤ ad.low ∧ ad.high < thirdQtr
        · rw [if_pos hc3]
          obtain ⟨hi, e1, e2⟩ := rescale_iter3 ⟨h1, h2⟩ hc3.1 hc3.2
          rcases hr : readDecBit src g with e | ⟨inb, src2, g2⟩
          · have hds : decScaleRead
                ⟨ad.low - firstQtr, ad.high - firstQtr, sub64 ad.value firstQtr⟩ src g =
                .error e := by unfold decScaleRead; rw [hr]
            rw [hds]
            exact ⟨.error e, rfl, fun ad2 src2 g2 he => by cases he⟩
          · have hds : decScaleRead
                ⟨ad.low - firstQtr, ad.high - firstQtr, sub64 ad.value firstQtr⟩ src g =
                .ok (⟨mul64 2 (ad.low - firstQtr), add64 (mul64 2 (ad.high - firstQtr)) 1,
                  add64 (mul64 2 (sub64 ad.value firstQtr)) inb⟩, src2, g2) := by
              unfold decScaleRead; rw [hr]
            rw [hds]
            refine ih ⟨mul64 2 (ad.low - firstQtr), add64 (mul64 2 (ad.high - firstQtr)) 1,
              add64 (mul64 2 (sub64 ad.value firstQtr)) inb⟩ src2 g2 hi ?_
            show half <
              2 ^ n * (add64 (mul64 2 (ad.high - firstQtr)) 1 - mul64 2 (ad.low - firstQtr) + 1)
            rw [e1, e2, show 2 * (ad.high - firstQtr) + 1 - 2 * (ad.low - firstQtr) + 1 =
                2 * (ad.high - ad.low + 1) by
                obtain ⟨hc31, hc32⟩ := hc3; rw [firstQtr_eq] at hc31 ⊢; omega,
              show 2 ^ n * (2 * (ad.high - ad.low + 1)) =
                2 ^ (n + 1) * (ad.high - ad.low + 1) by ring]
            exact hbud
        · rw [if_neg hc3]
          refine ⟨.ok (ad, src, g), rfl, ?_⟩
          intro ad2 src2 g2 he
          injection he with he2
          injection he2 with ha hb
          subst ha
          exact ⟨h1, h2, by omega, by omega, by omega⟩

end witten

namespace witten

/-- C6, amended: the interval invariant `low ≤ high ≤ topValue` holds
after every narrowing and after every rescale iteration of both coders
provided every scaled probability `uint64(prob0*topValueDbl)` lies in
`[4, topValue-1]` (the original claim, quantifying over all models with
`Prob0` in `(0,1)`, is refuted by `C6_coder_invariant_counterexample`).
The three middle conjuncts are the three rescale branches shared by the
encoder and the decoder; the last two run the full loops. -/
theorem C6_coder_invariant_amended (s : ℕ) (hs4 : 4 ≤ s) (hsT : s + 1 ≤ topValue) :
    (∀ (ae : arithmeticEncoder) (bit : Bool), StepInv ae.low ae.high →
       EncInv (encNarrow ae s bit).low (encNarrow ae s bit).high) ∧
    (∀ l h, EncInv l h → h < half → EncInv (mul64 2 l) (add64 (mul64 2 h) 1)) ∧
    (∀ l h, EncInv l h → half ≤ l →
       EncInv (mul64 2 (l - half)) (add64 (mul64 2 (h - half)) 1)) ∧
    (∀ l h, EncInv l h → firstQtr ≤ l → h < thirdQtr →
       EncInv (mul64 2 (l - firstQtr)) (add64 (mul64 2 (h - firstQtr)) 1)) ∧
    (∀ ae : arithmeticEncoder, EncInv ae.low ae.high →
       ∃ out ae2, encRescale encFuel ae = some (out, ae2) ∧ StepInv ae2.low ae2.high) ∧
    (∀ (ad : arithmeticDecoder) (src : List Bool) (g : ℕ), EncInv ad.low ad.high →
       ∃ r, decRescale encFuel ad src g = some r ∧
         ∀ ad2 src2 g2, r = .ok (ad2, src2, g2) → StepInv ad2.low ad2.high) := by
  refine ⟨?_, ?_, ?_, ?_, ?_, ?_⟩
  · intro ae bit hstep
    obtain ⟨δ, hδ1, hδ2, _, _, heq⟩ := encNarrow_spec ae s bit hstep hs4 hsT
    obtain ⟨k1, k2, _⟩ := hstep
    rw [heq]
    cases bit <;>
      simp only [eq_self_iff_true, if_true, Bool.true_eq_false, if_false,
        Bool.false_eq_true] <;>
      exact ⟨by omega, by omega⟩
  · intro l h hinv hc
    exact (rescale_iter1 hinv hc).1
  · intro l h hinv hc
    exact (rescale_iter2 hinv hc).1
  · intro l h hinv hc1 hc2
    exact (rescale_iter3 hinv hc1 hc2).1
  · intro ae hinv
    refine encRescale_run 33 ae hinv ?_
    calc half < 2 ^ 33 := by rw [half_eq]; norm_num
      _ ≤ 2 ^ 33 * (ae.high - ae.low + 1) := Nat.le_mul_of_pos_right _ (by omega)
  · intro ad src g hinv
    refine decRescale_run 33 ad src g hinv ?_
    calc half < 2 ^ 33 := by rw [half_eq]; norm_num
      _ ≤ 2 ^ 33 * (ad.high - ad.low + 1) := Nat.le_mul_of_pos_right _ (by omega)

/-- Witness for the amended C6 at a concrete scaled probability and
state. -/
theorem C6_coder_invariant_amended_witness :
    EncInv (encNarrow newAE 4 false).low (encNarrow newAE 4 false).high :=
  (C6_coder_invariant_amended 4 (by decide) (by decide)).1 newAE false StepInv_init

end witten

namespace witten

/-! Ghost semantics for the round-trip proof.  A finite coded stream `F`,
implicitly padded by the decoder with 1 bits, denotes the scaled point
`nuQ F ∈ (0, 2^32]`; the pending follow bits of the encoder are accounted
for by iterating the affine map `phi` that strips one follow bit. -/

/-- The scaled value of a coded stream followed by an infinite tail of 1
bits: `nuQ [] = 2^32` and a leading bit contributes `2^31` and halves the
rest. -/
def nuQ : List Bool → ℚ
  | [] => 2 ^ 32
  | b :: rest => (if b then (2 : ℚ) ^ 31 else 0) + nuQ rest / 2

theorem nuQ_nil : nuQ [] = 2 ^ 32 := rfl

theorem nuQ_cons (b : Bool) (L : List Bool) :
    nuQ (b :: L) = (if b then (2 : ℚ) ^ 31 else 0) + nuQ L / 2 := rfl

theorem nuQ_pos : ∀ L : List Bool, 0 < nuQ L := by
  intro L
  induction L with
  | nil => norm_num [nuQ_nil]
  | cons b rest ih =>
    rw [nuQ_cons]
    cases b <;> simp only [if_true, if_false, Bool.false_eq_true] <;> positivity

theorem nuQ_le : ∀ L : List Bool, nuQ L ≤ 2 ^ 32 := by
  intro L
  induction L with
  | nil => norm_num [nuQ_nil]
  | cons b rest ih =>
    rw [nuQ_cons]
    cases b <;> simp only [if_true, if_false, Bool.false_eq_true] <;> linarith

/-- Stripping one follow bit: a bit followed by its negation denotes the
midpoint-contraction of the stream without the follow bit. -/
theorem nuQ_strip (b : Bool) (L : List Bool) :
    nuQ (b :: (!b) :: L) = 2 ^ 30 + nuQ (b :: L) / 2 := by
  rw [nuQ_cons, nuQ_cons, nuQ_cons]
  cases b <;> simp only [Bool.not_true, Bool.not_false, if_true, if_false,
    Bool.false_eq_true] <;> ring

/-- The affine map undoing one pending follow bit. -/
def phi (t : ℚ) : ℚ := 2 * (t - 2 ^ 30)

/-- The point denoted by the future output of an encoder state with `fb`
pending follow bits whose future stream is `F`. -/
def yVal (fb : ℕ) (F : List Bool) : ℚ := phi^[fb] (nuQ F)

theorem yVal_zero (F : List Bool) : yVal 0 F = nuQ F := rfl

/-- The denotation of an emitted bit with its follow bits: the follow
bits cancel against the pending count. -/
theorem yVal_emit : ∀ (fb : ℕ) (b : Bool) (L : List Bool),
    yVal fb (b :: List.replicate fb (!b) ++ L) = nuQ (b :: L) := by
  intro fb
  induction fb with
  | zero =>
    intro b L
    rw [yVal_zero]
    rfl
  | succ n ih =>
    intro b L
    show phi^[n + 1] (nuQ (b :: List.replicate (n + 1) (!b) ++ L)) = nuQ (b :: L)
    rw [Function.iterate_succ_apply]
    have hrepl : (b :: List.replicate (n + 1) (!b) ++ L) = b :: (!b) :: (List.replicate n (!b) ++ L) := by
      simp [List.replicate_succ]
    rw [hrepl]
    have hphi : phi (nuQ (b :: (!b) :: (List.replicate n (!b) ++ L))) =
        nuQ (b :: (List.replicate n (!b) ++ L)) := by
      rw [nuQ_strip, phi]
      ring
    rw [hphi]
    exact ih b L

/-- Deferring a follow bit (rescale branch 3) in the denotation. -/
theorem yVal_defer (fb : ℕ) (F : List Bool) :
    yVal fb F = 2 ^ 30 + yVal (fb + 1) F / 2 := by
  show phi^[fb] (nuQ F) = 2 ^ 30 + phi^[fb + 1] (nuQ F) / 2
  rw [Function.iterate_succ_apply', phi]
  ring

end witten

namespace witten

theorem enc_mk_low (l h fb : ℕ) : (⟨l, h, fb⟩ : arithmeticEncoder).low = l := rfl

theorem enc_mk_high (l h fb : ℕ) : (⟨l, h, fb⟩ : arithmeticEncoder).high = h := rfl

theorem enc_mk_fbits (l h fb : ℕ) : (⟨l, h, fb⟩ : arithmeticEncoder).fbits = fb := rfl

theorem dec_mk_low (l h v : ℕ) : (⟨l, h, v⟩ : arithmeticDecoder).low = l := rfl

theorem dec_mk_high (l h v : ℕ) : (⟨l, h, v⟩ : arithmeticDecoder).high = h := rfl

theorem dec_mk_value (l h v : ℕ) : (⟨l, h, v⟩ : arithmeticDecoder).value = v := rfl

/-- A single decoder read, uniformly over a live and a starved channel:
the bit read (a real one, or the substituted 1), the garbage accounting,
and the stream denotation equation, which holds for the pad bit exactly
because `nuQ [] = 2^32` accounts for the infinite 1 tail. -/
theorem readDecBit_spec (U : List Bool) (g : ℕ) (hg : g + 1 ≤ 30 + U.length) :
    ∃ (inb : ℕ) (U2 : List Bool) (g2 : ℕ),
      readDecBit U g = .ok (inb, U2, g2) ∧ inb ≤ 1 ∧
      U2 = U.drop 1 ∧ g2 = g + (1 - U.length) ∧
      nuQ U = (inb : ℚ) * 2 ^ 31 + nuQ U2 / 2 := by
  cases U with
  | nil =>
    refine ⟨1, [], g + 1, ?_, le_refl 1, rfl, by simp, by rw [nuQ_nil]; norm_num⟩
    show (if codeValueBits - 2 < g + 1 then Except.error DecErr.insufficientBits
      else Except.ok (1, [], g + 1)) = Except.ok (1, [], g + 1)
    rw [if_neg (by
      simp only [List.length_nil] at hg
      rw [show codeValueBits - 2 = 30 from rfl]
      omega)]
  | cons u U2 =>
    refine ⟨if u then 1 else 0, U2, g, rfl, by cases u <;> simp, rfl, by simp, ?_⟩
    rw [nuQ_cons]
    cases u <;> norm_num

end witten

namespace witten

/-- One unfolding of the encoder's rescale loop on an explicit state. -/
theorem encRescale_succ_mk (fuel l h fb : ℕ) :
    encRescale (fuel + 1) ⟨l, h, fb⟩ =
      if h < half then
        match encRescale fuel ⟨mul64 2 l, add64 (mul64 2 h) 1, 0⟩ with
        | none => none
        | some (out, ae2) => some ((false :: List.replicate fb true) ++ out, ae2)
      else if half ≤ l then
        match encRescale fuel ⟨mul64 2 (l - half), add64 (mul64 2 (h - half)) 1, 0⟩ with
        | none => none
        | some (out, ae2) => some ((true :: List.replicate fb false) ++ out, ae2)
      else if firstQtr ≤ l ∧ h < thirdQtr then
        encRescale fuel ⟨mul64 2 (l - firstQtr), add64 (mul64 2 (h - firstQtr)) 1, fb + 1⟩
      else some ([], ⟨l, h, fb⟩) := rfl

/-- One unfolding of the decoder's rescale loop on an explicit state. -/
theorem decRescale_succ_mk (fuel l h v : ℕ) (src : List Bool) (g : ℕ) :
    decRescale (fuel + 1) ⟨l, h, v⟩ src g =
      if h < half then
        match decScaleRead ⟨l, h, v⟩ src g with
        | .error e => some (.error e)
        | .ok (ad2, src2, g2) => decRescale fuel ad2 src2 g2
      else if half ≤ l then
        match decScaleRead ⟨l - half, h - half, sub64 v half⟩ src g with
        | .error e => some (.error e)
        | .ok (ad2, src2, g2) => decRescale fuel ad2 src2 g2
      else if firstQtr ≤ l ∧ h < thirdQtr then
        match decScaleRead ⟨l - firstQtr, h - firstQtr, sub64 v firstQtr⟩ src g with
        | .error e => some (.error e)
        | .ok (ad2, src2, g2) => decRescale fuel ad2 src2 g2
      else some (.ok (⟨l, h, v⟩, src, g)) := rfl

/-- The synchronized characterization of one rescale run: the encoder's
loop terminates in a boundary state, its emissions (with the pending
follow bits) relate the stream denotations of entry and exit states by a
pure scaling of the interval coordinates, and the decoder's loop from the
same interval follows the same branches, consuming one stream bit per
iteration (substituting 1 bits when starved, within the garbage budget)
while its value tracks the same scaling. -/
theorem encRescale_sync : ∀ (fuel l h fb : ℕ), EncInv l h →
    half < 2 ^ fuel * (h - l + 1) →
    ∃ out l2 h2 fb2 k, encRescale (fuel + 1) ⟨l, h, fb⟩ = some (out, ⟨l2, h2, fb2⟩) ∧
      StepInv l2 h2 ∧ fb2 ≤ k + fb ∧ out.length + fb2 = k + fb ∧
      (∀ G : List Bool,
        yVal fb2 G - l2 = 2 ^ k * (yVal fb (out ++ G) - l) ∧
        ((h2 : ℚ) + 1) - yVal fb2 G = 2 ^ k * (((h : ℚ) + 1) - yVal fb (out ++ G))) ∧
      (∀ (v : ℕ) (U : List Bool) (g : ℕ), l ≤ v → v ≤ h → g + k ≤ 30 + U.length →
        ∃ v2 U2 g2,
          decRescale (fuel + 1) ⟨l, h, v⟩ U g = some (.ok (⟨l2, h2, v2⟩, U2, g2)) ∧
          l2 ≤ v2 ∧ v2 ≤ h2 ∧ U2 = U.drop k ∧ g2 = g + (k - U.length) ∧
          ((v2 : ℚ) + nuQ U2 / 2 ^ 32) - l2 =
            2 ^ k * (((v : ℚ) + nuQ U / 2 ^ 32) - l)) := by
  intro fuel
  induction fuel with
  | zero =>
    intro l h fb hinv hbud
    obtain ⟨h1, h2⟩ := hinv
    rw [pow_zero, one_mul, half_eq] at hbud
    rw [topValue_eq] at h2
    refine ⟨[], l, h, fb, 0, ?_, ?_, by omega, rfl, ?_, ?_⟩
    · rw [encRescale_succ_mk]
      rw [if_neg (show ¬h < half by rw [half_eq]; omega),
        if_neg (show ¬half ≤ l by rw [half_eq]; omega),
        if_neg (show ¬(firstQtr ≤ l ∧ h < thirdQtr) by rw [firstQtr_eq, thirdQtr_eq]; omega)]
    · refine ⟨h1, by rw [topValue_eq]; omega, ?_, ?_, ?_⟩
      · rw [half_eq]; omega
      · rw [half_eq]; omega
      · rw [firstQtr_eq, thirdQtr_eq]; omega
    · intro G
      constructor
      · rw [pow_zero, one_mul, List.nil_append]
      · rw [pow_zero, one_mul, List.nil_append]
    · intro v U g hv1 hv2 hbudget
      refine ⟨v, U, g, ?_, hv1, hv2, (List.drop_zero U).symm, by omega,
        by rw [pow_zero, one_mul]⟩
      rw [decRescale_succ_mk]
      rw [if_neg (show ¬h < half by rw [half_eq]; omega),
        if_neg (show ¬half ≤ l by rw [half_eq]; omega),
        if_neg (show ¬(firstQtr ≤ l ∧ h < thirdQtr) by rw [firstQtr_eq, thirdQtr_eq]; omega)]
  | succ n ih =>
    intro l h fb hinv hbud
    obtain ⟨h1, h2⟩ := hinv
    by_cases hc1 : h < half
    · obtain ⟨hi, e1, e2⟩ := rescale_iter1 ⟨h1, h2⟩ hc1
      rw [e1, e2] at hi
      have hbud' : half < 2 ^ n * (2 * h + 1 - 2 * l + 1) := by
        rw [show 2 * h + 1 - 2 * l + 1 = 2 * (h - l + 1) by omega,
          show 2 ^ n * (2 * (h - l + 1)) = 2 ^ (n + 1) * (h - l + 1) by ring]
        exact hbud
      obtain ⟨out2, l2, h2', fb2, k, hrun, hstep, hfb, hlen, hy, hdec⟩ :=
        ih (2 * l) (2 * h + 1) 0 hi hbud'
      refine ⟨(false :: List.replicate fb true) ++ out2, l2, h2', fb2, k + 1, ?_, hstep,
        by omega, ?_, ?_, ?_⟩
      · rw [encRescale_succ_mk]
        rw [if_pos hc1, e1, e2, hrun]
      · simp only [List.length_append, List.length_cons, List.length_replicate]
        omega
      · intro G
        obtain ⟨hyl, hyh⟩ := hy G
        have hemit : yVal fb ((false :: List.replicate fb true) ++ (out2 ++ G)) =
            nuQ (false :: (out2 ++ G)) := by
          have h0 := yVal_emit fb false (out2 ++ G)
          simpa using h0
        constructor
        · rw [List.append_assoc, hemit, nuQ_cons, if_neg Bool.false_ne_true, hyl, yVal_zero]
          push_cast
          ring
        · rw [List.append_assoc, hemit, nuQ_cons, if_neg Bool.false_ne_true, hyh, yVal_zero]
          push_cast
          ring
      · intro v U g hv1 hv2 hbudget
        obtain ⟨inb, Ur, gr, hread, hinb, hUr, hgr, hnu⟩ := readDecBit_spec U g (by omega)
        have hUrlen : Ur.length = U.length - 1 := by rw [hUr, List.length_drop]
        have hv64 : v ≤ 4294967295 := by rw [topValue_eq] at h2; omega
        have ev : mul64 2 v = 2 * v := by unfold mul64; rw [M64_eq]; omega
        have eva : add64 (2 * v) inb = 2 * v + inb := by unfold add64; rw [M64_eq]; omega
        have hds : decScaleRead ⟨l, h, v⟩ U g =
            .ok (⟨2 * l, 2 * h + 1, 2 * v + inb⟩, Ur, gr) := by
          unfold decScaleRead
          rw [hread]
          simp only [dec_mk_low, dec_mk_high, dec_mk_value]
          rw [e1, e2, ev, eva]
        obtain ⟨v2, U2, g2, hdrun, hv21, hv22, hU2, hg2, htr⟩ :=
          hdec (2 * v + inb) Ur gr (by omega) (by omega) (by omega)
        refine ⟨v2, U2, g2, ?_, hv21, hv22, ?_, by omega, ?_⟩
        · rw [decRescale_succ_mk]
          rw [if_pos hc1, hds]
          exact hdrun
        · rw [hU2, hUr, List.drop_drop, Nat.add_comm]
        · rw [htr, hnu]
          push_cast
          ring
    · by_cases hc2 : half ≤ l
      · obtain ⟨hi, e1, e2⟩ := rescale_iter2 ⟨h1, h2⟩ hc2
        rw [e1, e2] at hi
        have hc1' : half ≤ h := le_of_not_lt hc1
        have hbud' : half < 2 ^ n * (2 * (h - half) + 1 - 2 * (l - half) + 1) := by
          rw [show 2 * (h - half) + 1 - 2 * (l - half) + 1 = 2 * (h - l + 1) by
            rw [half_eq] at hc2 hc1' ⊢; omega,
            show 2 ^ n * (2 * (h - l + 1)) = 2 ^ (n + 1) * (h - l + 1) by ring]
          exact hbud
        obtain ⟨out2, l2, h2', fb2, k, hrun, hstep, hfb, hlen, hy, hdec⟩ :=
          ih (2 * (l - half)) (2 * (h - half) + 1) 0 hi hbud'
        have hlc : ((2 * (l - half) : ℕ) : ℚ) = 2 * (l : ℚ) - 2 ^ 32 := by
          rw [Nat.cast_mul, Nat.cast_sub hc2, half_eq]
          push_cast
          ring
        have hhc : ((2 * (h - half) + 1 : ℕ) : ℚ) = 2 * (h : ℚ) - 2 ^ 32 + 1 := by
          rw [Nat.cast_add, Nat.cast_mul, Nat.cast_sub hc1', half_eq]
          push_cast
          ring
        refine ⟨(true :: List.replicate fb false) ++ out2, l2, h2', fb2, k + 1, ?_, hstep,
          by omega, ?_, ?_, ?_⟩
        · rw [encRescale_succ_mk]
          rw [if_neg hc1, if_pos hc2, e1, e2, hrun]
        · simp only [List.length_append, List.length_cons, List.length_replicate]
          omega
        · intro G
          obtain ⟨hyl, hyh⟩ := hy G
          have hemit : yVal fb ((true :: List.replicate fb false) ++ (out2 ++ G)) =
              nuQ (true :: (out2 ++ G)) := by
            have h0 := yVal_emit fb true (out2 ++ G)
            simpa using h0
          constructor
          · rw [List.append_assoc, hemit, nuQ_cons, if_pos rfl, hyl, yVal_zero, hlc]
            push_cast
            ring
          · rw [List.append_assoc, hemit, nuQ_cons, if_pos rfl, hyh, yVal_zero, hhc]
            push_cast
            ring
        · intro v U g hv1 hv2 hbudget
          obtain ⟨inb, Ur, gr, hread, hinb, hUr, hgr, hnu⟩ := readDecBit_spec U g (by omega)
          have hUrlen : Ur.length = U.length - 1 := by rw [hUr, List.length_drop]
          have hv64 : v ≤ 4294967295 := by rw [topValue_eq] at h2; omega
          have hvh : half ≤ v := le_trans hc2 hv1
          have esv : sub64 v half = v - half := by
            unfold sub64
            rw [M64_eq, half_eq]
            rw [half_eq] at hvh
            omega
          have ev : mul64 2 (v - half) = 2 * (v - half) := by
            unfold mul64
            rw [M64_eq]
            omega
          have eva : add64 (2 * (v - half)) inb = 2 * (v - half) + inb := by
            unfold add64
            rw [M64_eq]
            omega
          have hvc : ((2 * (v - half) + inb : ℕ) : ℚ) = 2 * (v : ℚ) - 2 ^ 32 + (inb : ℚ) := by
            rw [Nat.cast_add, Nat.cast_mul, Nat.cast_sub hvh, half_eq]
            push_cast
            ring
          have hds : decScaleRead ⟨l - half, h - half, sub64 v half⟩ U g =
              .ok (⟨2 * (l - half), 2 * (h - half) + 1, 2 * (v - half) + inb⟩, Ur, gr) := by
            unfold decScaleRead
            rw [hread]
            simp only [dec_mk_low, dec_mk_high, dec_mk_value]
            rw [esv, e1, e2, ev, eva]
          obtain ⟨v2, U2, g2, hdrun, hv21, hv22, hU2, hg2, htr⟩ :=
            hdec (2 * (v - half) + inb) Ur gr (by omega) (by omega) (by omega)
          refine ⟨v2, U2, g2, ?_, hv21, hv22, ?_, by omega, ?_⟩
          · rw [decRescale_succ_mk]
            rw [if_neg hc1, if_pos hc2, hds]
            exact hdrun
          · rw [hU2, hUr, List.drop_drop, Nat.add_comm]
          · rw [htr, hnu, hvc, hlc]
            push_cast
            ring
      · by_cases hc3 : firstQtr ≤ l ∧ h < thirdQtr
        · obtain ⟨hi, e1, e2⟩ := rescale_iter3 ⟨h1, h2⟩ hc3.1 hc3.2
          rw [e1, e2] at hi
          have hq1h : firstQtr ≤ h := le_trans hc3.1 h1
          have hbud' : half < 2 ^ n * (2 * (h - firstQtr) + 1 - 2 * (l - firstQtr) + 1) := by
            rw [show 2 * (h - firstQtr) + 1 - 2 * (l - firstQtr) + 1 = 2 * (h - l + 1) by
              have hc31 := hc3.1
              rw [firstQtr_eq] at hc31 hq1h; omega,
              show 2 ^ n * (2 * (h - l + 1)) = 2 ^ (n + 1) * (h - l + 1) by ring]
            exact hbud
          obtain ⟨out2, l2, h2', fb2, k, hrun, hstep, hfb, hlen, hy, hdec⟩ :=
            ih (2 * (l - firstQtr)) (2 * (h - firstQtr) + 1) (fb + 1) hi hbud'
          have hlc : ((2 * (l - firstQtr) : ℕ) : ℚ) = 2 * (l : ℚ) - 2 ^ 31 := by
            rw [Nat.cast_mul, Nat.cast_sub hc3.1, firstQtr_eq]
            push_cast
            ring
          have hhc : ((2 * (h - firstQtr) + 1 : ℕ) : ℚ) = 2 * (h : ℚ) - 2 ^ 31 + 1 := by
            rw [Nat.cast_add, Nat.cast_mul, Nat.cast_sub hq1h, firstQtr_eq]
            push_cast
            ring
          refine ⟨out2, l2, h2', fb2, k + 1, ?_, hstep, by omega, by omega, ?_, ?_⟩
          · rw [encRescale_succ_mk]
            rw [if_neg hc1, if_neg hc2, if_pos hc3, e1, e2]
            exact hrun
          · intro G
            obtain ⟨hyl, hyh⟩ := hy G
            have hdef := yVal_defer fb (out2 ++ G)
            constructor
            · rw [hyl, hlc, hdef]
              ring
            · rw [hyh, hhc, hdef]
              ring
          · intro v U g hv1 hv2 hbudget
            obtain ⟨inb, Ur, gr, hread, hinb, hUr, hgr, hnu⟩ := readDecBit_spec U g (by omega)
            have hUrlen : Ur.length = U.length - 1 := by rw [hUr, List.length_drop]
            have hv64 : v ≤ 4294967295 := by rw [topValue_eq] at h2; omega
            have hvq : firstQtr ≤ v := le_trans hc3.1 hv1
            have esv : sub64 v firstQtr = v - firstQtr := by
              unfold sub64
              rw [M64_eq, firstQtr_eq]
              rw [firstQtr_eq] at hvq
              omega
            have ev : mul64 2 (v - firstQtr) = 2 * (v - firstQtr) := by
              unfold mul64
              rw [M64_eq]
              omega
            have eva : add64 (2 * (v - firstQtr)) inb = 2 * (v - firstQtr) + inb := by
              unfold add64
              rw [M64_eq]
              omega
            have hvc : ((2 * (v - firstQtr) + inb : ℕ) : ℚ) =
                2 * (v : ℚ) - 2 ^ 31 + (inb : ℚ) := by
              rw [Nat.cast_add, Nat.cast_mul, Nat.cast_sub hvq, firstQtr_eq]
              push_cast
              ring
            have hds : decScaleRead ⟨l - firstQtr, h - firstQtr, sub64 v firstQtr⟩ U g =
                .ok (⟨2 * (l - firstQtr), 2 * (h - firstQtr) + 1,
                  2 * (v - firstQtr) + inb⟩, Ur, gr) := by
              unfold decScaleRead
              rw [hread]
              simp only [dec_mk_low, dec_mk_high, dec_mk_value]
              rw [esv, e1, e2, ev, eva]
            obtain ⟨v2, U2, g2, hdrun, hv21, hv22, hU2, hg2, htr⟩ :=
              hdec (2 * (v - firstQtr) + inb) Ur gr (by omega) (by omega) (by omega)
            refine ⟨v2, U2, g2, ?_, hv21, hv22, ?_, by omega, ?_⟩
            · rw [decRescale_succ_mk]
              rw [if_neg hc1, if_neg hc2, if_pos hc3, hds]
              exact hdrun
            · rw [hU2, hUr, List.drop_drop, Nat.add_comm]
            · rw [htr, hnu, hvc, hlc]
              push_cast
              ring
        · rw [topValue_eq] at h2
          refine ⟨[], l, h, fb, 0, ?_, ?_, by omega, rfl, ?_, ?_⟩
          · rw [encRescale_succ_mk]
            rw [if_neg hc1, if_neg hc2, if_neg hc3]
          · refine ⟨h1, by rw [topValue_eq]; omega, le_of_not_lt hc1, lt_of_not_le hc2, ?_⟩
            omega
          · intro G
            constructor
            · rw [pow_zero, one_mul, List.nil_append]
            · rw [pow_zero, one_mul, List.nil_append]
          · intro v U g hv1 hv2 hbudget
            refine ⟨v, U, g, ?_, hv1, hv2, (List.drop_zero U).symm, by omega,
              by rw [pow_zero, one_mul]⟩
            rw [decRescale_succ_mk]
            rw [if_neg hc1, if_neg hc2, if_neg hc3]

end witten

namespace witten

/-- `Encode`'s whole remaining output from a state: the loop over the
remaining input followed by the final emission. -/
def encodeAll (sM : List Bool → ℕ) (hist xs : List Bool) (ae : arithmeticEncoder) :
    Option (List Bool) :=
  match encodeFrom sM hist xs ae with
  | none => none
  | some (out, ae2) => some (out ++ encFinish ae2)

theorem EncodeS_eq_encodeAll (sM : List Bool → ℕ) (xs : List Bool) :
    EncodeS sM xs = encodeAll sM [] xs newAE := rfl

theorem encodeAll_nil (sM : List Bool → ℕ) (hist : List Bool) (ae : arithmeticEncoder) :
    encodeAll sM hist [] ae = some (encFinish ae) := rfl

theorem encodeAll_cons (sM : List Bool → ℕ) (hist : List Bool) (x : Bool) (rest : List Bool)
    (ae ae2 : arithmeticEncoder) (out : List Bool)
    (hres : encRescale encFuel (encNarrow ae (sM hist) x) = some (out, ae2)) :
    encodeAll sM hist (x :: rest) ae =
      match encodeAll sM (hist ++ [x]) rest ae2 with
      | none => none
      | some F2 => some (out ++ F2) := by
  show (match (match encRescale encFuel (encNarrow ae (sM hist) x) with
      | none => none
      | some (out, ae2) =>
        match encodeFrom sM (hist ++ [x]) rest ae2 with
        | none => none
        | some (out2, ae3) => some (out ++ out2, ae3)) with
    | none => none
    | some (out, ae2) => some (out ++ encFinish ae2)) = _
  rw [hres]
  show (match (match encodeFrom sM (hist ++ [x]) rest ae2 with
      | none => none
      | some (out2, ae3) => some (out ++ out2, ae3)) with
    | none => none
    | some (out, ae2) => some (out ++ encFinish ae2)) = _
  cases hrest : encodeFrom sM (hist ++ [x]) rest ae2 with
  | none =>
    show none = (match encodeAll sM (hist ++ [x]) rest ae2 with
      | none => none
      | some F2 => some (out ++ F2))
    unfold encodeAll
    rw [hrest]
  | some p =>
    obtain ⟨out2, ae3⟩ := p
    show some ((out ++ out2) ++ encFinish ae3) = (match encodeAll sM (hist ++ [x]) rest ae2 with
      | none => none
      | some F2 => some (out ++ F2))
    unfold encodeAll
    rw [hrest]
    show some ((out ++ out2) ++ encFinish ae3) = some (out ++ (out2 ++ encFinish ae3))
    rw [List.append_assoc]

/-- One unfolding of the decoder's main loop on an explicit state. -/
theorem decodeFrom_succ_mk (sM : List Bool → ℕ) (hist : List Bool) (i l h v : ℕ)
    (U : List Bool) (g : ℕ) :
    decodeFrom sM hist (i + 1) ⟨l, h, v⟩ U g =
      (let split := add64 l (mul64 (add64 (sub64 h l) 1) (sM hist) / topValue)
       let bit : Bool := decide (split ≤ v)
       let ad1 : arithmeticDecoder := if bit then ⟨split, h, v⟩ else ⟨l, sub64 split 1, v⟩
       match decRescale encFuel ad1 U g with
       | none => none
       | some (.error e) => some ([bit], some e)
       | some (.ok (ad2, src2, g2)) =>
         match decodeFrom sM (hist ++ [bit]) i ad2 src2 g2 with
         | none => none
         | some (out, err) => some (bit :: out, err)) := rfl

theorem decFill_succ (n v : ℕ) (src : List Bool) (g : ℕ) :
    decFill (n + 1) v src g =
      match readDecBit src g with
      | .error e => .error e
      | .ok (inb, src2, g2) => decFill n (add64 (mul64 2 v) inb) src2 g2 := rfl

/-- The decoder's initial fill: it reads `n` bits (padding with 1s within
the garbage budget) and its value scales the stream denotation by `2^n`. -/
theorem decFill_run : ∀ (n v : ℕ) (src : List Bool) (g : ℕ),
    (g : ℤ) + n ≤ 30 + src.length →
    (v + 1) * 2 ^ n ≤ 2 ^ 64 →
    ∃ v2 g2, decFill n v src g = .ok (v2, src.drop n, g2) ∧
      g2 = g + (n - src.length) ∧
      (v2 : ℚ) + nuQ (src.drop n) / 2 ^ 32 = 2 ^ n * ((v : ℚ) + nuQ src / 2 ^ 32) := by
  intro n
  induction n with
  | zero =>
    intro v src g hbud hsz
    refine ⟨v, g, ?_, by omega, by rw [pow_zero, one_mul, List.drop_zero]⟩
    rw [List.drop_zero]
    rfl
  | succ n ih =>
    intro v src g hbud hsz
    obtain ⟨inb, Ur, gr, hread, hinb, hUr, hgr, hnu⟩ := readDecBit_spec src g (by omega)
    have hUrlen : Ur.length = src.length - 1 := by rw [hUr, List.length_drop]
    have h2v : 2 * v + inb < 2 ^ 64 := by
      have h1 : 2 * (v + 1) ≤ (v + 1) * 2 ^ (n + 1) := by
        rw [mul_comm 2 (v + 1)]
        exact Nat.mul_le_mul_left _ (by
          have : 2 ^ 1 ≤ 2 ^ (n + 1) := Nat.pow_le_pow_right (by omega) (by omega)
          simpa using this)
      omega
    have ev : mul64 2 v = 2 * v := by unfold mul64; rw [M64_eq]; omega
    have eva : add64 (2 * v) inb = 2 * v + inb := by unfold add64; rw [M64_eq]; omega
    have hsz' : (2 * v + inb + 1) * 2 ^ n ≤ 2 ^ 64 := by
      calc (2 * v + inb + 1) * 2 ^ n ≤ (2 * (v + 1)) * 2 ^ n :=
            Nat.mul_le_mul_right _ (by omega)
        _ = (v + 1) * 2 ^ (n + 1) := by ring
        _ ≤ 2 ^ 64 := hsz
    obtain ⟨v2, g2, hfill, hg2, hN⟩ := ih (2 * v + inb) Ur gr (by omega) hsz'
    refine ⟨v2, g2, ?_, by omega, ?_⟩
    · rw [decFill_succ, hread]
      show decFill n (add64 (mul64 2 v) inb) Ur gr = _
      rw [ev, eva, hfill, hUr, List.drop_drop, Nat.add_comm]
    · rw [hUr] at hnu
      rw [hUr, List.drop_drop, Nat.add_comm 1 n] at hN
      rw [hN, hnu]
      push_cast
      ring

end witten

namespace witten

/-- The round-trip lockstep theorem: from any loop-boundary state, the
encoder's remaining output `F` is produced within the fuel, denotes a
point strictly inside the current interval, has length `totIters + fb + 2`
where `totIters` counts the remaining rescale iterations, and any decoder
state over the same interval whose value-and-stream denotation equals that
point emits exactly the remaining input, with the garbage budget closing
at exactly 30 substituted bits. -/
theorem encodeAll_decode (sM : List Bool → ℕ)
    (hM : ∀ h', 4 ≤ sM h' ∧ sM h' + 1 ≤ topValue) :
    ∀ (xs hist : List Bool) (l h fb : ℕ), StepInv l h →
    ∃ F totIters,
      encodeAll sM hist xs ⟨l, h, fb⟩ = some F ∧
      (l : ℚ) < yVal fb F ∧ yVal fb F ≤ (h : ℚ) + 1 ∧
      F.length = totIters + fb + 2 ∧
      (∀ (v : ℕ) (U : List Bool) (g : ℕ), l ≤ v → v ≤ h →
        (v : ℚ) + nuQ U / 2 ^ 32 = yVal fb F →
        (U.length : ℤ) + 30 = totIters + g →
        decodeFrom sM hist xs.length ⟨l, h, v⟩ U g = some (xs, none)) := by
  intro xs
  induction xs with
  | nil =>
    intro hist l h fb hstep
    obtain ⟨h1, h2, h3, h4, h5⟩ := hstep
    by_cases hb : firstQtr ≤ l
    · have hd : decide (firstQtr ≤ l) = true := by simp [hb]
      have hF : encFinish ⟨l, h, fb⟩ = true :: List.replicate (fb + 1) false := by
        unfold encFinish
        rw [bitPlusFollow_fst]
        simp only [enc_mk_low, enc_mk_fbits]
        rw [hd]
        rfl
      have hyv : yVal fb (true :: List.replicate (fb + 1) false) = nuQ [true, false] := by
        rw [List.replicate_succ']
        have h0 := yVal_emit fb true [false]
        simpa using h0
      have hnum : nuQ [true, false] = 3221225472 := by norm_num [nuQ]
      have hq3 : 3221225472 ≤ h := by
        rcases h5 with h5a | h5b
        · rw [firstQtr_eq] at hb h5a
          omega
        · rw [thirdQtr_eq] at h5b
          exact h5b
      refine ⟨true :: List.replicate (fb + 1) false, 0, by rw [encodeAll_nil, hF], ?_, ?_, ?_, ?_⟩
      · rw [hyv, hnum]
        have h4' : l < 2147483648 := by rw [half_eq] at h4; exact h4
        exact_mod_cast lt_trans h4' (by norm_num)
      · rw [hyv, hnum]
        have : (3221225472 : ℚ) ≤ (h : ℚ) := by exact_mod_cast hq3
        linarith
      · simp only [List.length_cons, List.length_replicate]
        omega
      · intro v U g _ _ _ _
        rfl
    · have hd : decide (firstQtr ≤ l) = false := by simp [hb]
      have hF : encFinish ⟨l, h, fb⟩ = false :: List.replicate (fb + 1) true := by
        unfold encFinish
        rw [bitPlusFollow_fst]
        simp only [enc_mk_low, enc_mk_fbits]
        rw [hd]
        rfl
      have hyv : yVal fb (false :: List.replicate (fb + 1) true) = nuQ [false, true] := by
        rw [List.replicate_succ']
        have h0 := yVal_emit fb false [true]
        simpa using h0
      have hnum : nuQ [false, true] = 2147483648 := by norm_num [nuQ]
      refine ⟨false :: List.replicate (fb + 1) true, 0, by rw [encodeAll_nil, hF], ?_, ?_, ?_, ?_⟩
      · rw [hyv, hnum]
        have hb' : l < 1073741824 := by rw [firstQtr_eq] at hb; omega
        exact_mod_cast lt_trans hb' (by norm_num)
      · rw [hyv, hnum]
        have h3' : 2147483648 ≤ h := by rw [half_eq] at h3; exact h3
        have : (2147483648 : ℚ) ≤ (h : ℚ) := by exact_mod_cast h3'
        linarith
      · simp only [List.length_cons, List.length_replicate]
        omega
      · intro v U g _ _ _ _
        rfl
  | cons x rest ih =>
    intro hist l h fb hstep
    have hs := hM hist
    obtain ⟨δ, hδ1, hδ2, hsplit, hsub1, hnarrow⟩ :=
      encNarrow_spec ⟨l, h, fb⟩ (sM hist) x hstep hs.1 hs.2
    simp only [enc_mk_low, enc_mk_high, enc_mk_fbits] at hδ2 hsplit hsub1 hnarrow
    obtain ⟨h1, h2, h3, h4, h5⟩ := hstep
    have hνU1 : ∀ U : List Bool, nuQ U ≤ 2 ^ 32 := nuQ_le
    have hνU0 : ∀ U : List Bool, 0 < nuQ U := nuQ_pos
    cases x with
    | true =>
      have hnarrow' : encNarrow ⟨l, h, fb⟩ (sM hist) true = ⟨l + δ, h, fb⟩ := by
        rw [hnarrow]
        rfl
      have hE : EncInv (l + δ) h := ⟨hδ2, h2⟩
      have hbudE : half < 2 ^ 33 * (h - (l + δ) + 1) := by
        calc half < 2 ^ 33 := by rw [half_eq]; norm_num
          _ ≤ _ := Nat.le_mul_of_pos_right _ (by omega)
      obtain ⟨out, l2, h2', fb2, k, hrun, hstep2, hfb, hlen, hy, hdec⟩ :=
        encRescale_sync 33 (l + δ) h fb hE hbudE
      obtain ⟨F2, T2, hencF2, hyl2, hyh2, hlenF2, hdec2⟩ := ih (hist ++ [true]) l2 h2' fb2 hstep2
      obtain ⟨hyW1, hyW2⟩ := hy F2
      have hk : (0 : ℚ) < 2 ^ k := by positivity
      have hcastlδ : ((l + δ : ℕ) : ℚ) = (l : ℚ) + (δ : ℚ) := by push_cast; ring
      have hYlow : ((l : ℚ) + δ) < yVal fb (out ++ F2) := by
        have step1 : (0 : ℚ) < 2 ^ k * (yVal fb (out ++ F2) - ((l + δ : ℕ) : ℚ)) := by
          rw [← hyW1]
          linarith [hyl2]
        rcases mul_pos_iff.mp step1 with ⟨_, hpos⟩ | ⟨hneg, _⟩
        · rw [hcastlδ] at hpos
          linarith
        · linarith
      have hYhigh : yVal fb (out ++ F2) ≤ (h : ℚ) + 1 := by
        have hge : (0 : ℚ) ≤ 2 ^ k * (((h : ℚ) + 1) - yVal fb (out ++ F2)) := by
          rw [← hyW2]
          linarith [hyh2]
        by_contra hcon
        push_neg at hcon
        have : 2 ^ k * (((h : ℚ) + 1) - yVal fb (out ++ F2)) < 0 :=
          mul_neg_of_pos_of_neg hk (by linarith)
        linarith
      have hrun' : encRescale encFuel (encNarrow ⟨l, h, fb⟩ (sM hist) true) =
          some (out, ⟨l2, h2', fb2⟩) := by
        rw [hnarrow', show encFuel = 33 + 1 from rfl]
        exact hrun
      refine ⟨out ++ F2, k + T2, ?_, ?_, ?_, ?_, ?_⟩
      · rw [encodeAll_cons sM hist true rest _ _ _ hrun', hencF2]
      · have hδ1' : (1 : ℚ) ≤ (δ : ℚ) := by exact_mod_cast hδ1
        linarith
      · exact hYhigh
      · rw [List.length_append, hlenF2]
        omega
      · intro v U g hv1 hv2 hN hbud
        have hvsplit : l + δ ≤ v := by
          have hνR : nuQ U / 2 ^ 32 ≤ 1 := by
            rw [div_le_one (by positivity)]
            exact hνU1 U
          have hlt : ((l + δ : ℕ) : ℚ) < (v : ℚ) + 1 := by
            rw [hcastlδ]
            linarith [hN, hYlow]
          have : l + δ < v + 1 := by exact_mod_cast hlt
          omega
        have hbitT : decide (l + δ ≤ v) = true := by
          simp only [decide_eq_true_eq]
          exact hvsplit
        obtain ⟨v2, U2, g2, hdrun, hv21, hv22, hU2, hg2, htr⟩ :=
          hdec v U g hvsplit hv2 (by omega)
        have hU2len : U2.length = U.length - k := by rw [hU2, List.length_drop]
        have hN2 : (v2 : ℚ) + nuQ U2 / 2 ^ 32 = yVal fb2 F2 := by
          rw [hN] at htr
          rw [← hyW1] at htr
          linarith [htr]
        have hbud2 : (U2.length : ℤ) + 30 = T2 + g2 := by omega
        have hrec := hdec2 v2 U2 g2 hv21 hv22 hN2 hbud2
        rw [show ((true :: rest : List Bool).length) = rest.length + 1 from rfl,
          decodeFrom_succ_mk]
        simp only [hsplit]
        rw [hbitT, if_pos rfl, show encFuel = 33 + 1 from rfl, hdrun]
        show (match decodeFrom sM (hist ++ [true]) rest.length ⟨l2, h2', v2⟩ U2 g2 with
            | none => none
            | some (out, err) => some (true :: out, err)) = some (true :: rest, none)
        rw [hrec]
    | false =>
      have hnarrow' : encNarrow ⟨l, h, fb⟩ (sM hist) false = ⟨l, l + δ - 1, fb⟩ := by
        rw [hnarrow]
        rfl
      have hE : EncInv l (l + δ - 1) := ⟨by omega, le_trans (by omega) h2⟩
      have hbudE : half < 2 ^ 33 * ((l + δ - 1) - l + 1) := by
        calc half < 2 ^ 33 := by rw [half_eq]; norm_num
          _ ≤ _ := Nat.le_mul_of_pos_right _ (by omega)
      obtain ⟨out, l2, h2', fb2, k, hrun, hstep2, hfb, hlen, hy, hdec⟩ :=
        encRescale_sync 33 l (l + δ - 1) fb hE hbudE
      obtain ⟨F2, T2, hencF2, hyl2, hyh2, hlenF2, hdec2⟩ := ih (hist ++ [false]) l2 h2' fb2 hstep2
      obtain ⟨hyW1, hyW2⟩ := hy F2
      have hk : (0 : ℚ) < 2 ^ k := by positivity
      have hcasth1 : ((l + δ - 1 : ℕ) : ℚ) = (l : ℚ) + (δ : ℚ) - 1 := by
        rw [Nat.cast_sub (by omega)]
        push_cast
        ring
      have hYlow : (l : ℚ) < yVal fb (out ++ F2) := by
        have step1 : (0 : ℚ) < 2 ^ k * (yVal fb (out ++ F2) - (l : ℚ)) := by
          rw [← hyW1]
          linarith [hyl2]
        rcases mul_pos_iff.mp step1 with ⟨_, hpos⟩ | ⟨hneg, _⟩
        · linarith
        · linarith
      have hYhigh : yVal fb (out ++ F2) ≤ (l : ℚ) + (δ : ℚ) := by
        have hge : (0 : ℚ) ≤ 2 ^ k * ((((l + δ - 1 : ℕ) : ℚ) + 1) - yVal fb (out ++ F2)) := by
          rw [← hyW2]
          linarith [hyh2]
        by_contra hcon
        push_neg at hcon
        have : 2 ^ k * ((((l + δ - 1 : ℕ) : ℚ) + 1) - yVal fb (out ++ F2)) < 0 :=
          mul_neg_of_pos_of_neg hk (by rw [hcasth1]; linarith)
        linarith
      have hrun' : encRescale encFuel (encNarrow ⟨l, h, fb⟩ (sM hist) false) =
          some (out, ⟨l2, h2', fb2⟩) := by
        rw [hnarrow', show encFuel = 33 + 1 from rfl]
        exact hrun
      refine ⟨out ++ F2, k + T2, ?_, hYlow, ?_, ?_, ?_⟩
      · rw [encodeAll_cons sM hist false rest _ _ _ hrun', hencF2]
      · have hδh : (δ : ℚ) ≤ ((h : ℚ) + 1) - (l : ℚ) := by
          have : l + δ ≤ h := hδ2
          have hc : ((l + δ : ℕ) : ℚ) ≤ (h : ℚ) := by exact_mod_cast this
          push_cast at hc
          linarith
        linarith [hYhigh]
      · rw [List.length_append, hlenF2]
        omega
      · intro v U g hv1 hv2 hN hbud
        have hvsplit : v < l + δ := by
          have hlt : (v : ℚ) < (l : ℚ) + (δ : ℚ) := by
            linarith [hN, hYhigh, hνU0 U]
          have : (v : ℚ) < ((l + δ : ℕ) : ℚ) := by
            rw [show ((l + δ : ℕ) : ℚ) = (l : ℚ) + (δ : ℚ) by push_cast; ring]
            exact hlt
          exact_mod_cast this
        have hbitF : decide (l + δ ≤ v) = false := by
          simp only [decide_eq_false_iff_not]
          omega
        obtain ⟨v2, U2, g2, hdrun, hv21, hv22, hU2, hg2, htr⟩ :=
          hdec v U g hv1 (by omega) (by omega)
        have hU2len : U2.length = U.length - k := by rw [hU2, List.length_drop]
        have hN2 : (v2 : ℚ) + nuQ U2 / 2 ^ 32 = yVal fb2 F2 := by
          rw [hN] at htr
          rw [← hyW1] at htr
          linarith [htr]
        have hbud2 : (U2.length : ℤ) + 30 = T2 + g2 := by omega
        have hrec := hdec2 v2 U2 g2 hv21 hv22 hN2 hbud2
        rw [show ((false :: rest : List Bool).length) = rest.length + 1 from rfl,
          decodeFrom_succ_mk]
        simp only [hsplit]
        rw [hbitF, if_neg (by simp), hsub1, show encFuel = 33 + 1 from rfl, hdrun]
        show (match decodeFrom sM (hist ++ [false]) rest.length ⟨l2, h2', v2⟩ U2 g2 with
            | none => none
            | some (out, err) => some (false :: out, err)) = some (false :: rest, none)
        rw [hrec]

end witten

namespace witten

/-- C1, amended: the round trip is lossless for every input and every
model whose scaled probabilities `uint64(prob0*topValueDbl)` stay within
`[4, topValue-1]` (the claim as stated, over all models, is refuted by
`C1_roundtrip_counterexample`): `Decode` of `Encode`'s output with the
identically-initialized model and `originalSize = |x|` emits exactly `x`
and returns no error. -/
theorem C1_roundtrip_amended (M : List Bool → ℝ)
    (hM : ∀ h', 4 ≤ scaled (M h') ∧ scaled (M h') + 1 ≤ topValue) (xs : List Bool) :
    ∃ F, Encode M xs = some F ∧ Decode M F xs.length = some (xs, none) := by
  obtain ⟨F, T, henc, hyl, hyh, hlenF, hdec⟩ :=
    encodeAll_decode (fun h' => scaled (M h')) hM xs [] 0 topValue 0 StepInv_init
  refine ⟨F, ?_, ?_⟩
  · show EncodeS (fun h' => scaled (M h')) xs = some F
    rw [EncodeS_eq_encodeAll]
    exact henc
  · have hbudF : (0 : ℤ) + 32 ≤ 30 + F.length := by
      have : F.length = T + 2 := by omega
      omega
    obtain ⟨v2, g2, hfill, hg2, hNfill⟩ := decFill_run 32 0 F 0 hbudF (by norm_num)
    have hy0 : (v2 : ℚ) + nuQ (F.drop 32) / 2 ^ 32 = yVal 0 F := by
      rw [hNfill, yVal_zero]
      push_cast
      ring
    have hv2top : v2 ≤ topValue := by
      have h1 : (v2 : ℚ) < 2 ^ 32 := by
        have hhi : yVal 0 F ≤ ((topValue : ℕ) : ℚ) + 1 := hyh
        rw [topValue_eq] at hhi
        have : ((4294967295 : ℕ) : ℚ) + 1 = 2 ^ 32 := by norm_num
        rw [this] at hhi
        have hpos := nuQ_pos (F.drop 32)
        have hdiv : 0 < nuQ (F.drop 32) / 2 ^ 32 := by positivity
        linarith [hy0]
      have : (v2 : ℚ) < ((4294967296 : ℕ) : ℚ) := by
        rw [show ((4294967296 : ℕ) : ℚ) = 2 ^ 32 by norm_num]
        exact h1
      rw [topValue_eq]
      have := (Nat.cast_lt (α := ℚ)).mp this
      omega
    have hUlen : (F.drop 32).length = F.length - 32 := List.length_drop 32 F
    have hbudD : ((F.drop 32).length : ℤ) + 30 = T + g2 := by
      have : F.length = T + 2 := by omega
      omega
    have hrun := hdec v2 (F.drop 32) g2 (Nat.zero_le v2) hv2top hy0 hbudD
    show DecodeS (fun h' => scaled (M h')) F xs.length = some (xs, none)
    unfold DecodeS
    rw [show (codeValueBits : ℕ) = 32 from rfl, hfill]
    exact hrun

/-- A model with constant `Prob0 = 1/2`. -/
noncomputable def halfModel : List Bool → ℝ := fun _ => 1 / 2

theorem halfModel_scaled : ∀ h', scaled (halfModel h') = 2147483647 := by
  intro h'
  show ⌊(1 / 2 : ℝ) * ((topValue : ℕ) : ℝ)⌋₊ = 2147483647
  rw [show ((topValue : ℕ) : ℝ) = ((4294967295 : ℕ) : ℝ) from rfl]
  rw [Nat.floor_eq_iff (by positivity)]
  push_cast
  norm_num

/-- Witness for the amended C1 on a concrete model and input. -/
theorem C1_roundtrip_amended_witness :
    (∀ h', 4 ≤ scaled (halfModel h') ∧ scaled (halfModel h') + 1 ≤ topValue) ∧
    ∃ F, Encode halfModel [true] = some F ∧ Decode halfModel F 1 = some ([true], none) :=
  ⟨fun h' => by rw [halfModel_scaled h']; constructor <;> decide,
    C1_roundtrip_amended halfModel
      (fun h' => by rw [halfModel_scaled h']; constructor <;> decide) [true]⟩

end witten

namespace rl

/-! ## The Rissanen–Langdon coder's relabeling (`src/unnamed/part_004`)

Only the per-step preparation blocks of `Encode` (lines 41–61) and the
relabeling blocks of `Decode` (lines 149–160 and 294–303) are embedded:
the model probability `prob0` is a float embedded as ℝ, and the
`uint64(...)` conversion of the nonnegative skew is the floor. -/

/-- The precision `f` of the skew accumulator. -/
def fRL : ℕ := 20

/-- The encoder's preparation: the working probability `p` and the
relabeled symbol `xt` (`prob0 > 0.5` keeps the symbol, otherwise the
more-likely symbol is treated as zero). -/
noncomputable def encPrepare (prob0 : ℝ) (x : Bool) : ℝ × Bool :=
  if prob0 > 1 / 2 then (prob0, x) else (1 - prob0, !x)

/-- The decoder's preparation of the working probability `p`. -/
noncomputable def decP (prob0 : ℝ) : ℝ :=
  if prob0 > 1 / 2 then prob0 else 1 - prob0

/-- `uint64(math.Exp2(float64(f))*math.Log2(1/p) + 0.5)`. -/
noncomputable def v_0raw (p : ℝ) : ℕ :=
  ⌊(2 : ℝ) ^ fRL * Real.logb 2 (1 / p) + 1 / 2⌋₊

/-- The skew parameter after the `if v_0 < 3` clamp. -/
noncomputable def v_0 (p : ℝ) : ℕ :=
  if v_0raw p < 3 then 3 else v_0raw p

/-- The decoder's relabeling of the decoded symbol back, before it is
emitted and observed. -/
noncomputable def decRelabel (prob0 : ℝ) (xt : Bool) : Bool :=
  if prob0 ≤ 1 / 2 then !xt else xt

theorem v_0_eq_max (p : ℝ) : v_0 p = max 3 (v_0raw p) := by
  unfold v_0
  by_cases h : v_0raw p < 3
  · rw [if_pos h]
    omega
  · rw [if_neg h]
    omega

/-- C8: the Rissanen–Langdon relabeling.  When `prob0 ≤ 0.5` the encoder
works on the complemented symbol and the decoder complements the decoded
symbol back; otherwise both keep the symbol.  In both directions the
working probability is the larger of `prob0` and `1 - prob0`, and the
skew parameter is `max(3, round(2^f · log2(1/p)))` with `f = 20`, where
rounding a nonnegative float is `⌊· + 1/2⌋`. -/
theorem C8_rissanen_langdon_relabel (prob0 : ℝ) (x xt : Bool) :
    (encPrepare prob0 x).2 = (if prob0 ≤ 1 / 2 then !x else x) ∧
    decRelabel prob0 xt = (if prob0 ≤ 1 / 2 then !xt else xt) ∧
    (encPrepare prob0 x).1 = max prob0 (1 - prob0) ∧
    decP prob0 = max prob0 (1 - prob0) ∧
    v_0 ((encPrepare prob0 x).1) =
      max 3 ⌊(2 : ℝ) ^ 20 * Real.logb 2 (1 / max prob0 (1 - prob0)) + 1 / 2⌋₊ ∧
    v_0 (decP prob0) =
      max 3 ⌊(2 : ℝ) ^ 20 * Real.logb 2 (1 / max prob0 (1 - prob0)) + 1 / 2⌋₊ := by
  have hmax : (if prob0 > 1 / 2 then prob0 else 1 - prob0) = max prob0 (1 - prob0) := by
    by_cases hp : prob0 > 1 / 2
    · rw [if_pos hp, max_eq_left (by linarith)]
    · rw [if_neg hp, max_eq_right (by push_neg at hp; linarith)]
  have henc1 : (encPrepare prob0 x).1 = max prob0 (1 - prob0) := by
    unfold encPrepare
    by_cases hp : prob0 > 1 / 2
    · rw [if_pos hp, ← hmax, if_pos hp]
    · rw [if_neg hp, ← hmax, if_neg hp]
  have hdecp : decP prob0 = max prob0 (1 - prob0) := by
    unfold decP
    exact hmax
  refine ⟨?_, ?_, henc1, hdecp, ?_, ?_⟩
  · unfold encPrepare
    by_cases hp : prob0 > 1 / 2
    · rw [if_pos hp, if_neg (by linarith)]
    · rw [if_neg hp, if_pos (by linarith [not_lt.mp hp])]
  · unfold decRelabel
    by_cases hp : prob0 ≤ 1 / 2
    · rw [if_pos hp]
    · rw [if_neg hp]
  · rw [v_0_eq_max, henc1]
    rfl
  · rw [v_0_eq_max, hdecp]
    rfl

end rl
